import Mathlib

/-!
# readr delimited writer: a shallow embedding of `write_delim.cpp`

Conventions of the embedding.

* A C `char` is a Lean `Char`; only equality of characters is ever used.
* A `const char*` argument is the list of the characters that precede its
  terminating NUL, so the loop guard `*cur != 0` of the source is the
  test for the empty list.
* A `std::string` is the list of its characters.
* An output stream is the list of the characters written to it so far;
  `output << x` appends the text of `x`.
-/

namespace Readr

/-- The characters written to a stream so far. -/
abbrev Stream := List Char

/-! ## `needs_quote` (write_delim.cpp:21-31) -/

/-- The scanning loop of `needs_quote`, lines 25-28. -/
def needs_quote_loop (delim : Char) : List Char → Bool
  | [] => false
  | cur :: rest =>
    if cur = '\n' ∨ cur = '\r' ∨ cur = '"' ∨ cur = delim then true
    else needs_quote_loop delim rest

/-- The function `needs_quote(const char* string, char delim, const std::string& na)`. -/
def needs_quote (string : List Char) (delim : Char) (na : List Char) : Bool :=
  if string = na then true
  else needs_quote_loop delim string

/-! ## `stream_delim(Stream&, const char*, char, const std::string&)` (write_delim.cpp:33-52) -/

/-- The copying loop of the field writer, lines 40-48: a double quote is
written twice, every other character once. -/
def stream_delim_cstr_loop (output : Stream) : List Char → Stream
  | [] => output
  | cur :: rest =>
    if cur = '"' then stream_delim_cstr_loop (output ++ ['"', '"']) rest
    else stream_delim_cstr_loop (output ++ [cur]) rest

/-- The field writer for a C string, lines 33-52. -/
def stream_delim_cstr (output : Stream) (string : List Char) (delim : Char)
    (na : List Char) : Stream :=
  let quotes := needs_quote string delim na
  let output1 := if quotes then output ++ ['"'] else output
  let output2 := stream_delim_cstr_loop output1 string
  if quotes then output2 ++ ['"'] else output2

/-! ## Values of R vectors

The constants and classification predicates below belong to R's C interface
(`Rinternals.h`, `R_ext/Arith.h`) and to the C++ stream library; they are
modelled on their documented definitions. -/

/-- R's `TRUE`. -/
def TRUE : Int := 1

/-- R's `FALSE`. -/
def FALSE : Int := 0

/-- R's `NA_INTEGER`, the smallest 32-bit integer. -/
def NA_INTEGER : Int := -2147483648

/-- R's `NA_LOGICAL`, the same bit pattern as `NA_INTEGER`. -/
def NA_LOGICAL : Int := -2147483648

/-- The biased exponent field (11 bits) of a double given by its 64-bit pattern. -/
def exponent_field (bits : Nat) : Nat := bits / 2 ^ 52 % 2048

/-- The fraction field (52 bits) of a double given by its 64-bit pattern. -/
def fraction_field (bits : Nat) : Nat := bits % 2 ^ 52

/-- The sign bit of a double given by its 64-bit pattern. -/
def sign_bit (bits : Nat) : Nat := bits / 2 ^ 63 % 2

/-- R's `R_FINITE`: neither an infinity nor a NaN. -/
def R_FINITE (bits : Nat) : Bool := decide (exponent_field bits ≠ 2047)

/-- R's `ISNAN`: true for every NaN, R's NA included. -/
def ISNAN (bits : Nat) : Bool :=
  decide (exponent_field bits = 2047) && decide (fraction_field bits ≠ 0)

/-- R's `ISNA`: a NaN whose low 32-bit word is 1954. -/
def ISNA (bits : Nat) : Bool := ISNAN bits && decide (bits % 2 ^ 32 = 1954)

/-- The comparison `value > 0` on doubles: false for a NaN, for both zeros
and for every value with the sign bit set. -/
def double_gt_zero (bits : Nat) : Bool :=
  !ISNAN bits && decide (sign_bit bits = 0) &&
    !(decide (exponent_field bits = 0) && decide (fraction_field bits = 0))

/-- R's `NA_REAL` as a bit pattern: high word `0x7FF00000`, low word 1954. -/
def NA_REAL : Nat := 0x7FF00000000007A2

/-- The pattern of positive infinity. -/
def POS_INF : Nat := 0x7FF0000000000000

/-- The pattern of negative infinity. -/
def NEG_INF : Nat := 0xFFF0000000000000

/-! ### `operator<<` for `int` -/

/-- The decimal digits of a natural number, most significant first, pushed in
front of `acc`; `fuel` bounds the number of digits produced. -/
def put_digits : Nat → Nat → List Char → List Char
  | 0, _, acc => acc
  | fuel + 1, n, acc =>
    if n / 10 = 0 then Nat.digitChar (n % 10) :: acc
    else put_digits fuel (n / 10) (Nat.digitChar (n % 10) :: acc)

/-- The decimal text of a natural number. -/
def put_nat (n : Nat) : List Char := put_digits (n + 1) n []

/-- The text `output << value` writes for an `int` with the stream's default
flags (decimal, no sign for non-negative values) in the classic locale (no
digit grouping). -/
def put_int (value : Int) : List Char :=
  if value < 0 then '-' :: put_nat value.natAbs else put_nat value.natAbs

/-! ### `operator<<` for `double` at precision 17

With the default float field and precision 17 the stream formats a finite
double as C's `%.17g`: 17 significant digits, correctly rounded (ties to
even), fixed notation when the decimal exponent lies in `[-4, 17)` and
scientific notation otherwise, trailing zeros removed. -/

/-- The finite non-zero value of a double as a fraction of naturals, sign
dropped: `(numerator, denominator)`. -/
def double_fraction (bits : Nat) : Nat × Nat :=
  let e := exponent_field bits
  let f := fraction_field bits
  if e = 0 then (f, 2 ^ 1074)
  else if e < 1075 then (2 ^ 52 + f, 2 ^ (1075 - e))
  else ((2 ^ 52 + f) * 2 ^ (e - 1075), 1)

/-- Whether `10 ^ (t - 324) ≤ num / den`. -/
def ge_pow10 (num den t : Nat) : Bool :=
  if 324 ≤ t then decide (10 ^ (t - 324) * den ≤ num)
  else decide (den ≤ num * 10 ^ (324 - t))

/-- The largest `t ≤ start` with `10 ^ (t - 324) ≤ num / den` (0 when none). -/
def dec_exponent (num den : Nat) : Nat → Nat
  | 0 => 0
  | t + 1 => if ge_pow10 num den (t + 1) = true then t + 1 else dec_exponent num den t

/-- The quotient `a / b` rounded to the nearest natural, ties to even. -/
def round_half_even (a b : Nat) : Nat :=
  let q := a / b
  let r := a % b
  if b < 2 * r ∨ (2 * r = b ∧ q % 2 = 1) then q + 1 else q

/-- The text without its trailing zeros. -/
def strip_zeros (digits : List Char) : List Char :=
  (digits.reverse.dropWhile (fun c => c == '0')).reverse

/-- The exponent part of scientific notation: `e`, a sign, at least two digits. -/
def put_exponent (t : Nat) : List Char :=
  let a := if 324 ≤ t then t - 324 else 324 - t
  let sign := if 324 ≤ t then '+' else '-'
  'e' :: sign :: (if a < 10 then '0' :: put_nat a else put_nat a)

/-- The layout of `%.17g` for the 17 significant digits `digits` of a value
whose decimal exponent is `t - 324`: scientific notation when the exponent
is below -4 or at least 17, fixed notation otherwise; trailing zeros of the
fractional part are dropped, and so is the point when nothing follows it. -/
def put_layout (digits : List Char) (t : Nat) : List Char :=
  if t < 320 ∨ 341 ≤ t then
    digits.take 1
      ++ (if strip_zeros (digits.drop 1) = [] then [] else '.' :: strip_zeros (digits.drop 1))
      ++ put_exponent t
  else if 324 ≤ t then
    digits.take (t - 323)
      ++ (if strip_zeros (digits.drop (t - 323)) = [] then []
          else '.' :: strip_zeros (digits.drop (t - 323)))
  else
    '0' :: '.' :: (List.replicate (323 - t) '0' ++ strip_zeros digits)

/-- The text of a positive finite value `num / den` under `%.17g`. -/
def put_positive (num den : Nat) : List Char :=
  let t0 := dec_exponent num den 633
  let d0 :=
    if t0 ≤ 340 then round_half_even (num * 10 ^ (340 - t0)) den
    else round_half_even num (den * 10 ^ (t0 - 340))
  let t := if d0 = 10 ^ 17 then t0 + 1 else t0
  let d := if d0 = 10 ^ 17 then 10 ^ 16 else d0
  put_layout (put_nat d) t

/-- The text `output << value` writes for a finite `double` when the stream's
precision is 17. -/
def put_double (bits : Nat) : List Char :=
  let nd := double_fraction bits
  let body := if nd.1 = 0 then ['0'] else put_positive nd.1 nd.2
  if sign_bit bits = 1 then '-' :: body else body

/-! ## R vectors and the cell writer (write_delim.cpp:103-161) -/

/-- An R vector as the writer sees it through `TYPEOF`. `LGLSXP` and `INTSXP`
hold 32-bit integers, `REALSXP` holds doubles given by their bit patterns,
`STRSXP` holds strings with `none` for `NA_STRING`; `OTHER` stands for every
other type and carries the name `Rf_type2char` gives it and its length. -/
inductive SEXP where
  | LGLSXP (elts : List Int)
  | INTSXP (elts : List Int)
  | REALSXP (elts : List Nat)
  | STRSXP (elts : List (Option (List Char)))
  | OTHER (type_name : List Char) (length : Nat)
  deriving DecidableEq

/-- `Rf_length`: the number of elements of a vector. -/
def Rf_length : SEXP → Nat
  | .LGLSXP elts => elts.length
  | .INTSXP elts => elts.length
  | .REALSXP elts => elts.length
  | .STRSXP elts => elts.length
  | .OTHER _ length => length

/-- How a write can end abnormally, with the text the stream held at that
point: `stop` is the exception `Rcpp::stop` throws with its message;
`read_past_end` is the read of an element beyond the vector's length, which
C leaves undefined. -/
inductive Failure where
  | stop (message : List Char) (written : Stream)
  | read_past_end (written : Stream)
  deriving DecidableEq

deriving instance DecidableEq for Except

/-- The message of `Rcpp::stop` in the default branch, line 158. -/
def unknown_type_message (type_name : List Char) : List Char :=
  "Don't know how to handle vector of type ".toList ++ type_name ++ ['.']

/-- The cell writer `stream_delim(Stream&, RObject x, int i, char delim,
const std::string& na)`, lines 103-161. -/
def stream_delim_elt (output : Stream) (x : SEXP) (i : Nat) (delim : Char)
    (na : List Char) : Except Failure Stream :=
  match x with
  | .LGLSXP elts =>
    match elts[i]? with
    | none => .error (.read_past_end output)
    | some value =>
      if value = TRUE then .ok (output ++ ['T', 'R', 'U', 'E'])
      else if value = FALSE then .ok (output ++ ['F', 'A', 'L', 'S', 'E'])
      else .ok (output ++ na)
  | .INTSXP elts =>
    match elts[i]? with
    | none => .error (.read_past_end output)
    | some value =>
      if value = NA_INTEGER then .ok (output ++ na)
      else .ok (output ++ put_int value)
  | .REALSXP elts =>
    match elts[i]? with
    | none => .error (.read_past_end output)
    | some value =>
      if R_FINITE value = false then
        if ISNA value = true then .ok (output ++ na)
        else if ISNAN value = true then .ok (output ++ ['N', 'a', 'N'])
        else if double_gt_zero value = true then .ok (output ++ ['I', 'n', 'f'])
        else .ok (output ++ ['-', 'I', 'n', 'f'])
      else .ok (output ++ put_double value)
  | .STRSXP elts =>
    match elts[i]? with
    | none => .error (.read_past_end output)
    | some none => .ok (output ++ na)
    | some (some string) => .ok (stream_delim_cstr output string delim na)
  | .OTHER type_name _ => .error (.stop (unknown_type_message type_name) output)

/-! ## The row writer (write_delim.cpp:9-19) -/

/-- The loop of `stream_delim_row` over the columns still to write, lines
13-17. The test `j != p - 1` of the source holds exactly when columns remain
after the current one. -/
def stream_delim_row_loop (output : Stream) (i : Nat) (delim : Char) (na : List Char) :
    List SEXP → Except Failure Stream
  | [] => .ok output
  | xj :: rest =>
    match stream_delim_elt output xj i delim na with
    | .error e => .error e
    | .ok output1 =>
      stream_delim_row_loop (if rest ≠ [] then output1 ++ [delim] else output1) i delim na rest

/-- The row writer `stream_delim_row`, lines 9-19. -/
def stream_delim_row (output : Stream) (x : List SEXP) (i : Nat) (delim : Char)
    (na : List Char) : Except Failure Stream :=
  match stream_delim_row_loop output i delim na x with
  | .error e => .error e
  | .ok output1 => .ok (output1 ++ ['\n'])

/-! ## The table writer (write_delim.cpp:54-77) -/

/-- An R list together with the attributes the code reads or sets: `names`
is `attr("names")` read as a character vector (empty when the attribute is
absent), `klass` is `attr("class")`, `row_names` is `attr("row.names")`. -/
structure RList where
  elts : List SEXP
  names : List (Option (List Char))
  klass : List (List Char)
  row_names : List Int
  deriving DecidableEq

/-- The header loop, lines 63-67: `remaining` iterations are left and `j` is
the current index; `p` is the number of columns. -/
def stream_delim_names_loop (names : SEXP) (delim : Char) (na : List Char) (p : Nat) :
    Nat → Nat → Stream → Except Failure Stream
  | 0, _, output => .ok output
  | remaining + 1, j, output =>
    match stream_delim_elt output names j delim na with
    | .error e => .error e
    | .ok output1 =>
      stream_delim_names_loop names delim na p remaining (j + 1)
        (if j ≠ p - 1 then output1 ++ [delim] else output1)

/-- The row loop, lines 74-76: `remaining` iterations are left and `i` is the
current row. -/
def stream_delim_rows_loop (df : List SEXP) (delim : Char) (na : List Char) :
    Nat → Nat → Stream → Except Failure Stream
  | 0, _, output => .ok output
  | remaining + 1, i, output =>
    match stream_delim_row output df i delim na with
    | .error e => .error e
    | .ok output1 => stream_delim_rows_loop df delim na remaining (i + 1) output1

/-- The table writer `stream_delim(Stream&, List df, char delim,
const std::string& na, bool col_names, bool append)`, lines 54-77. -/
def stream_delim_df (output : Stream) (df : RList) (delim : Char) (na : List Char)
    (col_names : Bool) (append : Bool) : Except Failure Stream :=
  match df.elts with
  | [] => .ok output
  | first_col :: others =>
    let p := (first_col :: others).length
    let header : Except Failure Stream :=
      if col_names = true then
        match stream_delim_names_loop (.STRSXP df.names) delim na p p 0 output with
        | .error e => .error e
        | .ok output1 => .ok (output1 ++ ['\n'])
      else .ok output
    match header with
    | .error e => .error e
    | .ok output2 =>
      stream_delim_rows_loop (first_col :: others) delim na (Rf_length first_col) 0 output2

/-! ## The bulk reader (fast.cpp:6-79)

The CSV reader `io::CSVReader` of `csv.h` is not part of the sources at hand.
The row loop of `read_trip_fare` sees it only through `in.read_row`, which
hands over one row after the other until the source is exhausted; the model
takes that sequence of rows as its input. -/

/-- The values `in.read_row` stores into the eleven variables of lines 46-48
for one row: five texts and six doubles (as bit patterns). -/
structure TripFareRow where
  medallion : List Char
  hack_license : List Char
  vendor_id : List Char
  pickup_datetime : List Char
  payment_type : List Char
  fare_amount : Nat
  surcharge : Nat
  mta_tax : Nat
  tip_amount : Nat
  tolls_amount : Nat
  total_amount : Nat
  deriving DecidableEq

/-- The capacity `n` of line 7. -/
def trip_fare_capacity : Nat := 14776616

/-- The column names of lines 8-18. -/
def trip_fare_names : List (List Char) :=
  ["medallion".toList, "hack_license".toList, "vendor_id".toList,
   "pickup_datetime".toList, "payment_type".toList, "fare_amount".toList,
   "surcharge".toList, "mta_tax".toList, "tip_amount".toList,
   "tolls_amount".toList, "total_amount".toList]

/-- The element `c` of a list replaced by its image under `f`. -/
def modify_nth {α : Type} (f : α → α) : Nat → List α → List α
  | _, [] => []
  | 0, a :: rest => f a :: rest
  | c + 1, a :: rest => a :: modify_nth f c rest

/-- The assignment `SET_STRING_ELT(x, i, Rf_mkCharCE(text, CE_UTF8))`. -/
def SET_STRING_ELT (x : SEXP) (i : Nat) (text : List Char) : SEXP :=
  match x with
  | .STRSXP elts => .STRSXP (elts.set i (some text))
  | other => other

/-- The assignment `REAL(x)[i] = value`. -/
def SET_REAL (x : SEXP) (i : Nat) (value : Nat) : SEXP :=
  match x with
  | .REALSXP elts => .REALSXP (elts.set i value)
  | other => other

/-- The eleven columns allocated at lines 19-30 with capacity `n`.
`Rf_allocVector` fills a string vector with the empty string and leaves a
real vector uninitialised: `junk c k` is whatever pattern element `k` of
column `c` holds before it is assigned. -/
def trip_fare_alloc (n : Nat) (junk : Nat → Nat → Nat) : List SEXP :=
  (List.range 11).map (fun c =>
    if c < 5 then SEXP.STRSXP (List.replicate n (some []))
    else SEXP.REALSXP ((List.range n).map (junk c)))

/-- The body of the row loop, lines 62-72: the eleven stores at index `i`. -/
def trip_fare_store (out : List SEXP) (i : Nat) (row : TripFareRow) : List SEXP :=
  let out0 := modify_nth (fun x => SET_STRING_ELT x i row.medallion) 0 out
  let out1 := modify_nth (fun x => SET_STRING_ELT x i row.hack_license) 1 out0
  let out2 := modify_nth (fun x => SET_STRING_ELT x i row.vendor_id) 2 out1
  let out3 := modify_nth (fun x => SET_STRING_ELT x i row.pickup_datetime) 3 out2
  let out4 := modify_nth (fun x => SET_STRING_ELT x i row.payment_type) 4 out3
  let out5 := modify_nth (fun x => SET_REAL x i row.fare_amount) 5 out4
  let out6 := modify_nth (fun x => SET_REAL x i row.surcharge) 6 out5
  let out7 := modify_nth (fun x => SET_REAL x i row.mta_tax) 7 out6
  let out8 := modify_nth (fun x => SET_REAL x i row.tip_amount) 8 out7
  let out9 := modify_nth (fun x => SET_REAL x i row.tolls_amount) 9 out8
  modify_nth (fun x => SET_REAL x i row.total_amount) 10 out9

/-- How a read can end abnormally. In the row loop: a store at an index `i`
that is not below the capacity of the columns. In the CSV reader, as the
spec names its failures: a header that lacks a declared column
(`SchemaMismatch`), a row with too few fields, a field of a real column
that is not a decimal number (`FieldParseError`). -/
inductive ReadFailure where
  | store_past_end (i : Nat)
  | schema_mismatch
  | too_few_columns (row : Nat)
  | field_parse_error (row : Nat)
  deriving DecidableEq

/-- The row loop, lines 49-74, over the rows the CSV reader hands over: the
columns and the row counter `i` are carried along; the result is the pair of
the filled columns and the final value of `i`. -/
def trip_fare_loop (n : Nat) : List TripFareRow → List SEXP → Nat →
    Except ReadFailure (List SEXP × Nat)
  | [], out, i => .ok (out, i)
  | row :: rest, out, i =>
    if i < n then trip_fare_loop n rest (trip_fare_store out i row) (i + 1)
    else .error (.store_past_end i)

/-- The function `read_trip_fare` with the capacity `n` of line 7 and the
content of the uninitialised real columns made explicit, applied to the rows
its CSV reader hands over. The attributes are those of lines 75-77. -/
def read_trip_fare_sized (n : Nat) (junk : Nat → Nat → Nat) (rows : List TripFareRow) :
    Except ReadFailure RList :=
  match trip_fare_loop n rows (trip_fare_alloc n junk) 0 with
  | .error e => .error e
  | .ok (out, _) =>
    .ok { elts := out,
          names := trip_fare_names.map some,
          klass := ["data.frame".toList],
          row_names := [NA_INTEGER, -(n : Int)] }

/-- The function `read_trip_fare` of the source, whose capacity is fixed. -/
def read_trip_fare (junk : Nat → Nat → Nat) (rows : List TripFareRow) :
    Except ReadFailure RList :=
  read_trip_fare_sized trip_fare_capacity junk rows

/-! ## The exported writer (write_delim.cpp:79-96) -/

/-- The text the stream held when the write ended abnormally. -/
def Failure.written : Failure → Stream
  | .stop _ written => written
  | .read_past_end written => written

/-- The files the writer can reach: `content path` is the text of the file at
`path` (`none` when there is no such file) and `can_open path` says whether
`std::ofstream` succeeds in opening `path` for writing. -/
structure FileSystem where
  content : List Char → Option (List Char)
  can_open : List Char → Bool

/-- The file system after the file at `path` has received the text `text`. -/
def FileSystem.write (fs : FileSystem) (path : List Char) (text : List Char) : FileSystem :=
  { content := fun q => if q = path then some text else fs.content q,
    can_open := fs.can_open }

/-- The message of `stop` at line 90. -/
def failed_to_open_message (path : List Char) : List Char :=
  "Failed to open '".toList ++ path ++ ['\'', '.']

/-- The exported function `stream_delim(List df, const std::string& path,
char delim, const std::string& na, bool col_names, bool append)`, lines
79-96: the value returned (or the failure raised) and the file system
afterwards. A stream opened with `app` starts behind the file's prior
content, one opened with `trunc` starts empty; when the write fails halfway
the file keeps what the stream had received. -/
def stream_delim (fs : FileSystem) (df : RList) (path : List Char) (delim : Char)
    (na : List Char) (col_names : Bool) (append : Bool) :
    Except Failure (List Char) × FileSystem :=
  if path = [] then
    match stream_delim_df [] df delim na col_names append with
    | .error e => (.error e, fs)
    | .ok output => (.ok output, fs)
  else if fs.can_open path = false then
    (.error (.stop (failed_to_open_message path) []), fs)
  else
    let start := if append = true then (fs.content path).getD [] else []
    match stream_delim_df start df delim na col_names append with
    | .error e => (.error e, fs.write path e.written)
    | .ok output => (.ok [], fs.write path output)

/-! ## The tokenizer factory (Tokenizer.cpp:8-21) -/

/-- The R list `spec` as `tokenizerCreate` reads it: its class attribute as a
character vector, and its elements `delim` (through `as<char>`) and `na`
(through `as<std::string>`). -/
structure TokenizerSpec where
  klass : List (List Char)
  delim : Char
  na : List Char
  deriving DecidableEq

/-- Modelled from the spec: the class `TokenizerDelimited` of
`TokenizerDelimited.h`, which is not among the sources at hand; its
constructor keeps the delimiter and the NA string it is given. -/
inductive Tokenizer where
  | TokenizerDelimited (delim : Char) (na : List Char)
  deriving DecidableEq

/-- The message of `Rcpp::stop` at line 19. -/
def unknown_tokenizer_message : List Char := "Unknown tokenizer type".toList

/-- The function `tokenizerCreate`, lines 8-21. The subclass is the last
element of the class vector, `klass[klass.size() - 1]`; with an empty class
vector that read lies outside the vector. -/
def tokenizerCreate (spec : TokenizerSpec) : Except Failure Tokenizer :=
  match spec.klass.getLast? with
  | none => .error (.read_past_end [])
  | some subclass =>
    if subclass = "tokenizer_delimited".toList then
      .ok (.TokenizerDelimited spec.delim spec.na)
    else .error (.stop unknown_tokenizer_message [])

/-! ## Reference notions used to state the properties -/

/-- The text with every double quote written twice. -/
def double_quotes : List Char → List Char
  | [] => []
  | c :: rest => if c = '"' then '"' :: '"' :: double_quotes rest else c :: double_quotes rest

/-- The quoted form of a text: an opening quote, the text with its quotes
doubled, a closing quote. -/
def quoted_form (s : List Char) : List Char := '"' :: (double_quotes s ++ ['"'])

/-- Replace each doubled quote by a single one, reading left to right. The
flag says that the previous character was a quote still waiting for its
twin; the twin, when it comes, is dropped. -/
def undouble_from (afterQuote : Bool) : List Char → List Char
  | [] => []
  | c :: rest =>
    if afterQuote = true ∧ c = '"' then undouble_from false rest
    else c :: undouble_from (decide (c = '"')) rest

/-- Replace each doubled quote by a single one. -/
def undouble (text : List Char) : List Char := undouble_from false text

/-- Unquoting: a text that starts and ends with a double quote loses that one
outer pair and has its doubled quotes replaced by single ones; any other
text is left as it is. -/
def unquote (text : List Char) : List Char :=
  match text with
  | [] => []
  | c :: rest =>
    if c = '"' ∧ rest.getLast? = some '"' then undouble rest.dropLast else text

/-- True when the character is one of the four that force quoting. -/
def is_special (delim : Char) (c : Char) : Prop :=
  c = '\n' ∨ c = '\r' ∨ c = '"' ∨ c = delim

instance (delim c : Char) : Decidable (is_special delim c) := by
  unfold is_special
  infer_instance

/-- A field put in front of the first field of a list of fields. -/
def prepend_field (f : List Char) : List (List Char) → List (List Char)
  | [] => [f]
  | g :: rest => (f ++ g) :: rest

/-- A quote-aware split of one record into its raw fields: every double quote
switches between inside and outside of quotes; outside of quotes the
delimiter ends a field and a line feed ends the record; every other
character, and every character inside quotes, belongs to the current field.
The flag says whether the scan is inside quotes. -/
def split_record (delim : Char) : Bool → List Char → List (List Char)
  | _, [] => [[]]
  | inside, c :: rest =>
    if c = '"' then prepend_field [c] (split_record delim (!inside) rest)
    else if inside = false ∧ c = '\n' then [[]]
    else if inside = false ∧ c = delim then [] :: split_record delim false rest
    else prepend_field [c] (split_record delim inside rest)

/-- Reading one written record back: a quote-aware split on the delimiter,
then every raw field unquoted. -/
def read_record (delim : Char) (line : List Char) : List (List Char) :=
  (split_record delim false line).map unquote

/-- The fields of a record joined by the delimiter. -/
def join_fields (delim : Char) : List (List Char) → List Char
  | [] => []
  | f :: rest => if rest ≠ [] then f ++ delim :: join_fields delim rest else f

/-- The text the field writer produces for a string. -/
def field_text (s : List Char) (delim : Char) (na : List Char) : List Char :=
  if needs_quote s delim na = true then quoted_form s else s

/-- Decimal reading of a run of digits, continuing from `acc`; `none` when a
character is not a digit. -/
def parse_digits (acc : Nat) : List Char → Option Nat
  | [] => some acc
  | c :: rest =>
    if c.isDigit = true then parse_digits (acc * 10 + (c.toNat - 48)) rest else none

/-- Decimal reading of an integer: an optional minus sign and at least one digit. -/
def parse_int (text : List Char) : Option Int :=
  match text with
  | [] => none
  | c :: rest =>
    if c = '-' then
      if rest = [] then none else (parse_digits 0 rest).map (fun (n : Nat) => -(Int.ofNat n))
    else (parse_digits 0 text).map (fun (n : Nat) => Int.ofNat n)

/-- The pattern is that of positive infinity. -/
def is_pos_infinity (bits : Nat) : Prop :=
  exponent_field bits = 2047 ∧ fraction_field bits = 0 ∧ sign_bit bits = 0

/-- The pattern is that of negative infinity. -/
def is_neg_infinity (bits : Nat) : Prop :=
  exponent_field bits = 2047 ∧ fraction_field bits = 0 ∧ sign_bit bits = 1

instance (bits : Nat) : Decidable (is_pos_infinity bits) := by
  unfold is_pos_infinity
  infer_instance

instance (bits : Nat) : Decidable (is_neg_infinity bits) := by
  unfold is_neg_infinity
  infer_instance

/-- The text begins with a decimal digit. -/
def starts_with_digit (text : List Char) : Prop :=
  ∃ c rest, text = c :: rest ∧ c.isDigit = true

/-- No string column of the list holds a missing element. -/
def all_present (out : List SEXP) : Prop :=
  ∀ x ∈ out, ∀ elts, x = SEXP.STRSXP elts → none ∉ elts

/-- A table with the schema of `read_trip_fare` and one row, whose first cell
is missing. -/
def trip_fare_example : RList :=
  { elts := [.STRSXP [none], .STRSXP [some ['b']], .STRSXP [some ['c']],
             .STRSXP [some ['d']], .STRSXP [some ['e']], .REALSXP [0], .REALSXP [0],
             .REALSXP [0], .REALSXP [0], .REALSXP [0], .REALSXP [0]],
    names := trip_fare_names.map some,
    klass := ["data.frame".toList],
    row_names := [NA_INTEGER, -1] }

/-- The column `col` is a string column whose row `i` holds the non-missing text `cell`. -/
def string_cell_at (i : Nat) (col : SEXP) (cell : List Char) : Prop :=
  ∃ elts, col = SEXP.STRSXP elts ∧ elts[i]? = some (some cell)

/-- A specification of the delimited variant, as the R function
`tokenizer_delimited` builds it. -/
def delimited_spec_example : TokenizerSpec :=
  { klass := ["tokenizer".toList, "tokenizer_delimited".toList], delim := ';', na := ['N', 'A'] }

/-- A specification whose variant tag is `fixed_width`. -/
def fixed_width_spec_example : TokenizerSpec :=
  { klass := ["fixed_width".toList], delim := ',', na := ['N', 'A'] }

/-- A file system with no file, in which every path can be opened. -/
def empty_file_system : FileSystem :=
  { content := fun _ => none, can_open := fun _ => true }

/-- A file system with one file `o` holding the line `h`, in which every path
but `x` can be opened. -/
def file_system_example : FileSystem :=
  { content := fun q => if q = ['o'] then some ['h', '\n'] else none,
    can_open := fun q => decide (q ≠ ['x']) }

/-- A table with one integer column `n` holding 1. -/
def one_cell_example : RList :=
  { elts := [.INTSXP [1]], names := [some ['n']], klass := [], row_names := [] }

/-- A failure with `pre` put in front of the text the stream held. -/
def Failure.shift (pre : Stream) : Failure → Failure
  | .stop message written => .stop message (pre ++ written)
  | .read_past_end written => .read_past_end (pre ++ written)

/-- The outcome of a write that started on an empty stream, seen from a
stream that already held `pre`. -/
def shift_result (pre : Stream) : Except Failure Stream → Except Failure Stream
  | .ok text => .ok (pre ++ text)
  | .error e => .error (e.shift pre)

/-- The vector has one of the four types the cell writer handles. -/
def is_supported : SEXP → Bool
  | .OTHER _ _ => false
  | _ => true

/-- The field the cell writer writes for element `i` of `x`: what it appends
to an empty stream (the empty text when it fails). -/
def cell_field (x : SEXP) (i : Nat) (delim : Char) (na : List Char) : List Char :=
  match stream_delim_elt [] x i delim na with
  | .ok text => text
  | .error _ => []

/-- Row line `i` of a table: the fields of row `i` in column order, separated
by the delimiter, then one line feed. -/
def row_line (df : List SEXP) (i : Nat) (delim : Char) (na : List Char) : List Char :=
  List.intercalate [delim] (df.map (fun x => cell_field x i delim na)) ++ ['\n']

/-- The table with one row of string cells holding the given names. -/
def names_row (names : List (Option (List Char))) : List SEXP :=
  names.map (fun name => SEXP.STRSXP [name])

/-- Whether `pattern` is found at the start of `text`. -/
def starts_with : List Char → List Char → Bool
  | [], _ => true
  | _ :: _, [] => false
  | p :: ps, c :: cs => decide (p = c) && starts_with ps cs

/-- Whether `pattern` occurs somewhere in `text`. -/
def occurs_in (pattern : List Char) : List Char → Bool
  | [] => starts_with pattern []
  | c :: cs => starts_with pattern (c :: cs) || occurs_in pattern cs

/-- The number of rows R reports for a data frame, read off its `row.names`
attribute: the compact form `c(NA, -n)` stands for `n` rows, any other
vector has one name per row. -/
def row_count (df : RList) : Nat :=
  match df.row_names with
  | [a, b] => if a = NA_INTEGER then b.natAbs else 2
  | names => names.length

/-- One cell of the trip fare table: a text or a double. -/
inductive TripCell where
  | text (s : List Char)
  | real (bits : Nat)
  deriving DecidableEq

/-- Field `c` of a row handed over by the CSV reader, in the order of the
declared schema. -/
def row_cell (row : TripFareRow) : Nat → Option TripCell
  | 0 => some (.text row.medallion)
  | 1 => some (.text row.hack_license)
  | 2 => some (.text row.vendor_id)
  | 3 => some (.text row.pickup_datetime)
  | 4 => some (.text row.payment_type)
  | 5 => some (.real row.fare_amount)
  | 6 => some (.real row.surcharge)
  | 7 => some (.real row.mta_tax)
  | 8 => some (.real row.tip_amount)
  | 9 => some (.real row.tolls_amount)
  | 10 => some (.real row.total_amount)
  | _ => none

/-- The cell at index `i` of a column: a non-missing text of a string vector
or a double of a real vector. -/
def column_cell (x : SEXP) (i : Nat) : Option TripCell :=
  match x with
  | .STRSXP elts =>
    match elts[i]? with
    | some (some s) => some (.text s)
    | _ => none
  | .REALSXP elts =>
    match elts[i]? with
    | some bits => some (.real bits)
    | none => none
  | _ => none

/-- The cell at index `i` of column `c` of a table. -/
def table_cell (out : List SEXP) (c i : Nat) : Option TripCell :=
  match out[c]? with
  | some x => column_cell x i
  | none => none

/-- The content of column `c` of the trip fare table right after allocation
with capacity `n`. -/
def trip_fare_initial (n : Nat) (junk : Nat → Nat → Nat) (c : Nat) : SEXP :=
  if c < 5 then SEXP.STRSXP (List.replicate n (some []))
  else SEXP.REALSXP ((List.range n).map (junk c))

/-- The columns of the trip fare table once the rows `rows` have been
stored: in every column the values of the rows come first, in the order
read, and the elements behind them are as allocation left them. -/
def trip_fare_columns (n : Nat) (junk : Nat → Nat → Nat) (rows : List TripFareRow) :
    List SEXP :=
  [.STRSXP (rows.map (fun r => some r.medallion)
      ++ (List.replicate n (some [])).drop rows.length),
   .STRSXP (rows.map (fun r => some r.hack_license)
      ++ (List.replicate n (some [])).drop rows.length),
   .STRSXP (rows.map (fun r => some r.vendor_id)
      ++ (List.replicate n (some [])).drop rows.length),
   .STRSXP (rows.map (fun r => some r.pickup_datetime)
      ++ (List.replicate n (some [])).drop rows.length),
   .STRSXP (rows.map (fun r => some r.payment_type)
      ++ (List.replicate n (some [])).drop rows.length),
   .REALSXP (rows.map (fun r => r.fare_amount)
      ++ ((List.range n).map (junk 5)).drop rows.length),
   .REALSXP (rows.map (fun r => r.surcharge)
      ++ ((List.range n).map (junk 6)).drop rows.length),
   .REALSXP (rows.map (fun r => r.mta_tax)
      ++ ((List.range n).map (junk 7)).drop rows.length),
   .REALSXP (rows.map (fun r => r.tip_amount)
      ++ ((List.range n).map (junk 8)).drop rows.length),
   .REALSXP (rows.map (fun r => r.tolls_amount)
      ++ ((List.range n).map (junk 9)).drop rows.length),
   .REALSXP (rows.map (fun r => r.total_amount)
      ++ ((List.range n).map (junk 10)).drop rows.length)]

/-- A row handed over by the CSV reader, for the examples. -/
def trip_fare_row_example : TripFareRow :=
  { medallion := ['m'], hack_license := ['h'], vendor_id := ['v'],
    pickup_datetime := ['p'], payment_type := ['c'], fare_amount := 1, surcharge := 2,
    mta_tax := 3, tip_amount := 4, tolls_amount := 5, total_amount := 6 }

/-- The first five columns are string vectors and the other six real vectors,
all of length `n`. -/
def trip_fare_schema (n : Nat) (out : List SEXP) : Prop :=
  out.length = 11 ∧
  (∀ (c : Nat) (x : SEXP), out[c]? = some x → Rf_length x = n) ∧
  (∀ (c : Nat) (x : SEXP), c < 5 → out[c]? = some x → ∃ elts, x = SEXP.STRSXP elts) ∧
  (∀ (c : Nat) (x : SEXP), 5 ≤ c → out[c]? = some x → ∃ elts, x = SEXP.REALSXP elts)

/-! ## Reading a written table back

The CSV reader `io::CSVReader` of `csv.h` is not among the sources at hand.
To follow a written table through `read_trip_fare`, the reader is modelled
from the spec: the wire dialect of its section 6 (records ended by a line
feed, fields separated by the delimiter, quoted fields with doubled quotes),
and the header validation and coercion of fields of its section 4.5. -/

/-- A text put in front of the first field of the first record. -/
def push_text (f : List Char) : List (List (List Char)) → List (List (List Char))
  | [] => [[f]]
  | record :: rest => prepend_field f record :: rest

/-- An empty field put in front of the first record. -/
def push_field : List (List (List Char)) → List (List (List Char))
  | [] => [[[], []]]
  | record :: rest => ([] :: record) :: rest

/-- Modelled from the spec: the split of a delimited text into records of raw
fields. Every double quote switches between inside and outside of quotes;
outside of quotes a line feed ends the record and the delimiter ends the
field; every other character, and every character inside quotes, belongs to
the current field. `fresh` says that no character of the current record has
been read yet, so that a text ending right behind a line feed has no
further record; `inside` says that the scan is inside quotes. -/
def scan_text (delim : Char) : Bool → Bool → List Char → List (List (List Char))
  | fresh, _, [] => if fresh = true then [] else [[[]]]
  | _, inside, c :: rest =>
    if c = '"' then push_text [c] (scan_text delim false (!inside) rest)
    else if inside = false ∧ c = '\n' then [[]] :: scan_text delim true false rest
    else if inside = false ∧ c = delim then push_field (scan_text delim false false rest)
    else push_text [c] (scan_text delim false inside rest)

/-- Modelled from the spec: the records of a delimited text, every field
unquoted. -/
def read_records (delim : Char) (text : List Char) : List (List (List Char)) :=
  (scan_text delim true false text).map (fun record => record.map unquote)

/-- The position of the first field of the header equal to `name`. -/
def find_column (name : List Char) : List (List Char) → Option Nat
  | [] => none
  | h :: rest =>
    if h = name then some 0
    else
      match find_column name rest with
      | some k => some (k + 1)
      | none => none

/-- Modelled from the spec: the header validated against the declared names:
the position of every declared name in the header, `none` when one is not
there; columns of the source that are not declared are passed over. -/
def find_columns (header : List (List Char)) : List (List Char) → Option (List Nat)
  | [] => some []
  | name :: rest =>
    match find_column name header, find_columns header rest with
    | some k, some ks => some (k :: ks)
    | _, _ => none

/-- The fields of a record at the given positions, `none` when the record is
too short. -/
def select_fields (record : List (List Char)) : List Nat → Option (List (List Char))
  | [] => some []
  | k :: ks =>
    match record[k]?, select_fields record ks with
    | some f, some fs => some (f :: fs)
    | _, _ => none

/-- The value of a run of decimal digits continuing from `acc`, and the number
of digits read, with the text behind the run. -/
def take_digits : Nat → Nat → List Char → Nat × Nat × List Char
  | acc, count, [] => (acc, count, [])
  | acc, count, c :: rest =>
    if c.isDigit = true then take_digits (acc * 10 + (c.toNat - 48)) (count + 1) rest
    else (acc, count, c :: rest)

/-- Whether `2 ^ (b - 1023) ≤ num / den`. -/
def ge_pow2 (num den b : Nat) : Bool :=
  if 1023 ≤ b then decide (2 ^ (b - 1023) * den ≤ num)
  else decide (den ≤ num * 2 ^ (1023 - b))

/-- The largest biased exponent `b ≤ start` with `2 ^ (b - 1023) ≤ num / den`
(0 when there is none). -/
def bin_exponent (num den : Nat) : Nat → Nat
  | 0 => 0
  | b + 1 => if ge_pow2 num den (b + 1) = true then b + 1 else bin_exponent num den b

/-- The pattern of the double nearest to the positive fraction `num / den`
(ties to even; positive infinity when the fraction is too large). -/
def nearest_double (num den : Nat) : Nat :=
  let b := bin_exponent num den 2046
  let u := if b = 0 then 1 else b
  let m :=
    if u < 1075 then round_half_even (num * 2 ^ (1075 - u)) den
    else round_half_even num (den * 2 ^ (u - 1075))
  let bits := (u - 1) * 2 ^ 52 + m
  if POS_INF ≤ bits then POS_INF else bits

/-- The pattern of the double with mantissa digits `mant` (read as a natural
number), `frac` of them behind the point, and decimal exponent `exp10`
with sign `exp_neg`. -/
def decimal_double (mant frac exp10 : Nat) (exp_neg : Bool) : Nat :=
  if mant = 0 then 0
  else if exp_neg = true then nearest_double mant (10 ^ (frac + exp10))
  else if frac ≤ exp10 then nearest_double (mant * 10 ^ (exp10 - frac)) 1
  else nearest_double mant (10 ^ (frac - exp10))

/-- The exponent part of a decimal number: nothing, or `e`, an optional sign
and one or more digits; `none` for any other text. -/
def parse_exponent (text : List Char) : Option (Nat × Bool) :=
  match text with
  | [] => some (0, false)
  | c :: rest =>
    if c = 'e' ∨ c = 'E' then
      match rest with
      | [] => none
      | s :: digits =>
        let neg := decide (s = '-')
        let body := if s = '-' ∨ s = '+' then digits else s :: digits
        match take_digits 0 0 body with
        | (value, count, []) => if count = 0 then none else some (value, neg)
        | _ => none
    else none

/-- The unsigned part of a decimal number: digits, an optional point with
digits, an optional exponent; at least one digit. -/
def parse_unsigned (text : List Char) : Option Nat :=
  match take_digits 0 0 text with
  | (whole, count1, rest1) =>
    match rest1 with
    | [] => if count1 = 0 then none else some (decimal_double whole 0 0 false)
    | c :: rest2 =>
      if c = '.' then
        match take_digits whole 0 rest2 with
        | (mant, count2, rest3) =>
          if count1 + count2 = 0 then none
          else
            match parse_exponent rest3 with
            | some (exp10, neg) => some (decimal_double mant count2 exp10 neg)
            | none => none
      else if count1 = 0 then none
      else
        match parse_exponent (c :: rest2) with
        | some (exp10, neg) => some (decimal_double whole 0 exp10 neg)
        | none => none

/-- Modelled from the spec: a field of a real column parsed as a decimal
floating-point number, correctly rounded to a double (given by its bit
pattern); `none` for a text that is not a decimal number. -/
def parse_double (text : List Char) : Option Nat :=
  match text with
  | [] => none
  | c :: rest =>
    if c = '-' then
      match parse_unsigned rest with
      | some bits => some (bits + 2 ^ 63)
      | none => none
    else parse_unsigned text

/-- Modelled from the spec: the eleven selected fields of a record coerced to
the declared types: the five texts stored as they are, the six numbers
parsed; `none` when a number does not parse. -/
def csv_row (fields : List (List Char)) : Option TripFareRow :=
  match fields with
  | [f0, f1, f2, f3, f4, f5, f6, f7, f8, f9, f10] =>
    match parse_double f5, parse_double f6, parse_double f7, parse_double f8,
      parse_double f9, parse_double f10 with
    | some a5, some a6, some a7, some a8, some a9, some a10 =>
      some { medallion := f0, hack_license := f1, vendor_id := f2, pickup_datetime := f3,
             payment_type := f4, fare_amount := a5, surcharge := a6, mta_tax := a7,
             tip_amount := a8, tolls_amount := a9, total_amount := a10 }
    | _, _, _, _, _, _ => none
  | _ => none

/-- Modelled from the spec: the data records read one after the other, the
fields at the positions `columns` coerced; `i` counts the rows. -/
def csv_rows (columns : List Nat) : Nat → List (List (List Char)) →
    Except ReadFailure (List TripFareRow)
  | _, [] => .ok []
  | i, record :: rest =>
    match select_fields record columns with
    | none => .error (.too_few_columns i)
    | some fields =>
      match csv_row fields with
      | none => .error (.field_parse_error i)
      | some row =>
        match csv_rows columns (i + 1) rest with
        | .error e => .error e
        | .ok rows => .ok (row :: rows)

/-- Modelled from the spec: the rows the CSV reader hands over for a text
with delimiter `,`: the first record is the header, validated against the
declared names; every further record is one row. -/
def csv_read (text : List Char) : Except ReadFailure (List TripFareRow) :=
  match read_records ',' text with
  | [] => .error .schema_mismatch
  | header :: data =>
    match find_columns header trip_fare_names with
    | none => .error .schema_mismatch
    | some columns => csv_rows columns 0 data

/-- The function `read_trip_fare` with capacity `n`, applied to the text of a
source read by the modelled CSV reader. -/
def read_trip_fare_text (n : Nat) (junk : Nat → Nat → Nat) (text : List Char) :
    Except ReadFailure RList :=
  match csv_read text with
  | .error e => .error e
  | .ok rows => read_trip_fare_sized n junk rows

/-- A character that can occur in the text of a finite double: a digit, the
point, the exponent mark or a sign. -/
def number_char (c : Char) : Prop :=
  c.isDigit = true ∨ c = '.' ∨ c = 'e' ∨ c = '+' ∨ c = '-'

/-- The raw field `f` is read as one piece by the scan: in front of a text
that goes on, it is put in front of the first field of what follows. -/
def field_ok (delim : Char) (f : List Char) : Prop :=
  ∀ (fresh : Bool) (t : Char) (ts : List Char),
    scan_text delim fresh false (f ++ t :: ts)
      = push_text f (scan_text delim false false (t :: ts))

/-- The text the cell writer writes for a double, with delimiter `,` and NA
string `NA`. -/
def real_text (value : Nat) : List Char :=
  cell_field (.REALSXP [value]) 0 ',' ['N', 'A']

/-- The eleven fields written for a row of the trip fare table, with
delimiter `,` and NA string `NA`. -/
def row_fields (r : TripFareRow) : List (List Char) :=
  [field_text r.medallion ',' ['N', 'A'], field_text r.hack_license ',' ['N', 'A'],
   field_text r.vendor_id ',' ['N', 'A'], field_text r.pickup_datetime ',' ['N', 'A'],
   field_text r.payment_type ',' ['N', 'A'], real_text r.fare_amount,
   real_text r.surcharge, real_text r.mta_tax, real_text r.tip_amount,
   real_text r.tolls_amount, real_text r.total_amount]

/-- The eleven fields of a row once unquoted. -/
def row_values (r : TripFareRow) : List (List Char) :=
  [r.medallion, r.hack_license, r.vendor_id, r.pickup_datetime, r.payment_type,
   real_text r.fare_amount, real_text r.surcharge, real_text r.mta_tax,
   real_text r.tip_amount, real_text r.tolls_amount, real_text r.total_amount]

/-- The written text of each of the six doubles of the row is parsed back to
that double. -/
def row_reads_back (r : TripFareRow) : Prop :=
  parse_double (real_text r.fare_amount) = some r.fare_amount ∧
  parse_double (real_text r.surcharge) = some r.surcharge ∧
  parse_double (real_text r.mta_tax) = some r.mta_tax ∧
  parse_double (real_text r.tip_amount) = some r.tip_amount ∧
  parse_double (real_text r.tolls_amount) = some r.tolls_amount ∧
  parse_double (real_text r.total_amount) = some r.total_amount

/-- The columns of the trip fare table that holds exactly the given rows. -/
def trip_fare_table (rows : List TripFareRow) : List SEXP :=
  [.STRSXP (rows.map (fun r => some r.medallion)),
   .STRSXP (rows.map (fun r => some r.hack_license)),
   .STRSXP (rows.map (fun r => some r.vendor_id)),
   .STRSXP (rows.map (fun r => some r.pickup_datetime)),
   .STRSXP (rows.map (fun r => some r.payment_type)),
   .REALSXP (rows.map (fun r => r.fare_amount)),
   .REALSXP (rows.map (fun r => r.surcharge)),
   .REALSXP (rows.map (fun r => r.mta_tax)),
   .REALSXP (rows.map (fun r => r.tip_amount)),
   .REALSXP (rows.map (fun r => r.tolls_amount)),
   .REALSXP (rows.map (fun r => r.total_amount))]

/-- A table with the schema of `read_trip_fare` and one row, whose first
double is missing. -/
def missing_double_example : RList :=
  { elts := [.STRSXP [some ['a']], .STRSXP [some ['b']], .STRSXP [some ['c']],
             .STRSXP [some ['d']], .STRSXP [some ['e']], .REALSXP [NA_REAL], .REALSXP [0],
             .REALSXP [0], .REALSXP [0], .REALSXP [0], .REALSXP [0]],
    names := trip_fare_names.map some,
    klass := ["data.frame".toList],
    row_names := [NA_INTEGER, -1] }

/-- A table with the schema of `read_trip_fare` and one row, whose first
double has the pattern `value`. -/
def first_double_example (value : Nat) : RList :=
  { elts := [.STRSXP [some ['a']], .STRSXP [some ['b']], .STRSXP [some ['c']],
             .STRSXP [some ['d']], .STRSXP [some ['e']], .REALSXP [value], .REALSXP [0],
             .REALSXP [0], .REALSXP [0], .REALSXP [0], .REALSXP [0]],
    names := trip_fare_names.map some,
    klass := ["data.frame".toList],
    row_names := [NA_INTEGER, -1] }

/-- The rows of `round_trip_example`. -/
def round_trip_rows : List TripFareRow :=
  [{ medallion := ['a', ',', 'b'], hack_license := ['x', '"'], vendor_id := ['c'],
     pickup_datetime := ['e'], payment_type := ['g'], fare_amount := 0x3FF8000000000000,
     surcharge := 0x4024000000000000, mta_tax := 0, tip_amount := 0, tolls_amount := 0,
     total_amount := 0xC000000000000000 },
   { medallion := ['N', 'A'], hack_license := [], vendor_id := ['d'],
     pickup_datetime := ['f'], payment_type := ['h'], fare_amount := 0,
     surcharge := 0x3FB999999999999A, mta_tax := 0, tip_amount := 0, tolls_amount := 0,
     total_amount := 0 }]

/-- The doubles a column holds (none for a column of another type). -/
def doubles_of : SEXP → List Nat
  | .REALSXP elts => elts
  | _ => []

/-- The text of element `i` of a string vector (empty when missing or absent). -/
def text_at (elts : List (Option (List Char))) (i : Nat) : List Char :=
  match elts[i]? with
  | some (some s) => s
  | _ => []

/-- The text of element `i` of a column (empty when it is no string). -/
def sexp_text (x : SEXP) (i : Nat) : List Char :=
  match x with
  | .STRSXP elts => text_at elts i
  | _ => []

/-- The double at element `i` of a column (0 when there is none). -/
def sexp_real (x : SEXP) (i : Nat) : Nat :=
  match x with
  | .REALSXP elts => (elts[i]?).getD 0
  | _ => 0

/-- Row `i` of a table, read off its eleven columns. -/
def row_at (x0 x1 x2 x3 x4 x5 x6 x7 x8 x9 x10 : SEXP) (i : Nat) : TripFareRow :=
  { medallion := sexp_text x0 i, hack_license := sexp_text x1 i, vendor_id := sexp_text x2 i,
    pickup_datetime := sexp_text x3 i, payment_type := sexp_text x4 i,
    fare_amount := sexp_real x5 i, surcharge := sexp_real x6 i, mta_tax := sexp_real x7 i,
    tip_amount := sexp_real x8 i, tolls_amount := sexp_real x9 i,
    total_amount := sexp_real x10 i }

/-- A table with the schema of `read_trip_fare` and two rows, for the
examples: texts with a delimiter, a quote and the NA string, and doubles
with and without a fractional part. -/
def round_trip_example : RList :=
  { elts := [.STRSXP [some ['a', ',', 'b'], some ['N', 'A']],
             .STRSXP [some ['x', '"'], some []],
             .STRSXP [some ['c'], some ['d']],
             .STRSXP [some ['e'], some ['f']],
             .STRSXP [some ['g'], some ['h']],
             .REALSXP [0x3FF8000000000000, 0],
             .REALSXP [0x4024000000000000, 0x3FB999999999999A],
             .REALSXP [0, 0], .REALSXP [0, 0], .REALSXP [0, 0],
             .REALSXP [0xC000000000000000, 0]],
    names := trip_fare_names.map some,
    klass := ["data.frame".toList],
    row_names := [NA_INTEGER, -2] }

/-! ## Lemmas on the field writer -/

theorem needs_quote_loop_true_iff (delim : Char) (s : List Char) :
    needs_quote_loop delim s = true ↔ ∃ c ∈ s, is_special delim c := by
  induction s with
  | nil => simp [needs_quote_loop]
  | cons a t ih =>
    unfold needs_quote_loop
    by_cases h : a = '\n' ∨ a = '\r' ∨ a = '"' ∨ a = delim
    · rw [if_pos h]
      simp only [List.mem_cons, true_iff]
      exact ⟨a, Or.inl rfl, h⟩
    · rw [if_neg h, ih]
      constructor
      · rintro ⟨c, hc, hs⟩
        exact ⟨c, List.mem_cons_of_mem _ hc, hs⟩
      · rintro ⟨c, hc, hs⟩
        rcases List.mem_cons.mp hc with rfl | hc
        · exact absurd hs h
        · exact ⟨c, hc, hs⟩

theorem needs_quote_true_iff (s : List Char) (delim : Char) (na : List Char) :
    needs_quote s delim na = true ↔ (s = na ∨ ∃ c ∈ s, is_special delim c) := by
  unfold needs_quote
  by_cases h : s = na
  · simp [h]
  · rw [if_neg h, needs_quote_loop_true_iff]
    simp [h]

theorem stream_delim_cstr_loop_eq (output : Stream) (s : List Char) :
    stream_delim_cstr_loop output s = output ++ double_quotes s := by
  induction s generalizing output with
  | nil => simp [stream_delim_cstr_loop, double_quotes]
  | cons a t ih =>
    unfold stream_delim_cstr_loop double_quotes
    by_cases h : a = '"'
    · rw [if_pos h, if_pos h, ih]
      simp
    · rw [if_neg h, if_neg h, ih]
      simp

theorem double_quotes_of_no_quote (s : List Char) (h : ∀ c ∈ s, c ≠ '"') :
    double_quotes s = s := by
  induction s with
  | nil => rfl
  | cons a t ih =>
    unfold double_quotes
    rw [if_neg (h a (List.mem_cons_self _ _)),
      ih (fun c hc => h c (List.mem_cons_of_mem _ hc))]

theorem no_special_of_needs_quote_false (s : List Char) (delim : Char) (na : List Char)
    (h : needs_quote s delim na = false) : s ≠ na ∧ ∀ c ∈ s, ¬ is_special delim c := by
  have hn : ¬ (s = na ∨ ∃ c ∈ s, is_special delim c) := by
    rw [← needs_quote_true_iff, h]
    simp
  exact ⟨fun e => hn (Or.inl e), fun c hc hs => hn (Or.inr ⟨c, hc, hs⟩)⟩

/-- The text the field writer appends, in closed form. -/
theorem stream_delim_cstr_eq (output : Stream) (s : List Char) (delim : Char)
    (na : List Char) :
    stream_delim_cstr output s delim na
      = output ++ (if needs_quote s delim na = true then quoted_form s else s) := by
  unfold stream_delim_cstr
  cases hq : needs_quote s delim na
  · have hs := (no_special_of_needs_quote_false s delim na hq).2
    have hd : double_quotes s = s :=
      double_quotes_of_no_quote s (fun c hc e => hs c hc (Or.inr (Or.inr (Or.inl e))))
    simp [stream_delim_cstr_loop_eq, hd]
  · simp [stream_delim_cstr_loop_eq, quoted_form]

theorem undouble_double_quotes (s : List Char) : undouble (double_quotes s) = s := by
  unfold undouble
  induction s with
  | nil => rfl
  | cons a t ih =>
    unfold double_quotes
    by_cases h : a = '"'
    · rw [if_pos h]
      simp [undouble_from, ih, h]
    · rw [if_neg h]
      simp [undouble_from, ih, h]

theorem unquote_quoted_form (s : List Char) : unquote (quoted_form s) = s := by
  unfold unquote quoted_form
  simp [undouble_double_quotes]

theorem unquote_of_no_quote (s : List Char) (h : ∀ c ∈ s, c ≠ '"') : unquote s = s := by
  cases s with
  | nil => rfl
  | cons a t =>
    unfold unquote
    have ha : a ≠ '"' := h a (List.mem_cons_self _ _)
    simp [ha]

/-! ## The claims on the field writer -/

/-- C1: for every string `s`, delimiter `d` and NA string `na`,
`needs_quote(s, d, na)` is true exactly when `s` equals `na` or `s` contains
a line feed, a carriage return, a double quote or the delimiter, and is
false otherwise; with delimiter `,` and NA string `NA` it is true for `a,b`
and for `NA` and false for `plain`. -/
theorem C1_needs_quote_iff (s : List Char) (d : Char) (na : List Char) :
    (needs_quote s d na = true ↔
      (s = na ∨ ∃ c ∈ s, c = '\n' ∨ c = '\r' ∨ c = '"' ∨ c = d)) ∧
    (needs_quote s d na = false ↔
      ¬ (s = na ∨ ∃ c ∈ s, c = '\n' ∨ c = '\r' ∨ c = '"' ∨ c = d)) ∧
    needs_quote ['a', ',', 'b'] ',' ['N', 'A'] = true ∧
    needs_quote ['N', 'A'] ',' ['N', 'A'] = true ∧
    needs_quote ['p', 'l', 'a', 'i', 'n'] ',' ['N', 'A'] = false := by
  have h := needs_quote_true_iff s d na
  unfold is_special at h
  refine ⟨h, ?_, by decide, by decide, by decide⟩
  rw [← h]
  simp

/-- C2: the field writer appends to the stream exactly `s` when
`needs_quote(s, d, na)` is false, and otherwise a double quote, `s` with
every double quote written twice and all other characters copied, and a
closing double quote; when the field is not wrapped, `s` holds no double
quote, so nothing is doubled. -/
theorem C2_field_writer_text (output : Stream) (s : List Char) (d : Char) (na : List Char) :
    (needs_quote s d na = false →
      stream_delim_cstr output s d na = output ++ s ∧ ∀ c ∈ s, c ≠ '"') ∧
    (needs_quote s d na = true →
      stream_delim_cstr output s d na = output ++ ('"' :: (double_quotes s ++ ['"']))) := by
  constructor
  · intro h
    refine ⟨by simp [stream_delim_cstr_eq, h], ?_⟩
    intro c hc e
    exact (no_special_of_needs_quote_false s d na h).2 c hc (Or.inr (Or.inr (Or.inl e)))
  · intro h
    simp [stream_delim_cstr_eq, h, quoted_form]

/-- C3: for every string `s` that the field writer quotes, stripping the outer
pair of double quotes from the written text and replacing each doubled quote
by a single one gives back exactly `s`. -/
theorem C3_unquote_written (s : List Char) (d : Char) (na : List Char)
    (h : needs_quote s d na = true) :
    unquote (stream_delim_cstr [] s d na) = s := by
  rw [stream_delim_cstr_eq, if_pos h, List.nil_append]
  exact unquote_quoted_form s

theorem C3_unquote_written_witness :
    needs_quote ['a', '"', ',', 'b'] ',' ['N', 'A'] = true ∧
    unquote (stream_delim_cstr [] ['a', '"', ',', 'b'] ',' ['N', 'A']) = ['a', '"', ',', 'b'] :=
  ⟨by decide, C3_unquote_written ['a', '"', ',', 'b'] ',' ['N', 'A'] (by decide)⟩

/-! ## Lemmas on the cell writer -/

theorem stream_delim_elt_string (output : Stream) (elts : List (Option (List Char)))
    (i : Nat) (delim : Char) (na s : List Char) (h : elts[i]? = some (some s)) :
    stream_delim_elt output (.STRSXP elts) i delim na
      = .ok (output ++ field_text s delim na) := by
  simp [stream_delim_elt, h, stream_delim_cstr_eq, field_text]

theorem stream_delim_elt_na_string (output : Stream) (elts : List (Option (List Char)))
    (i : Nat) (delim : Char) (na : List Char) (h : elts[i]? = some none) :
    stream_delim_elt output (.STRSXP elts) i delim na = .ok (output ++ na) := by
  simp [stream_delim_elt, h]

theorem field_text_ne_na (s : List Char) (delim : Char) (na : List Char)
    (h : ¬ (needs_quote s delim na = true ∧ na = quoted_form s)) :
    field_text s delim na ≠ na := by
  unfold field_text
  cases hq : needs_quote s delim na
  · simpa using (no_special_of_needs_quote_false s delim na hq).1
  · simpa using fun e => h ⟨hq, e.symm⟩

theorem exponent_of_isnan (bits : Nat) (h : ISNAN bits = true) :
    exponent_field bits = 2047 ∧ fraction_field bits ≠ 0 := by
  simpa [ISNAN] using h

theorem not_finite_of_isnan (bits : Nat) (h : ISNAN bits = true) : R_FINITE bits = false := by
  have := (exponent_of_isnan bits h).1
  simp [R_FINITE, this]

theorem isnan_of_isna (bits : Nat) (h : ISNA bits = true) : ISNAN bits = true := by
  simp only [ISNA, Bool.and_eq_true] at h
  exact h.1

/-! ## The claims on the cell writer -/

/-- C4 (amended): for every delimiter `d`, NA string `na` and non-missing
string cell `s` (also when `s` equals `na`), the text the writer emits for
`s` differs from the text it emits for a missing string cell, except when
`s` needs quoting under `d` and `na` and `na` is itself the quoted form of
`s` (a double quote, `s` with its double quotes doubled, a double quote). -/
theorem C4_string_differs_from_missing (output : Stream)
    (elts elts2 : List (Option (List Char))) (i i2 : Nat) (d : Char) (na s : List Char)
    (hs : elts[i]? = some (some s)) (hm : elts2[i2]? = some none)
    (hna : ¬ (needs_quote s d na = true ∧ na = quoted_form s)) :
    stream_delim_elt output (.STRSXP elts) i d na
      ≠ stream_delim_elt output (.STRSXP elts2) i2 d na := by
  rw [stream_delim_elt_string output elts i d na s hs,
    stream_delim_elt_na_string output elts2 i2 d na hm]
  intro e
  have e2 : output ++ field_text s d na = output ++ na := by
    injection e
  exact field_text_ne_na s d na hna (List.append_cancel_left e2)

theorem C4_string_differs_from_missing_witness :
    stream_delim_elt [] (.STRSXP [some ['N', 'A'], none]) 0 ',' ['N', 'A']
        ≠ stream_delim_elt [] (.STRSXP [some ['N', 'A'], none]) 1 ',' ['N', 'A'] ∧
    stream_delim_elt [] (.STRSXP [some ['a', 'b'], none]) 0 ',' ['"', 'a', 'b', '"']
        ≠ stream_delim_elt [] (.STRSXP [some ['a', 'b'], none]) 1 ',' ['"', 'a', 'b', '"'] :=
  ⟨C4_string_differs_from_missing [] [some ['N', 'A'], none] [some ['N', 'A'], none] 0 1 ','
      ['N', 'A'] ['N', 'A'] (by decide) (by decide) (by decide),
   C4_string_differs_from_missing [] [some ['a', 'b'], none] [some ['a', 'b'], none] 0 1 ','
      ['"', 'a', 'b', '"'] ['a', 'b'] (by decide) (by decide) (by decide)⟩

/-- C4 as stated fails: with delimiter `,` and the NA string `"a,b"` (quotes
included), the cell `a,b` and a missing cell are both written as `"a,b"`. -/
theorem C4_counterexample :
    stream_delim_elt [] (.STRSXP [some ['a', ',', 'b'], none]) 0 ','
        ['"', 'a', ',', 'b', '"']
      = stream_delim_elt [] (.STRSXP [some ['a', ',', 'b'], none]) 1 ','
        ['"', 'a', ',', 'b', '"'] := by
  decide

/-- C6 (amended): for every delimiter `d` and NA string `na`, the field
written for a non-missing string cell (a header name is written by the same
cell writer applied to the vector of names) whose text contains `d`, a
double quote, a line feed or a carriage return is that text wrapped in
double quotes with its double quotes doubled. -/
theorem C6_string_field_wrapped (output : Stream) (elts : List (Option (List Char)))
    (i : Nat) (d : Char) (na s : List Char) (hs : elts[i]? = some (some s))
    (hc : ∃ c ∈ s, c = d ∨ c = '"' ∨ c = '\n' ∨ c = '\r') :
    stream_delim_elt output (.STRSXP elts) i d na
      = .ok (output ++ ('"' :: (double_quotes s ++ ['"']))) := by
  have hq : needs_quote s d na = true := by
    rw [needs_quote_true_iff]
    obtain ⟨c, hcs, h⟩ := hc
    refine Or.inr ⟨c, hcs, ?_⟩
    unfold is_special
    tauto
  rw [stream_delim_elt_string output elts i d na s hs]
  simp [field_text, hq, quoted_form]

theorem C6_string_field_wrapped_witness :
    stream_delim_elt [] (.STRSXP [some ['a', ',', '"']]) 0 ',' ['N', 'A']
      = .ok ([] ++ ('"' :: (double_quotes ['a', ',', '"'] ++ ['"']))) :=
  C6_string_field_wrapped [] [some ['a', ',', '"']] 0 ',' ['N', 'A'] ['a', ',', '"']
    (by decide) ⟨',', by decide, Or.inl rfl⟩

/-- C6 as stated fails: a missing cell with NA string `N,A` and delimiter `,`
is written as the bare text `N,A`, and the integer `-5` with delimiter `-`
as the bare text `-5`; neither field is wrapped in quotes. -/
theorem C6_counterexample :
    stream_delim_row [] [.STRSXP [none], .INTSXP [7]] 0 ',' ['N', ',', 'A']
        = .ok ['N', ',', 'A', ',', '7', '\n'] ∧
    stream_delim_row [] [.INTSXP [-5], .LGLSXP [1]] 0 '-' ['N', 'A']
        = .ok ['-', '5', '-', 'T', 'R', 'U', 'E', '\n'] := by
  constructor <;> decide

/-- C7: for every NA string `na` and every delimiter, the cell writer appends
exactly `na` for a missing cell of a logical, integer, real or string
vector. -/
theorem C7_missing_emits_na (output : Stream) (i : Nat) (d : Char) (na : List Char) :
    (∀ elts : List Int, elts[i]? = some NA_LOGICAL →
      stream_delim_elt output (.LGLSXP elts) i d na = .ok (output ++ na)) ∧
    (∀ elts : List Int, elts[i]? = some NA_INTEGER →
      stream_delim_elt output (.INTSXP elts) i d na = .ok (output ++ na)) ∧
    (∀ (elts : List Nat) (value : Nat), elts[i]? = some value → ISNA value = true →
      stream_delim_elt output (.REALSXP elts) i d na = .ok (output ++ na)) ∧
    (∀ elts : List (Option (List Char)), elts[i]? = some none →
      stream_delim_elt output (.STRSXP elts) i d na = .ok (output ++ na)) := by
  refine ⟨?_, ?_, ?_, ?_⟩
  · intro elts h
    simp [stream_delim_elt, h, NA_LOGICAL, TRUE, FALSE]
  · intro elts h
    simp [stream_delim_elt, h]
  · intro elts value h hna
    have hfin := not_finite_of_isnan value (isnan_of_isna value hna)
    simp [stream_delim_elt, h, hfin, hna]
  · intro elts h
    exact stream_delim_elt_na_string output elts i d na h

theorem C7_missing_emits_na_witness :
    stream_delim_elt [] (.LGLSXP [NA_LOGICAL]) 0 ',' ['∅'] = .ok ['∅'] ∧
    stream_delim_elt [] (.INTSXP [NA_INTEGER]) 0 ',' ['∅'] = .ok ['∅'] ∧
    stream_delim_elt [] (.REALSXP [NA_REAL]) 0 ',' ['∅'] = .ok ['∅'] ∧
    stream_delim_elt [] (.STRSXP [none]) 0 ',' ['∅'] = .ok ['∅'] :=
  ⟨(C7_missing_emits_na [] 0 ',' ['∅']).1 [NA_LOGICAL] (by decide),
   (C7_missing_emits_na [] 0 ',' ['∅']).2.1 [NA_INTEGER] (by decide),
   (C7_missing_emits_na [] 0 ',' ['∅']).2.2.1 [NA_REAL] NA_REAL (by decide) (by decide),
   (C7_missing_emits_na [] 0 ',' ['∅']).2.2.2 [none] (by decide)⟩

/-- C9: for every logical cell the cell writer appends `TRUE` when the value is
true and `FALSE` when it is false, whatever the delimiter and the NA string. -/
theorem C9_boolean_text (output : Stream) (elts : List Int) (i : Nat) (d : Char)
    (na : List Char) :
    (elts[i]? = some TRUE →
      stream_delim_elt output (.LGLSXP elts) i d na = .ok (output ++ ['T', 'R', 'U', 'E'])) ∧
    (elts[i]? = some FALSE →
      stream_delim_elt output (.LGLSXP elts) i d na
        = .ok (output ++ ['F', 'A', 'L', 'S', 'E'])) := by
  constructor
  · intro h
    simp [stream_delim_elt, h]
  · intro h
    simp [stream_delim_elt, h, TRUE, FALSE]

theorem C9_boolean_text_witness :
    stream_delim_elt [] (.LGLSXP [TRUE, FALSE]) 0 'T' ['T', 'R', 'U', 'E']
        = .ok ['T', 'R', 'U', 'E'] ∧
    stream_delim_elt [] (.LGLSXP [TRUE, FALSE]) 1 'T' ['T', 'R', 'U', 'E']
        = .ok ['F', 'A', 'L', 'S', 'E'] :=
  ⟨(C9_boolean_text [] [TRUE, FALSE] 0 'T' ['T', 'R', 'U', 'E']).1 (by decide),
   (C9_boolean_text [] [TRUE, FALSE] 1 'T' ['T', 'R', 'U', 'E']).2 (by decide)⟩

/-! ## Lemmas on the text of numbers -/

theorem digitChar_isDigit : ∀ k < 10, (Nat.digitChar k).isDigit = true := by decide

theorem digitChar_value : ∀ k < 10, (Nat.digitChar k).toNat - 48 = k := by decide

theorem digitChar_eq_zero : ∀ k < 10, Nat.digitChar k = '0' → k = 0 := by decide

theorem put_digits_append (n : Nat) : ∀ (fuel : Nat) (acc : List Char), n < fuel →
    put_digits fuel n acc = put_nat n ++ acc := by
  induction n using Nat.strong_induction_on with
  | _ n ih =>
    intro fuel acc hf
    obtain ⟨f, rfl⟩ : ∃ f, fuel = f + 1 := ⟨fuel - 1, by omega⟩
    unfold put_nat
    by_cases h : n / 10 = 0
    · simp [put_digits, h]
    · have hlt : n / 10 < n := Nat.div_lt_self (by omega) (by omega)
      rw [put_digits, if_neg h, ih (n / 10) hlt f _ (by omega)]
      rw [put_digits, if_neg h, ih (n / 10) hlt n _ hlt]
      simp

theorem put_nat_small (n : Nat) (h : n / 10 = 0) : put_nat n = [Nat.digitChar (n % 10)] := by
  simp [put_nat, put_digits, h]

theorem put_nat_step (n : Nat) (h : n / 10 ≠ 0) :
    put_nat n = put_nat (n / 10) ++ [Nat.digitChar (n % 10)] := by
  have hlt : n / 10 < n := Nat.div_lt_self (by omega) (by omega)
  conv_lhs => unfold put_nat
  rw [put_digits, if_neg h, put_digits_append (n / 10) n _ hlt]

theorem put_nat_ne_nil (n : Nat) : put_nat n ≠ [] := by
  by_cases h : n / 10 = 0
  · simp [put_nat_small n h]
  · simp [put_nat_step n h]

theorem put_nat_all_digits (n : Nat) : ∀ c ∈ put_nat n, c.isDigit = true := by
  induction n using Nat.strong_induction_on with
  | _ n ih =>
    have hd : (Nat.digitChar (n % 10)).isDigit = true :=
      digitChar_isDigit (n % 10) (Nat.mod_lt _ (by omega))
    by_cases h : n / 10 = 0
    · rw [put_nat_small n h]
      intro c hc
      rw [List.mem_singleton.mp hc]
      exact hd
    · have hlt : n / 10 < n := Nat.div_lt_self (by omega) (by omega)
      rw [put_nat_step n h]
      intro c hc
      rcases List.mem_append.mp hc with hc | hc
      · exact ih (n / 10) hlt c hc
      · rw [List.mem_singleton.mp hc]
        exact hd

theorem put_nat_head_zero (n : Nat) : (put_nat n).head? = some '0' → n = 0 := by
  induction n using Nat.strong_induction_on with
  | _ n ih =>
    by_cases h : n / 10 = 0
    · rw [put_nat_small n h]
      intro hz
      have hz2 : Nat.digitChar (n % 10) = '0' := by simpa using hz
      have := digitChar_eq_zero (n % 10) (Nat.mod_lt _ (by omega)) hz2
      omega
    · have hlt : n / 10 < n := Nat.div_lt_self (by omega) (by omega)
      rw [put_nat_step n h]
      intro hz
      have hne := put_nat_ne_nil (n / 10)
      cases hp : put_nat (n / 10) with
      | nil => exact absurd hp hne
      | cons a t =>
        rw [hp] at hz
        have : (put_nat (n / 10)).head? = some '0' := by
          rw [hp]
          simpa using hz
        exact absurd (ih (n / 10) hlt this) h

theorem parse_digits_append (xs : List Char) (c : Char) (hc : c.isDigit = true) :
    ∀ acc : Nat, parse_digits acc (xs ++ [c])
      = (parse_digits acc xs).map (fun m => m * 10 + (c.toNat - 48)) := by
  induction xs with
  | nil =>
    intro acc
    simp [parse_digits, hc]
  | cons a t ih =>
    intro acc
    by_cases ha : a.isDigit = true
    · simp only [List.cons_append, parse_digits, ha, if_true]
      exact ih _
    · simp [parse_digits, ha]

theorem parse_digits_put_nat (n : Nat) : parse_digits 0 (put_nat n) = some n := by
  induction n using Nat.strong_induction_on with
  | _ n ih =>
    have hm : n % 10 < 10 := Nat.mod_lt _ (by omega)
    by_cases h : n / 10 = 0
    · rw [put_nat_small n h]
      simp only [parse_digits, digitChar_isDigit (n % 10) hm, if_true,
        digitChar_value (n % 10) hm]
      congr 1
      omega
    · have hlt : n / 10 < n := Nat.div_lt_self (by omega) (by omega)
      rw [put_nat_step n h, parse_digits_append _ _ (digitChar_isDigit (n % 10) hm),
        ih (n / 10) hlt, digitChar_value (n % 10) hm]
      simp only [Option.map_some']
      congr 1
      omega

theorem parse_int_put_int (v : Int) : parse_int (put_int v) = some v := by
  have hne := put_nat_ne_nil v.natAbs
  have hp := parse_digits_put_nat v.natAbs
  unfold put_int
  by_cases hv : v < 0
  · rw [if_pos hv]
    simp only [parse_int, if_true, hne, if_false, hp, Option.map_some']
    congr 1
    show -((v.natAbs : Nat) : Int) = v
    omega
  · rw [if_neg hv]
    cases hd : put_nat v.natAbs with
    | nil => exact absurd hd hne
    | cons a t =>
      have ha : a.isDigit = true := by
        apply put_nat_all_digits v.natAbs
        rw [hd]
        exact List.mem_cons_self _ _
      have hminus : a ≠ '-' := by
        intro e
        rw [e] at ha
        exact absurd ha (by decide)
      simp only [parse_int, hminus, if_false]
      rw [← hd, hp]
      show some ((v.natAbs : Nat) : Int) = some v
      congr 1
      omega

/-- C8: for every integer cell value `v` other than the missing sentinel, the
cell writer appends the decimal text of `v`: a minus sign exactly when `v`
is negative, then the digits of its absolute value, which are digits only,
do not start with a zero unless they are the single digit `0`, and read back
as a decimal integer give `v`. -/
theorem C8_integer_text (output : Stream) (elts : List Int) (i : Nat) (d : Char)
    (na : List Char) (v : Int) (hv : elts[i]? = some v) (hna : v ≠ NA_INTEGER) :
    stream_delim_elt output (.INTSXP elts) i d na
      = .ok (output ++ (if v < 0 then '-' :: put_nat v.natAbs else put_nat v.natAbs)) ∧
    put_nat v.natAbs ≠ [] ∧
    (∀ c ∈ put_nat v.natAbs, c.isDigit = true) ∧
    ((put_nat v.natAbs).head? = some '0' → put_nat v.natAbs = ['0']) ∧
    parse_int (if v < 0 then '-' :: put_nat v.natAbs else put_nat v.natAbs) = some v := by
  refine ⟨?_, put_nat_ne_nil _, put_nat_all_digits _, ?_, ?_⟩
  · simp [stream_delim_elt, hv, hna, put_int]
  · intro h
    rw [put_nat_head_zero _ h]
    rfl
  · exact parse_int_put_int v

theorem C8_integer_text_witness :
    stream_delim_elt [] (.INTSXP [-2147483647, 0]) 0 ',' ['N', 'A']
        = .ok ['-', '2', '1', '4', '7', '4', '8', '3', '6', '4', '7'] ∧
    parse_int ['-', '2', '1', '4', '7', '4', '8', '3', '6', '4', '7']
        = some (-2147483647) := by
  have h := C8_integer_text [] [-2147483647, 0] 0 ',' ['N', 'A'] (-2147483647)
    (by decide) (by decide)
  have e : (if (-2147483647 : Int) < 0 then '-' :: put_nat (-2147483647 : Int).natAbs
      else put_nat (-2147483647 : Int).natAbs)
      = ['-', '2', '1', '4', '7', '4', '8', '3', '6', '4', '7'] := by decide
  rw [e] at h
  exact ⟨h.1, h.2.2.2.2⟩

/-! ## Lemmas on the classification of doubles -/

theorem not_finite_iff (bits : Nat) : R_FINITE bits = false ↔ exponent_field bits = 2047 := by
  simp [R_FINITE]

theorem put_nat_starts (n : Nat) : starts_with_digit (put_nat n) := by
  cases h : put_nat n with
  | nil => exact absurd h (put_nat_ne_nil n)
  | cons a t =>
    refine ⟨a, t, rfl, ?_⟩
    apply put_nat_all_digits n
    rw [h]
    exact List.mem_cons_self _ _

theorem take_append_starts (l m : List Char) (k : Nat) (h : starts_with_digit l)
    (hk : 1 ≤ k) : starts_with_digit (l.take k ++ m) := by
  obtain ⟨c, rest, rfl, hc⟩ := h
  obtain ⟨k2, rfl⟩ : ∃ k2, k = k2 + 1 := ⟨k - 1, by omega⟩
  exact ⟨c, rest.take k2 ++ m, by simp, hc⟩

theorem put_layout_starts (digits : List Char) (t : Nat) (h : starts_with_digit digits) :
    starts_with_digit (put_layout digits t) := by
  unfold put_layout
  by_cases h1 : t < 320 ∨ 341 ≤ t
  · rw [if_pos h1, List.append_assoc]
    exact take_append_starts _ _ 1 h (le_refl 1)
  · rw [if_neg h1]
    by_cases h2 : 324 ≤ t
    · rw [if_pos h2]
      exact take_append_starts _ _ _ h (by omega)
    · rw [if_neg h2]
      exact ⟨'0', _, rfl, by decide⟩

theorem put_positive_starts (num den : Nat) : starts_with_digit (put_positive num den) := by
  unfold put_positive
  exact put_layout_starts _ _ (put_nat_starts _)

theorem put_double_form (bits : Nat) :
    ∃ body, starts_with_digit body ∧ (put_double bits = body ∨ put_double bits = '-' :: body) := by
  unfold put_double
  refine ⟨if (double_fraction bits).1 = 0 then ['0']
    else put_positive (double_fraction bits).1 (double_fraction bits).2, ?_, ?_⟩
  · by_cases h : (double_fraction bits).1 = 0
    · rw [if_pos h]
      exact ⟨'0', [], rfl, by decide⟩
    · rw [if_neg h]
      exact put_positive_starts _ _
  · by_cases h : sign_bit bits = 1
    · right
      simp [h]
    · left
      simp [h]

theorem put_double_not_fixed (bits : Nat) :
    put_double bits ≠ ['N', 'a', 'N'] ∧ put_double bits ≠ ['I', 'n', 'f'] ∧
    put_double bits ≠ ['-', 'I', 'n', 'f'] := by
  obtain ⟨body, ⟨c, rest, rfl, hc⟩, h | h⟩ := put_double_form bits
  · rw [h]
    refine ⟨?_, ?_, ?_⟩ <;>
    · intro e
      injection e with e1 _
      rw [e1] at hc
      exact absurd hc (by decide)
  · rw [h]
    refine ⟨?_, ?_, ?_⟩
    · intro e
      injection e with e1 _
      exact absurd e1 (by decide)
    · intro e
      injection e with e1 _
      exact absurd e1 (by decide)
    · intro e
      injection e with _ e2
      injection e2 with e3 _
      rw [e3] at hc
      exact absurd hc (by decide)

theorem sign_bit_cases (bits : Nat) : sign_bit bits = 0 ∨ sign_bit bits = 1 := by
  unfold sign_bit
  omega

theorem gt_zero_of_pos_infinity (bits : Nat) (h : is_pos_infinity bits) :
    double_gt_zero bits = true ∧ ISNAN bits = false := by
  obtain ⟨he, hf, hs⟩ := h
  simp [double_gt_zero, ISNAN, he, hf, hs]

theorem gt_zero_of_neg_infinity (bits : Nat) (h : is_neg_infinity bits) :
    double_gt_zero bits = false ∧ ISNAN bits = false := by
  obtain ⟨he, hf, hs⟩ := h
  simp [double_gt_zero, ISNAN, he, hf, hs]

/-- C10: for a real cell the cell writer appends the NA string when the value
is R's NA, `NaN` when it is a NaN other than NA, `Inf` for positive infinity
and `-Inf` for negative infinity; a value that is not finite falls under
exactly one of these four cases; a finite value falls under none of them, is
written by the stream's own formatting, and that text is none of `NaN`,
`Inf`, `-Inf`. -/
theorem C10_double_nonfinite (output : Stream) (elts : List Nat) (i : Nat) (d : Char)
    (na : List Char) (value : Nat) (hv : elts[i]? = some value) :
    (ISNA value = true →
      stream_delim_elt output (.REALSXP elts) i d na = .ok (output ++ na)) ∧
    (ISNAN value = true ∧ ISNA value = false →
      stream_delim_elt output (.REALSXP elts) i d na = .ok (output ++ ['N', 'a', 'N'])) ∧
    (is_pos_infinity value →
      stream_delim_elt output (.REALSXP elts) i d na = .ok (output ++ ['I', 'n', 'f'])) ∧
    (is_neg_infinity value →
      stream_delim_elt output (.REALSXP elts) i d na
        = .ok (output ++ ['-', 'I', 'n', 'f'])) ∧
    (R_FINITE value = false →
      (ISNA value = true ∨ (ISNAN value = true ∧ ISNA value = false)
        ∨ is_pos_infinity value ∨ is_neg_infinity value)) ∧
    ¬ (ISNA value = true ∧ (ISNAN value = true ∧ ISNA value = false)) ∧
    ¬ (ISNAN value = true ∧ is_pos_infinity value) ∧
    ¬ (ISNAN value = true ∧ is_neg_infinity value) ∧
    ¬ (is_pos_infinity value ∧ is_neg_infinity value) ∧
    (R_FINITE value = true →
      stream_delim_elt output (.REALSXP elts) i d na = .ok (output ++ put_double value) ∧
      put_double value ≠ ['N', 'a', 'N'] ∧ put_double value ≠ ['I', 'n', 'f'] ∧
      put_double value ≠ ['-', 'I', 'n', 'f'] ∧
      ISNAN value = false ∧ ISNA value = false ∧
      ¬ is_pos_infinity value ∧ ¬ is_neg_infinity value) := by
  refine ⟨?_, ?_, ?_, ?_, ?_, ?_, ?_, ?_, ?_, ?_⟩
  · intro hna
    have hfin := not_finite_of_isnan value (isnan_of_isna value hna)
    simp [stream_delim_elt, hv, hfin, hna]
  · rintro ⟨hnan, hna⟩
    have hfin := not_finite_of_isnan value hnan
    simp [stream_delim_elt, hv, hfin, hna, hnan]
  · intro hp
    have hfin : R_FINITE value = false := (not_finite_iff value).mpr hp.1
    obtain ⟨hg, hnan⟩ := gt_zero_of_pos_infinity value hp
    have hna : ISNA value = false := by simp [ISNA, hnan]
    simp [stream_delim_elt, hv, hfin, hna, hnan, hg]
  · intro hp
    have hfin : R_FINITE value = false := (not_finite_iff value).mpr hp.1
    obtain ⟨hg, hnan⟩ := gt_zero_of_neg_infinity value hp
    have hna : ISNA value = false := by simp [ISNA, hnan]
    simp [stream_delim_elt, hv, hfin, hna, hnan, hg]
  · intro hfin
    have he := (not_finite_iff value).mp hfin
    by_cases hf : fraction_field value = 0
    · rcases sign_bit_cases value with hs | hs
      · exact Or.inr (Or.inr (Or.inl ⟨he, hf, hs⟩))
      · exact Or.inr (Or.inr (Or.inr ⟨he, hf, hs⟩))
    · have hnan : ISNAN value = true := by simp [ISNAN, he, hf]
      cases hna : ISNA value
      · exact Or.inr (Or.inl ⟨hnan, rfl⟩)
      · exact Or.inl rfl
  · rintro ⟨h1, -, h2⟩
    rw [h1] at h2
    exact absurd h2 (by decide)
  · rintro ⟨hnan, hp⟩
    exact (exponent_of_isnan value hnan).2 hp.2.1
  · rintro ⟨hnan, hp⟩
    exact (exponent_of_isnan value hnan).2 hp.2.1
  · rintro ⟨hp, hn⟩
    have h1 := hp.2.2
    have h2 := hn.2.2
    omega
  · intro hfin
    have he : exponent_field value ≠ 2047 := by simpa [R_FINITE] using hfin
    have hnan : ISNAN value = false := by simp [ISNAN, he]
    have hna : ISNA value = false := by simp [ISNA, hnan]
    obtain ⟨n1, n2, n3⟩ := put_double_not_fixed value
    refine ⟨?_, n1, n2, n3, hnan, hna, fun hp => he hp.1, fun hp => he hp.1⟩
    simp [stream_delim_elt, hv, hfin]

theorem C10_double_nonfinite_witness :
    stream_delim_elt [] (.REALSXP [NA_REAL, POS_INF, NEG_INF]) 0 ',' ['N', 'A']
        = .ok ['N', 'A'] ∧
    stream_delim_elt [] (.REALSXP [NA_REAL, POS_INF, NEG_INF]) 1 ',' ['N', 'A']
        = .ok ['I', 'n', 'f'] ∧
    stream_delim_elt [] (.REALSXP [NA_REAL, POS_INF, NEG_INF]) 2 ',' ['N', 'A']
        = .ok ['-', 'I', 'n', 'f'] ∧
    stream_delim_elt [] (.REALSXP [0x7FF8000000000000]) 0 ',' ['N', 'A']
        = .ok ['N', 'a', 'N'] :=
  ⟨(C10_double_nonfinite [] [NA_REAL, POS_INF, NEG_INF] 0 ',' ['N', 'A'] NA_REAL
      (by decide)).1 (by decide),
   (C10_double_nonfinite [] [NA_REAL, POS_INF, NEG_INF] 1 ',' ['N', 'A'] POS_INF
      (by decide)).2.2.1 (by decide),
   (C10_double_nonfinite [] [NA_REAL, POS_INF, NEG_INF] 2 ',' ['N', 'A'] NEG_INF
      (by decide)).2.2.2.1 (by decide),
   (C10_double_nonfinite [] [0x7FF8000000000000] 0 ',' ['N', 'A'] 0x7FF8000000000000
      (by decide)).2.1 (by decide)⟩

/-! ## Reading a written record back -/

theorem prepend_prepend (a b : List Char) (fields : List (List Char)) :
    prepend_field a (prepend_field b fields) = prepend_field (a ++ b) fields := by
  cases fields <;> simp [prepend_field]

theorem split_record_ne_nil (delim : Char) (inside : Bool) (text : List Char) :
    split_record delim inside text ≠ [] := by
  cases text with
  | nil => simp [split_record]
  | cons c rest =>
    unfold split_record
    split_ifs
    · cases split_record delim (!inside) rest <;> simp [prepend_field]
    · simp
    · simp
    · cases split_record delim inside rest <;> simp [prepend_field]

theorem prepend_nil (delim : Char) (inside : Bool) (text : List Char) :
    prepend_field [] (split_record delim inside text) = split_record delim inside text := by
  cases h : split_record delim inside text with
  | nil => exact absurd h (split_record_ne_nil delim inside text)
  | cons g rest => simp [prepend_field]

theorem split_plain (delim : Char) (u tail : List Char)
    (hu : ∀ c ∈ u, ¬ is_special delim c) :
    split_record delim false (u ++ tail) = prepend_field u (split_record delim false tail) := by
  induction u with
  | nil => simp [prepend_nil]
  | cons c t ih =>
    have hc := hu c (List.mem_cons_self _ _)
    unfold is_special at hc
    have h1 : c ≠ '"' := fun e => hc (Or.inr (Or.inr (Or.inl e)))
    have h2 : c ≠ '\n' := fun e => hc (Or.inl e)
    have h3 : c ≠ delim := fun e => hc (Or.inr (Or.inr (Or.inr e)))
    rw [List.cons_append, split_record]
    simp only [h1, h2, h3, if_false, and_false]
    rw [ih (fun x hx => hu x (List.mem_cons_of_mem _ hx)), prepend_prepend]
    rfl

theorem split_inside (delim : Char) (s tail : List Char) :
    split_record delim true (double_quotes s ++ tail)
      = prepend_field (double_quotes s) (split_record delim true tail) := by
  induction s with
  | nil => simp [double_quotes, prepend_nil]
  | cons c t ih =>
    unfold double_quotes
    by_cases h : c = '"'
    · rw [if_pos h]
      simp only [List.cons_append]
      rw [split_record, if_pos rfl, Bool.not_true, split_record, if_pos rfl, Bool.not_false,
        ih, prepend_prepend, prepend_prepend]
      rfl
    · rw [if_neg h]
      simp only [List.cons_append]
      rw [split_record, if_neg h]
      simp only [Bool.true_eq_false, false_and, if_false]
      rw [ih, prepend_prepend]
      rfl

theorem split_quoted (delim : Char) (s tail : List Char) :
    split_record delim false (quoted_form s ++ tail)
      = prepend_field (quoted_form s) (split_record delim false tail) := by
  unfold quoted_form
  simp only [List.cons_append, List.append_assoc]
  rw [split_record, if_pos rfl, Bool.not_false, split_inside, split_record, if_pos rfl,
    Bool.not_true, prepend_prepend, prepend_prepend]
  simp

theorem split_field (delim : Char) (na s tail : List Char) :
    split_record delim false (field_text s delim na ++ tail)
      = prepend_field (field_text s delim na) (split_record delim false tail) := by
  unfold field_text
  cases hq : needs_quote s delim na
  · simp only [Bool.false_eq_true, if_false]
    exact split_plain delim s tail (no_special_of_needs_quote_false s delim na hq).2
  · simp only [if_true]
    exact split_quoted delim s tail

theorem unquote_field_text (s : List Char) (delim : Char) (na : List Char) :
    unquote (field_text s delim na) = s := by
  unfold field_text
  cases hq : needs_quote s delim na
  · simp only [Bool.false_eq_true, if_false]
    apply unquote_of_no_quote
    intro c hc e
    exact (no_special_of_needs_quote_false s delim na hq).2 c hc (Or.inr (Or.inr (Or.inl e)))
  · simp only [if_true]
    exact unquote_quoted_form s

/-- Reading back the joined field texts of a non-empty row of strings gives
the strings, for every delimiter that is neither a double quote nor a line
feed. -/
theorem read_record_join (delim : Char) (na : List Char) (h1 : delim ≠ '"')
    (h2 : delim ≠ '\n') (cells : List (List Char)) (hne : cells ≠ []) :
    read_record delim
        (join_fields delim (cells.map (fun s => field_text s delim na)) ++ ['\n'])
      = cells := by
  unfold read_record
  induction cells with
  | nil => exact absurd rfl hne
  | cons s rest ih =>
    cases rest with
    | nil =>
      simp only [List.map_cons, List.map_nil, join_fields, ne_eq, not_true_eq_false, if_false]
      rw [split_field]
      have : split_record delim false ['\n'] = [[]] := by
        simp [split_record]
      rw [this]
      simp [prepend_field, unquote_field_text]
    | cons s2 rest2 =>
      have ih2 := ih (by simp)
      simp only [List.map_cons] at ih2 ⊢
      rw [join_fields, if_pos (by simp), List.append_assoc, split_field, List.cons_append,
        split_record, if_neg h1]
      simp only [h2, and_false, if_false, true_and, if_true]
      simp only [prepend_field, List.append_nil, List.map_cons, unquote_field_text]
      rw [ih2]

/-- The row loop on string columns, in closed form. -/
theorem stream_delim_row_loop_strings (i : Nat) (delim : Char) (na : List Char)
    (x : List SEXP) (cells : List (List Char))
    (hx : List.Forall₂ (string_cell_at i) x cells) :
    ∀ output : Stream, stream_delim_row_loop output i delim na x
      = .ok (output ++ join_fields delim (cells.map (fun s => field_text s delim na))) := by
  induction hx with
  | nil =>
    intro output
    simp [stream_delim_row_loop, join_fields]
  | @cons col cell cols cells2 hcell hrest ih =>
    intro output
    obtain ⟨elts, rfl, hget⟩ := hcell
    rw [stream_delim_row_loop, stream_delim_elt_string output elts i delim na cell hget]
    simp only []
    rw [ih]
    have hlen := hrest.length_eq
    by_cases hc : cols = []
    · subst hc
      have : cells2 = [] := List.length_eq_zero.mp hlen.symm
      subst this
      simp [join_fields]
    · have hc2 : cells2 ≠ [] := by
        intro e
        subst e
        exact hc (List.length_eq_zero.mp hlen)
      have hm : List.map (fun s => field_text s delim na) cells2 ≠ [] := by
        simpa using hc2
      simp [join_fields, hc, hm]

/-! ## The bulk reader never stores a missing string -/

theorem mem_modify_nth {α : Type} (f : α → α) (l : List α) :
    ∀ (c : Nat) (x : α), x ∈ modify_nth f c l → x ∈ l ∨ ∃ y ∈ l, x = f y := by
  induction l with
  | nil =>
    intro c x hx
    cases c <;> simp [modify_nth] at hx
  | cons a t ih =>
    intro c x hx
    cases c with
    | zero =>
      simp only [modify_nth, List.mem_cons] at hx
      rcases hx with rfl | hx
      · exact Or.inr ⟨a, List.mem_cons_self _ _, rfl⟩
      · exact Or.inl (List.mem_cons_of_mem _ hx)
    | succ c =>
      simp only [modify_nth, List.mem_cons] at hx
      rcases hx with rfl | hx
      · exact Or.inl (List.mem_cons_self _ _)
      · rcases ih c x hx with h | ⟨y, hy, rfl⟩
        · exact Or.inl (List.mem_cons_of_mem _ h)
        · exact Or.inr ⟨y, List.mem_cons_of_mem _ hy, rfl⟩

theorem all_present_modify_nth (f : SEXP → SEXP) (c : Nat) (out : List SEXP)
    (hf : ∀ y, (∀ elts, y = SEXP.STRSXP elts → none ∉ elts) →
      ∀ elts, f y = SEXP.STRSXP elts → none ∉ elts)
    (h : all_present out) : all_present (modify_nth f c out) := by
  intro x hx
  rcases mem_modify_nth f out c x hx with hx | ⟨y, hy, rfl⟩
  · exact h x hx
  · exact hf y (h y hy)

theorem set_string_elt_present (i : Nat) (text : List Char) (y : SEXP)
    (hy : ∀ elts, y = SEXP.STRSXP elts → none ∉ elts) :
    ∀ elts, SET_STRING_ELT y i text = SEXP.STRSXP elts → none ∉ elts := by
  intro elts he
  cases y with
  | STRSXP ys =>
    simp only [SET_STRING_ELT, SEXP.STRSXP.injEq] at he
    subst he
    intro hmem
    rcases List.mem_or_eq_of_mem_set hmem with h | h
    · exact hy ys rfl h
    · exact absurd h (by simp)
  | LGLSXP ys => simp [SET_STRING_ELT] at he
  | INTSXP ys => simp [SET_STRING_ELT] at he
  | REALSXP ys => simp [SET_STRING_ELT] at he
  | OTHER t l => simp [SET_STRING_ELT] at he

theorem set_real_present (i : Nat) (value : Nat) (y : SEXP)
    (hy : ∀ elts, y = SEXP.STRSXP elts → none ∉ elts) :
    ∀ elts, SET_REAL y i value = SEXP.STRSXP elts → none ∉ elts := by
  intro elts he
  cases y with
  | STRSXP ys =>
    simp only [SET_REAL, SEXP.STRSXP.injEq] at he
    subst he
    exact hy ys rfl
  | LGLSXP ys => simp [SET_REAL] at he
  | INTSXP ys => simp [SET_REAL] at he
  | REALSXP ys => simp [SET_REAL] at he
  | OTHER t l => simp [SET_REAL] at he

theorem all_present_store (out : List SEXP) (i : Nat) (row : TripFareRow)
    (h : all_present out) : all_present (trip_fare_store out i row) := by
  unfold trip_fare_store
  simp only []
  repeat first
    | exact h
    | apply all_present_modify_nth _ _ _ (set_real_present _ _)
    | apply all_present_modify_nth _ _ _ (set_string_elt_present _ _)

theorem all_present_alloc (n : Nat) (junk : Nat → Nat → Nat) :
    all_present (trip_fare_alloc n junk) := by
  intro x hx elts he
  unfold trip_fare_alloc at hx
  obtain ⟨c, -, hc⟩ := List.mem_map.mp hx
  subst he
  by_cases h5 : c < 5
  · rw [if_pos h5] at hc
    injection hc with hc
    subst hc
    intro hmem
    have := List.eq_of_mem_replicate hmem
    exact absurd this (by simp)
  · rw [if_neg h5] at hc
    exact absurd hc (by simp)

theorem all_present_loop (n : Nat) (rows : List TripFareRow) :
    ∀ (out : List SEXP) (i : Nat) (out2 : List SEXP) (k : Nat), all_present out →
      trip_fare_loop n rows out i = .ok (out2, k) → all_present out2 := by
  induction rows with
  | nil =>
    intro out i out2 k h he
    simp only [trip_fare_loop, Except.ok.injEq, Prod.mk.injEq] at he
    rw [← he.1]
    exact h
  | cons row rest ih =>
    intro out i out2 k h he
    unfold trip_fare_loop at he
    by_cases hi : i < n
    · rw [if_pos hi] at he
      exact ih _ _ _ _ (all_present_store out i row h) he
    · rw [if_neg hi] at he
      exact absurd he (by simp)

/-- Whatever rows the CSV reader hands over and whatever the capacity, the
table `read_trip_fare` returns holds no missing string. -/
theorem read_trip_fare_all_present (n : Nat) (junk : Nat → Nat → Nat)
    (rows : List TripFareRow) (result : RList)
    (h : read_trip_fare_sized n junk rows = .ok result) : all_present result.elts := by
  unfold read_trip_fare_sized at h
  cases hl : trip_fare_loop n rows (trip_fare_alloc n junk) 0 with
  | error e =>
    rw [hl] at h
    exact absurd h (by simp)
  | ok pair =>
    obtain ⟨out, k⟩ := pair
    rw [hl] at h
    simp only [Except.ok.injEq] at h
    rw [← h]
    exact all_present_loop n rows _ 0 out k (all_present_alloc n junk) hl

/-! ## The round trip -/

/-- Round trip of a row of strings, whatever the schema: for every row of one
or more non-missing string cells, the row writer with delimiter `,` and NA
string `NA` succeeds, and a quote-aware split of the written line on `,`
followed by unquoting returns exactly the original cells, in order. -/
theorem string_row_round_trip (x : List SEXP) (i : Nat) (cells : List (List Char))
    (hx : List.Forall₂ (string_cell_at i) x cells) (hne : cells ≠ []) :
    ∃ line, stream_delim_row [] x i ',' ['N', 'A'] = .ok line ∧
      read_record ',' line = cells := by
  refine ⟨join_fields ',' (cells.map (fun s => field_text s ',' ['N', 'A'])) ++ ['\n'],
    ?_, ?_⟩
  · unfold stream_delim_row
    rw [stream_delim_row_loop_strings i ',' ['N', 'A'] x cells hx []]
    simp
  · exact read_record_join ',' ['N', 'A'] (by decide) (by decide) cells hne

theorem string_row_round_trip_witness :
    ∃ line,
      stream_delim_row []
          [.STRSXP [some ['a', ',', 'b']], .STRSXP [some ['N', 'A']], .STRSXP [some []],
           .STRSXP [some ['x', '"', 'y']]] 0 ',' ['N', 'A'] = .ok line ∧
      read_record ',' line = [['a', ',', 'b'], ['N', 'A'], [], ['x', '"', 'y']] :=
  string_row_round_trip _ 0 [['a', ',', 'b'], ['N', 'A'], [], ['x', '"', 'y']]
    (List.Forall₂.cons ⟨_, rfl, rfl⟩ (List.Forall₂.cons ⟨_, rfl, rfl⟩
      (List.Forall₂.cons ⟨_, rfl, rfl⟩ (List.Forall₂.cons ⟨_, rfl, rfl⟩ List.Forall₂.nil))))
    (by decide)

/-! ## The writers only append -/

theorem shift_result_ok (pre text : Stream) :
    shift_result pre (.ok text) = .ok (pre ++ text) := rfl

theorem shift_result_error (pre : Stream) (e : Failure) :
    shift_result pre (.error e) = .error (e.shift pre) := rfl

theorem shift_result_nil (r : Except Failure Stream) : shift_result [] r = r := by
  cases r with
  | ok t => rfl
  | error e => cases e <;> rfl

theorem shift_result_shift (a b : Stream) (r : Except Failure Stream) :
    shift_result a (shift_result b r) = shift_result (a ++ b) r := by
  cases r with
  | ok t => simp [shift_result]
  | error e => cases e <;> simp [shift_result, Failure.shift]

theorem stream_delim_elt_shift (output : Stream) (x : SEXP) (i : Nat) (delim : Char)
    (na : List Char) :
    stream_delim_elt output x i delim na
      = shift_result output (stream_delim_elt [] x i delim na) := by
  cases x with
  | LGLSXP elts =>
    rcases h : elts[i]? with _ | value
    · simp [stream_delim_elt, h, shift_result, Failure.shift]
    · simp only [stream_delim_elt, h]
      split_ifs <;> simp [shift_result]
  | INTSXP elts =>
    rcases h : elts[i]? with _ | value
    · simp [stream_delim_elt, h, shift_result, Failure.shift]
    · simp only [stream_delim_elt, h]
      split_ifs <;> simp [shift_result]
  | REALSXP elts =>
    rcases h : elts[i]? with _ | value
    · simp [stream_delim_elt, h, shift_result, Failure.shift]
    · simp only [stream_delim_elt, h]
      split_ifs <;> simp [shift_result]
  | STRSXP elts =>
    rcases h : elts[i]? with _ | cell
    · simp [stream_delim_elt, h, shift_result, Failure.shift]
    · cases cell with
      | none => simp [stream_delim_elt, h, shift_result]
      | some string => simp [stream_delim_elt, h, shift_result, stream_delim_cstr_eq]
  | OTHER type_name length => simp [stream_delim_elt, shift_result, Failure.shift]

theorem stream_delim_row_loop_shift (i : Nat) (delim : Char) (na : List Char)
    (df : List SEXP) : ∀ output : Stream,
    stream_delim_row_loop output i delim na df
      = shift_result output (stream_delim_row_loop [] i delim na df) := by
  induction df with
  | nil =>
    intro output
    simp [stream_delim_row_loop, shift_result]
  | cons x rest ih =>
    intro output
    rw [stream_delim_row_loop, stream_delim_row_loop, stream_delim_elt_shift output]
    cases stream_delim_elt [] x i delim na with
    | error e => simp [shift_result_error]
    | ok t =>
      simp only [shift_result_ok]
      rw [ih (if rest ≠ [] then output ++ t ++ [delim] else output ++ t),
        ih (if rest ≠ [] then t ++ [delim] else t), shift_result_shift]
      by_cases h : rest ≠ []
      · simp [h]
      · simp [h]

theorem stream_delim_row_shift (output : Stream) (df : List SEXP) (i : Nat) (delim : Char)
    (na : List Char) :
    stream_delim_row output df i delim na
      = shift_result output (stream_delim_row [] df i delim na) := by
  unfold stream_delim_row
  rw [stream_delim_row_loop_shift i delim na df output]
  cases stream_delim_row_loop [] i delim na df with
  | error e => simp [shift_result]
  | ok t => simp [shift_result]

theorem stream_delim_rows_loop_shift (df : List SEXP) (delim : Char) (na : List Char)
    (remaining : Nat) : ∀ (i : Nat) (output : Stream),
    stream_delim_rows_loop df delim na remaining i output
      = shift_result output (stream_delim_rows_loop df delim na remaining i []) := by
  induction remaining with
  | zero =>
    intro i output
    simp [stream_delim_rows_loop, shift_result]
  | succ k ih =>
    intro i output
    rw [stream_delim_rows_loop, stream_delim_rows_loop, stream_delim_row_shift output]
    cases stream_delim_row [] df i delim na with
    | error e => simp [shift_result_error]
    | ok t =>
      simp only [shift_result_ok]
      rw [ih (i + 1) (output ++ t), ih (i + 1) t, shift_result_shift]

theorem stream_delim_names_loop_shift (names : SEXP) (delim : Char) (na : List Char)
    (p remaining : Nat) : ∀ (j : Nat) (output : Stream),
    stream_delim_names_loop names delim na p remaining j output
      = shift_result output (stream_delim_names_loop names delim na p remaining j []) := by
  induction remaining with
  | zero =>
    intro j output
    simp [stream_delim_names_loop, shift_result]
  | succ k ih =>
    intro j output
    rw [stream_delim_names_loop, stream_delim_names_loop, stream_delim_elt_shift output]
    cases stream_delim_elt [] names j delim na with
    | error e => simp [shift_result_error]
    | ok t =>
      simp only [shift_result_ok]
      rw [ih (j + 1) (if j ≠ p - 1 then output ++ t ++ [delim] else output ++ t),
        ih (j + 1) (if j ≠ p - 1 then t ++ [delim] else t), shift_result_shift]
      by_cases h : j ≠ p - 1
      · simp [h]
      · simp [h]

/-- The table writer, started on a stream that already holds `output`, writes
what it writes on an empty stream behind `output`. -/
theorem stream_delim_df_shift (output : Stream) (df : RList) (delim : Char)
    (na : List Char) (col_names append : Bool) :
    stream_delim_df output df delim na col_names append
      = shift_result output (stream_delim_df [] df delim na col_names append) := by
  unfold stream_delim_df
  cases hd : df.elts with
  | nil => simp [shift_result]
  | cons first_col others =>
    simp only []
    cases col_names with
    | false =>
      simp only [Bool.false_eq_true, if_false]
      exact stream_delim_rows_loop_shift _ _ _ _ 0 output
    | true =>
      simp only [if_true]
      rw [stream_delim_names_loop_shift _ _ _ _ _ 0 output]
      cases stream_delim_names_loop (SEXP.STRSXP df.names) delim na
          (first_col :: others).length (first_col :: others).length 0 [] with
      | error e => simp [shift_result_error]
      | ok t =>
        simp only [shift_result_ok]
        rw [stream_delim_rows_loop_shift _ _ _ _ 0 (output ++ t ++ ['\n']),
          stream_delim_rows_loop_shift _ _ _ _ 0 (t ++ ['\n']), shift_result_shift]
        simp

/-! ## The cell writer on supported and unsupported types -/

theorem stream_delim_elt_ok (x : SEXP) (i : Nat) (delim : Char) (na : List Char)
    (hs : is_supported x = true) (hi : i < Rf_length x) :
    ∃ text, stream_delim_elt [] x i delim na = .ok text := by
  cases x with
  | LGLSXP elts =>
    have h : elts[i]? = some elts[i] := List.getElem?_eq_getElem hi
    simp only [stream_delim_elt, h]
    split_ifs <;> exact ⟨_, rfl⟩
  | INTSXP elts =>
    have h : elts[i]? = some elts[i] := List.getElem?_eq_getElem hi
    simp only [stream_delim_elt, h]
    split_ifs <;> exact ⟨_, rfl⟩
  | REALSXP elts =>
    have h : elts[i]? = some elts[i] := List.getElem?_eq_getElem hi
    simp only [stream_delim_elt, h]
    split_ifs <;> exact ⟨_, rfl⟩
  | STRSXP elts =>
    have h : elts[i]? = some elts[i] := List.getElem?_eq_getElem hi
    cases hc : elts[i] with
    | none =>
      rw [hc] at h
      simp only [stream_delim_elt, h]
      exact ⟨_, rfl⟩
    | some string =>
      rw [hc] at h
      simp only [stream_delim_elt, h]
      exact ⟨_, rfl⟩
  | OTHER type_name length => simp [is_supported] at hs

theorem stream_delim_elt_supported (output : Stream) (x : SEXP) (i : Nat) (delim : Char)
    (na : List Char) (hs : is_supported x = true) (hi : i < Rf_length x) :
    stream_delim_elt output x i delim na = .ok (output ++ cell_field x i delim na) := by
  obtain ⟨text, h⟩ := stream_delim_elt_ok x i delim na hs hi
  rw [stream_delim_elt_shift, cell_field, h, shift_result_ok]

theorem starts_with_append (pattern rest : List Char) :
    starts_with pattern (pattern ++ rest) = true := by
  induction pattern with
  | nil => cases rest <;> rfl
  | cons c cs ih => simp [starts_with, ih]

theorem occurs_in_append (pattern front rest : List Char) :
    occurs_in pattern (front ++ (pattern ++ rest)) = true := by
  induction front with
  | nil =>
    cases h : pattern ++ rest with
    | nil =>
      have hp : pattern = [] := (List.append_eq_nil.mp h).1
      subst hp
      rfl
    | cons c cs =>
      have hs : starts_with pattern (c :: cs) = true := by
        rw [← h]
        exact starts_with_append pattern rest
      simp [occurs_in, hs]
  | cons a t ih =>
    simp [occurs_in, ih]

/-! ## The rows and the header in closed form -/

theorem intercalate_single (sep x : List Char) : List.intercalate sep [x] = x := by
  simp [List.intercalate]

theorem intercalate_cons_cons (sep x y : List Char) (rest : List (List Char)) :
    List.intercalate sep (x :: y :: rest) = x ++ sep ++ List.intercalate sep (y :: rest) := by
  simp [List.intercalate]

theorem stream_delim_row_loop_supported (i : Nat) (delim : Char) (na : List Char)
    (df : List SEXP) (h : ∀ x ∈ df, is_supported x = true ∧ i < Rf_length x) :
    ∀ output : Stream, stream_delim_row_loop output i delim na df
      = .ok (output ++ List.intercalate [delim] (df.map (fun x => cell_field x i delim na))) := by
  induction df with
  | nil =>
    intro output
    simp [stream_delim_row_loop, List.intercalate]
  | cons x rest ih =>
    intro output
    have hx := h x (List.mem_cons_self _ _)
    have hrest : ∀ y ∈ rest, is_supported y = true ∧ i < Rf_length y :=
      fun y hy => h y (List.mem_cons_of_mem _ hy)
    rw [stream_delim_row_loop, stream_delim_elt_supported output x i delim na hx.1 hx.2]
    simp only []
    rw [ih hrest]
    cases rest with
    | nil => simp [intercalate_single, List.intercalate]
    | cons y ys =>
      simp only [List.map_cons, intercalate_cons_cons]
      simp

theorem stream_delim_row_supported (output : Stream) (df : List SEXP) (i : Nat)
    (delim : Char) (na : List Char)
    (h : ∀ x ∈ df, is_supported x = true ∧ i < Rf_length x) :
    stream_delim_row output df i delim na = .ok (output ++ row_line df i delim na) := by
  unfold stream_delim_row row_line
  rw [stream_delim_row_loop_supported i delim na df h output]
  simp

theorem stream_delim_rows_loop_supported (df : List SEXP) (delim : Char) (na : List Char)
    (n : Nat) (h : ∀ x ∈ df, is_supported x = true ∧ Rf_length x = n) :
    ∀ (remaining i : Nat) (output : Stream), i + remaining ≤ n →
      stream_delim_rows_loop df delim na remaining i output
        = .ok (output ++
            ((List.range' i remaining).map (fun r => row_line df r delim na)).flatten) := by
  intro remaining
  induction remaining with
  | zero =>
    intro i output _
    simp [stream_delim_rows_loop]
  | succ k ih =>
    intro i output hle
    have hrow : ∀ x ∈ df, is_supported x = true ∧ i < Rf_length x := by
      intro x hx
      obtain ⟨h1, h2⟩ := h x hx
      exact ⟨h1, by omega⟩
    rw [stream_delim_rows_loop, stream_delim_row_supported output df i delim na hrow]
    simp only []
    rw [ih (i + 1) _ (by omega), List.range'_succ]
    simp

theorem stream_delim_elt_string_index (output : Stream)
    (elts elts2 : List (Option (List Char))) (i i2 : Nat) (delim : Char) (na : List Char)
    (h : elts[i]? = elts2[i2]?) :
    stream_delim_elt output (.STRSXP elts) i delim na
      = stream_delim_elt output (.STRSXP elts2) i2 delim na := by
  simp only [stream_delim_elt, h]

/-- The header loop over the names is the row loop over a row of string cells
holding those names. -/
theorem stream_delim_names_loop_eq_row (names : List (Option (List Char))) (delim : Char)
    (na : List Char) :
    ∀ (remaining j : Nat) (output : Stream), j + remaining = names.length →
      stream_delim_names_loop (.STRSXP names) delim na names.length remaining j output
        = stream_delim_row_loop output 0 delim na (names_row (names.drop j)) := by
  intro remaining
  induction remaining with
  | zero =>
    intro j output hj
    have : names.drop j = [] := List.drop_eq_nil_of_le (by omega)
    simp [stream_delim_names_loop, this, names_row, stream_delim_row_loop]
  | succ k ih =>
    intro j output hj
    have hlt : j < names.length := by omega
    have hd : names.drop j = names[j] :: names.drop (j + 1) := List.drop_eq_getElem_cons hlt
    have he : stream_delim_elt output (.STRSXP names) j delim na
        = stream_delim_elt output (.STRSXP [names[j]]) 0 delim na :=
      stream_delim_elt_string_index output names [names[j]] j 0 delim na
        (by simp [List.getElem?_eq_getElem hlt])
    rw [stream_delim_names_loop, hd, names_row, List.map_cons, stream_delim_row_loop, he]
    cases stream_delim_elt output (.STRSXP [names[j]]) 0 delim na with
    | error e => rfl
    | ok output1 =>
      simp only []
      rw [ih (j + 1) _ (by omega)]
      have hc : (j ≠ names.length - 1)
          ↔ (List.map (fun name => SEXP.STRSXP [name]) (names.drop (j + 1)) ≠ []) := by
        rw [Ne, Ne, List.map_eq_nil_iff, List.drop_eq_nil_iff]
        omega
      by_cases hj2 : j ≠ names.length - 1
      · rw [if_pos hj2, if_pos (hc.mp hj2)]
        rfl
      · rw [if_neg hj2, if_neg (fun h => hj2 (hc.mpr h))]
        rfl

/-- A successful write to a file that can be opened, in closed form. -/
theorem stream_delim_to_file (fs : FileSystem) (df : RList) (path : List Char) (d : Char)
    (na : List Char) (col_names append : Bool) (text : List Char) (hp : path ≠ [])
    (ho : fs.can_open path = true)
    (h : stream_delim_df [] df d na col_names append = .ok text) :
    stream_delim fs df path d na col_names append
      = (.ok [], fs.write path
          ((if append = true then (fs.content path).getD [] else []) ++ text)) := by
  have hs := stream_delim_df_shift
    (if append = true then (fs.content path).getD [] else []) df d na col_names append
  rw [h, shift_result_ok] at hs
  unfold stream_delim
  rw [if_neg hp, if_neg (by simp [ho])]
  simp only [hs]

/-! ## The claims on the table writer, the exported writer and the factory -/

/-- C11: for every delimiter, NA string, header flag and append flag, writing a
table with zero columns to the in-memory destination (the empty path)
returns the empty text without failing and leaves the files as they were. -/
theorem C11_empty_table (fs : FileSystem) (df : RList) (d : Char) (na : List Char)
    (col_names append : Bool) (h : df.elts = []) :
    stream_delim fs df [] d na col_names append = (.ok [], fs) := by
  simp [stream_delim, stream_delim_df, h]

theorem C11_empty_table_witness :
    stream_delim empty_file_system
        { elts := [], names := [], klass := [], row_names := [] } [] ';' ['N', 'A'] true true
      = (.ok [], empty_file_system) :=
  C11_empty_table empty_file_system
    { elts := [], names := [], klass := [], row_names := [] } ';' ['N', 'A'] true true rfl

/-- C14: the cell writer fails on a vector whose type is none of logical,
integer, real and string; the message of the failure is `Don't know how to
handle vector of type `, the name of the type and a full stop, so it names
the type, and the stream is left as it was; for a vector of one of the four
types and an index within it the cell writer never fails. -/
theorem C14_unsupported_type (output : Stream) (i : Nat) (d : Char) (na : List Char) :
    (∀ (type_name : List Char) (length : Nat),
      stream_delim_elt output (.OTHER type_name length) i d na
        = .error (.stop ("Don't know how to handle vector of type ".toList
            ++ type_name ++ ['.']) output) ∧
      occurs_in type_name ("Don't know how to handle vector of type ".toList
            ++ type_name ++ ['.']) = true) ∧
    (∀ x : SEXP, is_supported x = true → i < Rf_length x →
      ∃ text, stream_delim_elt output x i d na = .ok (output ++ text)) := by
  constructor
  · intro type_name length
    refine ⟨rfl, ?_⟩
    rw [List.append_assoc]
    exact occurs_in_append _ _ _
  · intro x hs hi
    exact ⟨_, stream_delim_elt_supported output x i d na hs hi⟩

theorem C14_unsupported_type_witness :
    stream_delim_elt ['a', ','] (.OTHER ['l', 'i', 's', 't'] 3) 0 ',' ['N', 'A']
        = .error (.stop ("Don't know how to handle vector of type ".toList
            ++ ['l', 'i', 's', 't'] ++ ['.']) ['a', ',']) ∧
    ∃ text, stream_delim_elt ['a', ','] (.INTSXP [4, 5]) 1 ',' ['N', 'A']
        = .ok (['a', ','] ++ text) :=
  ⟨((C14_unsupported_type ['a', ','] 0 ',' ['N', 'A']).1 ['l', 'i', 's', 't'] 3).1,
   (C14_unsupported_type ['a', ','] 1 ',' ['N', 'A']).2 (.INTSXP [4, 5]) rfl (by decide)⟩

/-- C15: with the empty path the exported writer returns the serialized text
and leaves every file as it was; with a non-empty path that can be opened
and a table the in-memory call serializes to `text`, it returns the empty
text, the file at the path then holds `text` when `append` is false and its
prior content followed by `text` when `append` is true, and every other file
is as it was; with a non-empty path that cannot be opened it fails with the
message `Failed to open '`, the path, `'.`, and leaves every file as it
was. -/
theorem C15_destination (fs : FileSystem) (df : RList) (path : List Char) (d : Char)
    (na : List Char) (col_names append : Bool) :
    (∀ text, stream_delim_df [] df d na col_names append = .ok text →
      stream_delim fs df [] d na col_names append = (.ok text, fs)) ∧
    (∀ text, path ≠ [] → fs.can_open path = true →
      stream_delim_df [] df d na col_names append = .ok text →
      (stream_delim fs df path d na col_names append).1 = .ok [] ∧
      (stream_delim fs df path d na col_names append).2.content path
        = some (if append = true then (fs.content path).getD [] ++ text else text) ∧
      ∀ other, other ≠ path →
        (stream_delim fs df path d na col_names append).2.content other
          = fs.content other) ∧
    (path ≠ [] → fs.can_open path = false →
      stream_delim fs df path d na col_names append
        = (.error (.stop ("Failed to open '".toList ++ path ++ ['\'', '.']) []), fs) ∧
      occurs_in path ("Failed to open '".toList ++ path ++ ['\'', '.']) = true) := by
  refine ⟨?_, ?_, ?_⟩
  · intro text h
    simp [stream_delim, h]
  · intro text hp ho h
    rw [stream_delim_to_file fs df path d na col_names append text hp ho h]
    refine ⟨rfl, ?_, ?_⟩
    · cases append <;> simp [FileSystem.write]
    · intro other hne
      simp [FileSystem.write, hne]
  · intro hp ho
    refine ⟨?_, ?_⟩
    · simp [stream_delim, hp, ho, failed_to_open_message]
    · rw [List.append_assoc]
      exact occurs_in_append _ _ _

theorem C15_destination_witness :
    stream_delim file_system_example one_cell_example [] ',' ['N', 'A'] true true
        = (.ok ['n', '\n', '1', '\n'], file_system_example) ∧
    (stream_delim file_system_example one_cell_example ['o'] ',' ['N', 'A'] true true).2.content
        ['o'] = some ['h', '\n', 'n', '\n', '1', '\n'] ∧
    (stream_delim file_system_example one_cell_example ['o'] ',' ['N', 'A'] true false).2.content
        ['o'] = some ['n', '\n', '1', '\n'] ∧
    stream_delim file_system_example one_cell_example ['x'] ',' ['N', 'A'] true true
        = (.error (.stop "Failed to open 'x'.".toList []), file_system_example) :=
  ⟨(C15_destination file_system_example one_cell_example [] ',' ['N', 'A'] true true).1
      ['n', '\n', '1', '\n'] (by decide),
   ((C15_destination file_system_example one_cell_example ['o'] ',' ['N', 'A'] true true).2.1
      ['n', '\n', '1', '\n'] (by decide) (by decide) (by decide)).2.1,
   ((C15_destination file_system_example one_cell_example ['o'] ',' ['N', 'A'] true false).2.1
      ['n', '\n', '1', '\n'] (by decide) (by decide) (by decide)).2.1,
   ((C15_destination file_system_example one_cell_example ['x'] ',' ['N', 'A'] true true).2.2
      (by decide) (by decide)).1⟩

/-- C20: for every table, delimiter, NA string and header flag the table
writer produces the same outcome with `append` true as with `append` false,
and so does the exported writer on the in-memory destination; written to a
file that can be opened, the text that replaces the file's content when
`append` is false is the very text put behind the prior content when
`append` is true, header line included when the header is asked for. -/
theorem C20_append_ignored (fs : FileSystem) (output : Stream) (df : RList) (d : Char)
    (na : List Char) (col_names : Bool) :
    stream_delim_df output df d na col_names true
      = stream_delim_df output df d na col_names false ∧
    stream_delim fs df [] d na col_names true
      = stream_delim fs df [] d na col_names false ∧
    (∀ path text, path ≠ [] → fs.can_open path = true →
      stream_delim_df [] df d na col_names false = .ok text →
      (stream_delim fs df path d na col_names false).2.content path = some text ∧
      (stream_delim fs df path d na col_names true).2.content path
        = some ((fs.content path).getD [] ++ text)) := by
  refine ⟨rfl, ?_, ?_⟩
  · simp only [stream_delim, if_true]
    rfl
  · intro path text hp ho h
    have h2 : stream_delim_df [] df d na col_names true = .ok text := h
    rw [stream_delim_to_file fs df path d na col_names false text hp ho h,
      stream_delim_to_file fs df path d na col_names true text hp ho h2]
    simp [FileSystem.write]

theorem C20_append_ignored_witness :
    (stream_delim file_system_example one_cell_example ['o'] ',' ['N', 'A'] true false).2.content
        ['o'] = some ['n', '\n', '1', '\n'] ∧
    (stream_delim file_system_example one_cell_example ['o'] ',' ['N', 'A'] true true).2.content
        ['o'] = some ['h', '\n', 'n', '\n', '1', '\n'] :=
  (C20_append_ignored file_system_example [] one_cell_example ',' ['N', 'A'] true).2.2
    ['o'] ['n', '\n', '1', '\n'] (by decide) (by decide) (by decide)

/-- C16: `tokenizerCreate` succeeds exactly when the last element of the
specification's class vector, its variant tag, is `tokenizer_delimited`; the
tokenizer it then returns holds the specification's delimiter and NA
string; for every other tag it fails. -/
theorem C16_tokenizer_factory (spec : TokenizerSpec) :
    ((∃ tokenizer, tokenizerCreate spec = .ok tokenizer)
      ↔ spec.klass.getLast? = some "tokenizer_delimited".toList) ∧
    (spec.klass.getLast? = some "tokenizer_delimited".toList →
      tokenizerCreate spec = .ok (.TokenizerDelimited spec.delim spec.na)) ∧
    (spec.klass.getLast? ≠ some "tokenizer_delimited".toList →
      ∃ e, tokenizerCreate spec = .error e) := by
  have h1 : spec.klass.getLast? = some "tokenizer_delimited".toList →
      tokenizerCreate spec = .ok (.TokenizerDelimited spec.delim spec.na) := by
    intro h
    unfold tokenizerCreate
    rw [h]
    exact if_pos rfl
  have h2 : spec.klass.getLast? ≠ some "tokenizer_delimited".toList →
      ∃ e, tokenizerCreate spec = .error e := by
    intro h
    unfold tokenizerCreate
    cases hk : spec.klass.getLast? with
    | none => exact ⟨_, rfl⟩
    | some subclass =>
      have hs : subclass ≠ "tokenizer_delimited".toList := by
        intro e
        rw [hk, e] at h
        exact h rfl
      exact ⟨_, if_neg hs⟩
  refine ⟨⟨?_, fun h => ⟨_, h1 h⟩⟩, h1, h2⟩
  rintro ⟨tokenizer, ht⟩
  by_contra hne
  obtain ⟨e, he⟩ := h2 hne
  rw [he] at ht
  exact absurd ht (by simp)

theorem C16_tokenizer_factory_witness :
    tokenizerCreate delimited_spec_example = .ok (.TokenizerDelimited ';' ['N', 'A']) ∧
    ∃ e, tokenizerCreate fixed_width_spec_example = .error e :=
  ⟨(C16_tokenizer_factory delimited_spec_example).2.1 (by decide),
   (C16_tokenizer_factory fixed_width_spec_example).2.2 (by decide)⟩

/-- C17 (amended): for every specification whose variant tag is not
`tokenizer_delimited`, `tokenizerCreate` fails with the fixed message
`Unknown tokenizer type`, whatever the tag. -/
theorem C17_unknown_tokenizer_message (spec : TokenizerSpec) (tag : List Char)
    (ht : spec.klass.getLast? = some tag) (hn : tag ≠ "tokenizer_delimited".toList) :
    tokenizerCreate spec = .error (.stop "Unknown tokenizer type".toList []) := by
  unfold tokenizerCreate
  rw [ht]
  simp only []
  rw [if_neg hn]
  rfl

theorem C17_unknown_tokenizer_message_witness :
    tokenizerCreate fixed_width_spec_example
      = .error (.stop "Unknown tokenizer type".toList []) :=
  C17_unknown_tokenizer_message fixed_width_spec_example
    "fixed_width".toList (by decide) (by decide)

/-- C17 as stated fails: for the tag `fixed_width` the failure carries the
message `Unknown tokenizer type`, in which `fixed_width` does not occur. -/
theorem C17_counterexample :
    tokenizerCreate fixed_width_spec_example
      = .error (.stop "Unknown tokenizer type".toList []) ∧
    occurs_in "fixed_width".toList "Unknown tokenizer type".toList = false := by
  constructor <;> decide

/-- C12: for every table with one or more columns, all of a supported type
and of the same length `n`, the table writer reads every cell within its
column, and the text it writes after the optional header is the
concatenation, for `i` from 0 to `n - 1` in this order, of row line `i`: the
fields of row `i` in column order, separated by the delimiter, then one
line feed. -/
theorem C12_rows_text (output : Stream) (df : RList) (d : Char) (na : List Char)
    (append : Bool) (n : Nat) (hp : df.elts ≠ [])
    (hcols : ∀ x ∈ df.elts, is_supported x = true ∧ Rf_length x = n) :
    stream_delim_df output df d na false append
      = .ok (output ++ ((List.range n).map (fun i => row_line df.elts i d na)).flatten) ∧
    (∀ header, stream_delim_names_loop (.STRSXP df.names) d na df.elts.length
        df.elts.length 0 output = .ok header →
      stream_delim_df output df d na true append
        = .ok (header ++ ['\n']
            ++ ((List.range n).map (fun i => row_line df.elts i d na)).flatten)) ∧
    (∀ i, row_line df.elts i d na
      = List.intercalate [d] (df.elts.map (fun x => cell_field x i d na)) ++ ['\n']) ∧
    (∀ i, i < n → ∀ x ∈ df.elts,
      stream_delim_elt [] x i d na = .ok (cell_field x i d na)) := by
  have hrows := stream_delim_rows_loop_supported df.elts d na n hcols n 0
  rw [← List.range_eq_range'] at hrows
  cases he : df.elts with
  | nil => exact absurd he hp
  | cons first_col others =>
    have hn : Rf_length first_col = n := by
      apply (hcols first_col _).2
      rw [he]
      exact List.mem_cons_self _ _
    rw [he] at hrows hcols
    refine ⟨?_, ?_, fun _ => rfl, ?_⟩
    · simp only [stream_delim_df, he, Bool.false_eq_true, if_false, hn]
      exact hrows output (by omega)
    · intro header hh
      simp only [stream_delim_df, he, if_true, hh, hn]
      exact hrows _ (by omega)
    · intro i hi x hx
      have := stream_delim_elt_supported [] x i d na (hcols x hx).1
        (by rw [(hcols x hx).2]; exact hi)
      simpa using this

theorem C12_rows_text_witness :
    stream_delim_df []
        { elts := [.STRSXP [some ['a'], none], .INTSXP [1, -2]],
          names := [some ['x'], some ['y']], klass := [], row_names := [] }
        ';' ['N', 'A'] false false
      = .ok ("a;1\nNA;-2\n".toList) := by
  have h := (C12_rows_text []
    { elts := [.STRSXP [some ['a'], none], .INTSXP [1, -2]],
      names := [some ['x'], some ['y']], klass := [], row_names := [] }
    ';' ['N', 'A'] false 2 (by decide) (by decide)).1
  rw [h]
  decide

/-- C13: for every table with one or more columns and as many names as
columns, with the header asked for the table writer first writes the line
the row writer writes for a single row of string cells holding the column
names, and then the data rows behind it; without the header it writes the
data rows only. -/
theorem C13_header_line (output : Stream) (df : RList) (d : Char) (na : List Char)
    (append : Bool) (first_col : SEXP) (others : List SEXP)
    (he : df.elts = first_col :: others) (hn : df.names.length = df.elts.length) :
    stream_delim_df output df d na true append
      = (match stream_delim_row output (names_row df.names) 0 d na with
        | .error e => .error e
        | .ok output2 =>
          shift_result output2
            (stream_delim_rows_loop df.elts d na (Rf_length first_col) 0 [])) ∧
    stream_delim_df output df d na false append
      = shift_result output
          (stream_delim_rows_loop df.elts d na (Rf_length first_col) 0 []) := by
  have hl := stream_delim_names_loop_eq_row df.names d na df.names.length 0 output (by omega)
  rw [hn, he] at hl
  rw [he]
  constructor
  · simp only [stream_delim_df, he, if_true]
    rw [hl]
    simp only [List.drop_zero, stream_delim_row]
    cases stream_delim_row_loop output 0 d na (names_row df.names) with
    | error e => rfl
    | ok t =>
      simp only []
      exact stream_delim_rows_loop_shift _ _ _ _ 0 _
  · simp only [stream_delim_df, he, Bool.false_eq_true, if_false]
    exact stream_delim_rows_loop_shift _ _ _ _ 0 _

theorem C13_header_line_witness :
    stream_delim_df []
        { elts := [.STRSXP [some ['a']], .INTSXP [1]],
          names := [some ['x', ',', 'y'], some ['z']], klass := [], row_names := [] }
        ',' ['N', 'A'] true false
      = .ok ("\"x,y\",z\na,1\n".toList) := by
  have h := (C13_header_line []
    { elts := [.STRSXP [some ['a']], .INTSXP [1]],
      names := [some ['x', ',', 'y'], some ['z']], klass := [], row_names := [] }
    ',' ['N', 'A'] false (.STRSXP [some ['a']]) [.INTSXP [1]] rfl rfl).1
  rw [h]
  decide

/-! ## The bulk reader in closed form -/

theorem set_behind_done {α β : Type} (f : β → α) (done : List β) (row : β) (init : List α)
    (h : done.length < init.length) :
    (done.map f ++ init.drop done.length).set done.length (f row)
      = (done ++ [row]).map f ++ init.drop (done ++ [row]).length := by
  rw [List.set_append_right _ _ (by simp), List.drop_eq_getElem_cons h]
  simp only [List.length_map, Nat.sub_self, List.set_cons_zero, List.map_append,
    List.map_cons, List.map_nil, List.append_assoc, List.singleton_append,
    List.length_append, List.length_singleton]

theorem trip_fare_alloc_eq (n : Nat) (junk : Nat → Nat → Nat) :
    trip_fare_alloc n junk = trip_fare_columns n junk [] := by
  unfold trip_fare_alloc trip_fare_columns
  rw [show List.range 11 = [0, 1, 2, 3, 4, 5, 6, 7, 8, 9, 10] from rfl]
  simp

theorem trip_fare_store_eq (n : Nat) (junk : Nat → Nat → Nat) (done : List TripFareRow)
    (row : TripFareRow) (h : done.length < n) :
    trip_fare_store (trip_fare_columns n junk done) done.length row
      = trip_fare_columns n junk (done ++ [row]) := by
  have hs : done.length < (List.replicate n (some ([] : List Char))).length := by simpa using h
  have hr : ∀ c, done.length < ((List.range n).map (junk c)).length := by
    intro c
    simpa using h
  simp only [trip_fare_store, trip_fare_columns, modify_nth, SET_STRING_ELT, SET_REAL]
  rw [set_behind_done (fun r => some r.medallion) done row _ hs,
    set_behind_done (fun r => some r.hack_license) done row _ hs,
    set_behind_done (fun r => some r.vendor_id) done row _ hs,
    set_behind_done (fun r => some r.pickup_datetime) done row _ hs,
    set_behind_done (fun r => some r.payment_type) done row _ hs,
    set_behind_done (fun r => r.fare_amount) done row _ (hr 5),
    set_behind_done (fun r => r.surcharge) done row _ (hr 6),
    set_behind_done (fun r => r.mta_tax) done row _ (hr 7),
    set_behind_done (fun r => r.tip_amount) done row _ (hr 8),
    set_behind_done (fun r => r.tolls_amount) done row _ (hr 9),
    set_behind_done (fun r => r.total_amount) done row _ (hr 10)]

theorem trip_fare_loop_eq (n : Nat) (junk : Nat → Nat → Nat) (rows : List TripFareRow) :
    ∀ done : List TripFareRow, done.length + rows.length ≤ n →
      trip_fare_loop n rows (trip_fare_columns n junk done) done.length
        = .ok (trip_fare_columns n junk (done ++ rows), done.length + rows.length) := by
  induction rows with
  | nil =>
    intro done _
    simp [trip_fare_loop]
  | cons row rest ih =>
    intro done h
    simp only [List.length_cons] at h
    have hlt : done.length < n := by omega
    rw [trip_fare_loop, if_pos hlt, trip_fare_store_eq n junk done row hlt]
    have := ih (done ++ [row]) (by simp; omega)
    simp only [List.length_append, List.length_singleton, List.append_assoc,
      List.singleton_append] at this
    rw [this]
    simp only [List.length_cons]
    congr 2
    omega

/-- With no more rows than the capacity, the row loop stores every row and
ends with the row counter at the number of rows. -/
theorem trip_fare_loop_alloc (n : Nat) (junk : Nat → Nat → Nat) (rows : List TripFareRow)
    (h : rows.length ≤ n) :
    trip_fare_loop n rows (trip_fare_alloc n junk) 0
      = .ok (trip_fare_columns n junk rows, rows.length) := by
  have := trip_fare_loop_eq n junk rows [] (by simpa using h)
  simpa [trip_fare_alloc_eq] using this

theorem read_trip_fare_sized_eq (n : Nat) (junk : Nat → Nat → Nat)
    (rows : List TripFareRow) (h : rows.length ≤ n) :
    read_trip_fare_sized n junk rows
      = .ok { elts := trip_fare_columns n junk rows,
              names := trip_fare_names.map some,
              klass := ["data.frame".toList],
              row_names := [NA_INTEGER, -(n : Int)] } := by
  unfold read_trip_fare_sized
  rw [trip_fare_loop_alloc n junk rows h]

theorem trip_fare_columns_schema (n : Nat) (junk : Nat → Nat → Nat)
    (rows : List TripFareRow) (h : rows.length ≤ n) :
    trip_fare_schema n (trip_fare_columns n junk rows) := by
  refine ⟨rfl, ?_, ?_, ?_⟩
  · intro c x hx
    have hc : c < 11 := by
      by_contra hge
      rw [List.getElem?_eq_none (by simpa [trip_fare_columns] using hge)] at hx
      exact absurd hx (by simp)
    interval_cases c <;>
    · simp only [trip_fare_columns, List.getElem?_cons_zero, List.getElem?_cons_succ,
        Option.some.injEq] at hx
      subst hx
      simp [Rf_length]
      omega
  · intro c x hc hx
    interval_cases c <;>
    · simp only [trip_fare_columns, List.getElem?_cons_zero, List.getElem?_cons_succ,
        Option.some.injEq] at hx
      exact ⟨_, hx.symm⟩
  · intro c x hc hx
    have hc2 : c < 11 := by
      by_contra hge
      rw [List.getElem?_eq_none (by simpa [trip_fare_columns] using hge)] at hx
      exact absurd hx (by simp)
    interval_cases c <;>
    · simp only [trip_fare_columns, List.getElem?_cons_zero, List.getElem?_cons_succ,
        Option.some.injEq] at hx
      exact ⟨_, hx.symm⟩

theorem trip_fare_columns_cell (n : Nat) (junk : Nat → Nat → Nat) (rows : List TripFareRow)
    (i c : Nat) (row : TripFareRow) (hrow : rows[i]? = some row) (hc : c < 11) :
    table_cell (trip_fare_columns n junk rows) c i = row_cell row c := by
  have hi : i < rows.length := by
    by_contra hge
    rw [List.getElem?_eq_none (by omega)] at hrow
    exact absurd hrow (by simp)
  have hm : ∀ {α : Type} (f : TripFareRow → α) (tail : List α),
      (rows.map f ++ tail)[i]? = some (f row) := by
    intro α f tail
    rw [List.getElem?_append_left (by simpa using hi), List.getElem?_map, hrow]
    rfl
  interval_cases c <;>
  · simp only [table_cell, trip_fare_columns, List.getElem?_cons_zero,
      List.getElem?_cons_succ, column_cell, hm, row_cell]

/-! ## The claims on the bulk reader -/

/-- C18 (amended): for every source from which the reader reads `k` data rows,
`k` at most the preallocated capacity `n`, the table `read_trip_fare`
returns has row count `n` and columns of length `n`: the capacity, whatever
the number of rows read. -/
theorem C18_row_count_is_capacity (n : Nat) (junk : Nat → Nat → Nat)
    (rows : List TripFareRow) (h : rows.length ≤ n) :
    ∃ result, read_trip_fare_sized n junk rows = .ok result ∧
      row_count result = n ∧ ∀ x ∈ result.elts, Rf_length x = n := by
  refine ⟨_, read_trip_fare_sized_eq n junk rows h, ?_, ?_⟩
  · simp [row_count]
  · intro x hx
    obtain ⟨c, hc⟩ := List.getElem?_of_mem hx
    exact (trip_fare_columns_schema n junk rows h).2.1 c x hc

theorem C18_row_count_is_capacity_witness :
    ∃ result, read_trip_fare_sized 3 (fun _ _ => 0) [trip_fare_row_example] = .ok result ∧
      row_count result = 3 ∧ ∀ x ∈ result.elts, Rf_length x = 3 :=
  C18_row_count_is_capacity 3 (fun _ _ => 0) [trip_fare_row_example] (by decide)

/-- C18 as stated fails: when the CSV reader hands over one row,
`read_trip_fare` returns a table whose row count is 14776616, not 1. -/
theorem C18_counterexample :
    ∃ result, read_trip_fare (fun _ _ => 0) [trip_fare_row_example] = .ok result ∧
      row_count result = 14776616 ∧
      row_count result ≠ [trip_fare_row_example].length := by
  refine ⟨_, read_trip_fare_sized_eq trip_fare_capacity _ _ (by decide), ?_, ?_⟩
  · simp [row_count, trip_fare_capacity]
  · simp [row_count, trip_fare_capacity]

/-- C19: for every source whose `k` data rows do not exceed the capacity `n`,
`read_trip_fare` returns eleven columns named as the declared schema, five
string columns followed by six real columns; for every `i` below `k` and
every column `c`, element `i` of column `c` is field `c` of row `i`; no
store lies at or beyond `n`, so the row loop ends normally, with the row
counter at `k`. -/
theorem C19_cell_placement (n : Nat) (junk : Nat → Nat → Nat) (rows : List TripFareRow)
    (h : rows.length ≤ n) :
    ∃ result, read_trip_fare_sized n junk rows = .ok result ∧
      (n = trip_fare_capacity → read_trip_fare junk rows = .ok result) ∧
      trip_fare_loop n rows (trip_fare_alloc n junk) 0 = .ok (result.elts, rows.length) ∧
      result.names = trip_fare_names.map some ∧
      trip_fare_schema n result.elts ∧
      ∀ (i : Nat) (row : TripFareRow) (c : Nat), rows[i]? = some row → c < 11 →
        table_cell result.elts c i = row_cell row c := by
  refine ⟨_, read_trip_fare_sized_eq n junk rows h, ?_, trip_fare_loop_alloc n junk rows h,
    rfl, trip_fare_columns_schema n junk rows h, ?_⟩
  · intro hn
    subst hn
    exact read_trip_fare_sized_eq trip_fare_capacity junk rows h
  · intro i row c hrow hc
    exact trip_fare_columns_cell n junk rows i c row hrow hc

theorem C19_cell_placement_witness :
    ∃ result, read_trip_fare_sized 2 (fun _ _ => 0) [trip_fare_row_example] = .ok result ∧
      (2 = trip_fare_capacity → read_trip_fare (fun _ _ => 0) [trip_fare_row_example]
        = .ok result) ∧
      trip_fare_loop 2 [trip_fare_row_example] (trip_fare_alloc 2 (fun _ _ => 0)) 0
        = .ok (result.elts, [trip_fare_row_example].length) ∧
      result.names = trip_fare_names.map some ∧
      trip_fare_schema 2 result.elts ∧
      ∀ (i : Nat) (row : TripFareRow) (c : Nat),
        [trip_fare_row_example][i]? = some row → c < 11 →
        table_cell result.elts c i = row_cell row c :=
  C19_cell_placement 2 (fun _ _ => 0) [trip_fare_row_example] (by decide)

/-! ## The scan of a written text -/

theorem push_text_push_text (a b : List Char) (records : List (List (List Char))) :
    push_text a (push_text b records) = push_text (a ++ b) records := by
  cases records with
  | nil => simp [push_text, prepend_field]
  | cons record rest => simp [push_text, prepend_prepend]

theorem scan_text_fresh (delim : Char) (inside : Bool) (c : Char) (rest : List Char) :
    scan_text delim true inside (c :: rest) = scan_text delim false inside (c :: rest) := by
  simp [scan_text]

theorem scan_text_started (delim : Char) (text : List Char) :
    ∀ (fresh inside : Bool), (fresh = false ∨ text ≠ []) →
      ∃ f fs rs, scan_text delim fresh inside text = (f :: fs) :: rs := by
  induction text with
  | nil =>
    intro fresh inside h
    rcases h with h | h
    · subst h
      exact ⟨[], [], [], by simp [scan_text]⟩
    · exact absurd rfl h
  | cons c rest ih =>
    intro fresh inside _
    unfold scan_text
    split_ifs
    · obtain ⟨f, fs, rs, h⟩ := ih false (!inside) (Or.inl rfl)
      rw [h]
      exact ⟨[c] ++ f, fs, rs, by simp [push_text, prepend_field]⟩
    · exact ⟨[], [], _, rfl⟩
    · obtain ⟨f, fs, rs, h⟩ := ih false false (Or.inl rfl)
      rw [h]
      exact ⟨[], f :: fs, rs, by simp [push_field]⟩
    · obtain ⟨f, fs, rs, h⟩ := ih false inside (Or.inl rfl)
      rw [h]
      exact ⟨[c] ++ f, fs, rs, by simp [push_text, prepend_field]⟩

theorem push_text_nil (delim : Char) (fresh inside : Bool) (text : List Char)
    (h : fresh = false ∨ text ≠ []) :
    push_text [] (scan_text delim fresh inside text) = scan_text delim fresh inside text := by
  obtain ⟨f, fs, rs, e⟩ := scan_text_started delim text fresh inside h
  rw [e]
  simp [push_text, prepend_field]

theorem scan_text_any_fresh (delim : Char) (fresh inside : Bool) (c : Char)
    (rest : List Char) :
    scan_text delim fresh inside (c :: rest) = scan_text delim false inside (c :: rest) := by
  cases fresh
  · rfl
  · exact scan_text_fresh delim inside c rest

theorem field_ok_plain (delim : Char) (u : List Char)
    (hu : ∀ c ∈ u, ¬ is_special delim c) : field_ok delim u := by
  intro fresh t ts
  induction u generalizing fresh with
  | nil =>
    rw [List.nil_append, push_text_nil delim false false (t :: ts) (Or.inl rfl)]
    exact scan_text_any_fresh delim fresh false t ts
  | cons c u2 ih =>
    have hc := hu c (List.mem_cons_self _ _)
    unfold is_special at hc
    have h1 : c ≠ '"' := fun e => hc (Or.inr (Or.inr (Or.inl e)))
    have h2 : c ≠ '\n' := fun e => hc (Or.inl e)
    have h3 : c ≠ delim := fun e => hc (Or.inr (Or.inr (Or.inr e)))
    rw [List.cons_append, scan_text]
    simp only [h1, h2, h3, if_false, and_false]
    rw [ih (fun x hx => hu x (List.mem_cons_of_mem _ hx)) false, push_text_push_text]
    rfl

theorem scan_text_inside (delim : Char) (s : List Char) (t : Char) (ts : List Char) :
    ∀ fresh : Bool, scan_text delim fresh true (double_quotes s ++ t :: ts)
      = push_text (double_quotes s) (scan_text delim false true (t :: ts)) := by
  induction s with
  | nil =>
    intro fresh
    rw [double_quotes, List.nil_append, push_text_nil delim false true (t :: ts) (Or.inl rfl)]
    exact scan_text_any_fresh delim fresh true t ts
  | cons c s2 ih =>
    intro fresh
    unfold double_quotes
    by_cases h : c = '"'
    · rw [if_pos h]
      simp only [List.cons_append]
      rw [scan_text, if_pos rfl, Bool.not_true, scan_text, if_pos rfl, Bool.not_false,
        ih false, push_text_push_text, push_text_push_text]
      rfl
    · rw [if_neg h]
      simp only [List.cons_append]
      rw [scan_text, if_neg h]
      simp only [Bool.true_eq_false, false_and, if_false]
      rw [ih false, push_text_push_text]
      rfl

theorem field_ok_quoted (delim : Char) (s : List Char) : field_ok delim (quoted_form s) := by
  intro fresh t ts
  unfold quoted_form
  simp only [List.cons_append, List.append_assoc]
  rw [scan_text, if_pos rfl, Bool.not_false, scan_text_inside, scan_text, if_pos rfl,
    Bool.not_true, push_text_push_text, push_text_push_text]
  simp

theorem field_ok_field_text (delim : Char) (na s : List Char) :
    field_ok delim (field_text s delim na) := by
  unfold field_text
  cases hq : needs_quote s delim na
  · simp only [Bool.false_eq_true, if_false]
    exact field_ok_plain delim s (no_special_of_needs_quote_false s delim na hq).2
  · simp only [if_true]
    exact field_ok_quoted delim s

/-- A written record is read as its fields, and the scan goes on behind it. -/
theorem scan_text_record (delim : Char) (h1 : delim ≠ '"') (h2 : delim ≠ '\n')
    (fields : List (List Char)) (hne : fields ≠ []) (hok : ∀ f ∈ fields, field_ok delim f)
    (rest : List Char) :
    ∀ fresh : Bool, scan_text delim fresh false (join_fields delim fields ++ '\n' :: rest)
      = fields :: scan_text delim true false rest := by
  induction fields with
  | nil => exact absurd rfl hne
  | cons f more ih =>
    intro fresh
    have hf := hok f (List.mem_cons_self _ _)
    cases more with
    | nil =>
      simp only [join_fields, ne_eq, not_true_eq_false, if_false]
      rw [hf fresh '\n' rest, scan_text]
      simp [push_text, prepend_field]
    | cons g more2 =>
      have ih2 := ih (by simp) (fun x hx => hok x (List.mem_cons_of_mem _ hx)) false
      rw [join_fields, if_pos (by simp), List.append_assoc, List.cons_append,
        hf fresh delim _, scan_text, if_neg h1]
      simp only [h2, and_false, if_false, true_and, if_true]
      rw [ih2]
      simp [push_field, push_text, prepend_field]

/-- A text made of written records is read as the list of those records. -/
theorem scan_text_records (delim : Char) (h1 : delim ≠ '"') (h2 : delim ≠ '\n')
    (records : List (List (List Char)))
    (hok : ∀ r ∈ records, r ≠ [] ∧ ∀ f ∈ r, field_ok delim f) :
    scan_text delim true false
        ((records.map (fun r => join_fields delim r ++ ['\n'])).flatten)
      = records := by
  induction records with
  | nil => simp [scan_text]
  | cons r rest ih =>
    obtain ⟨hne, hf⟩ := hok r (List.mem_cons_self _ _)
    simp only [List.map_cons, List.flatten_cons, List.append_assoc, List.singleton_append]
    rw [scan_text_record delim h1 h2 r hne hf _ true,
      ih (fun x hx => hok x (List.mem_cons_of_mem _ hx))]

/-! ## The text of a double holds no delimiter, quote or line break -/

theorem strip_zeros_subset (l : List Char) : ∀ c ∈ strip_zeros l, c ∈ l := by
  intro c hc
  unfold strip_zeros at hc
  have h1 := List.mem_reverse.mp hc
  have h2 := (List.dropWhile_suffix (fun c => c == '0')).subset h1
  exact List.mem_reverse.mp h2

theorem padded_digits (a : Nat) :
    ∀ c ∈ (if a < 10 then '0' :: put_nat a else put_nat a), c.isDigit = true := by
  intro c hc
  by_cases h : a < 10
  · rw [if_pos h] at hc
    rcases List.mem_cons.mp hc with rfl | hc
    · decide
    · exact put_nat_all_digits _ c hc
  · rw [if_neg h] at hc
    exact put_nat_all_digits _ c hc

theorem put_exponent_chars (t : Nat) : ∀ c ∈ put_exponent t, number_char c := by
  intro c hc
  simp only [put_exponent, List.mem_cons] at hc
  rcases hc with rfl | hc | hc
  · exact Or.inr (Or.inr (Or.inl rfl))
  · by_cases h : 324 ≤ t
    · rw [if_pos h] at hc
      exact Or.inr (Or.inr (Or.inr (Or.inl hc)))
    · rw [if_neg h] at hc
      exact Or.inr (Or.inr (Or.inr (Or.inr hc)))
  · exact Or.inl (padded_digits _ c hc)

theorem put_layout_chars (digits : List Char) (t : Nat)
    (hd : ∀ c ∈ digits, c.isDigit = true) : ∀ c ∈ put_layout digits t, number_char c := by
  have htake : ∀ k, ∀ c ∈ digits.take k, number_char c :=
    fun k c hc => Or.inl (hd c (List.mem_of_mem_take hc))
  have hstrip : ∀ k, ∀ c ∈ strip_zeros (digits.drop k), number_char c :=
    fun k c hc => Or.inl (hd c (List.mem_of_mem_drop (strip_zeros_subset _ c hc)))
  have hfrac : ∀ k, ∀ c ∈ (if strip_zeros (digits.drop k) = [] then []
      else '.' :: strip_zeros (digits.drop k)), number_char c := by
    intro k c hc
    by_cases h : strip_zeros (digits.drop k) = []
    · rw [if_pos h] at hc
      simp at hc
    · rw [if_neg h] at hc
      rcases List.mem_cons.mp hc with rfl | hc
      · exact Or.inr (Or.inl rfl)
      · exact hstrip k c hc
  intro c hc
  unfold put_layout at hc
  by_cases h1 : t < 320 ∨ 341 ≤ t
  · rw [if_pos h1] at hc
    rcases List.mem_append.mp hc with hc | hc
    · rcases List.mem_append.mp hc with hc | hc
      · exact htake 1 c hc
      · exact hfrac 1 c hc
    · exact put_exponent_chars t c hc
  · rw [if_neg h1] at hc
    by_cases h2 : 324 ≤ t
    · rw [if_pos h2] at hc
      rcases List.mem_append.mp hc with hc | hc
      · exact htake _ c hc
      · exact hfrac _ c hc
    · rw [if_neg h2] at hc
      rcases List.mem_cons.mp hc with rfl | hc
      · exact Or.inl (by decide)
      · rcases List.mem_cons.mp hc with rfl | hc
        · exact Or.inr (Or.inl rfl)
        · rcases List.mem_append.mp hc with hc | hc
          · rw [List.eq_of_mem_replicate hc]
            exact Or.inl (by decide)
          · exact Or.inl (hd c (strip_zeros_subset _ c hc))

theorem put_double_chars (bits : Nat) : ∀ c ∈ put_double bits, number_char c := by
  have hbody : ∀ c ∈ (if (double_fraction bits).1 = 0 then ['0']
      else put_positive (double_fraction bits).1 (double_fraction bits).2),
      number_char c := by
    intro c hc
    by_cases h : (double_fraction bits).1 = 0
    · rw [if_pos h] at hc
      rw [List.mem_singleton.mp hc]
      exact Or.inl (by decide)
    · rw [if_neg h] at hc
      unfold put_positive at hc
      exact put_layout_chars _ _ (put_nat_all_digits _) c hc
  intro c hc
  unfold put_double at hc
  simp only [] at hc
  by_cases h : sign_bit bits = 1
  · rw [if_pos h] at hc
    rcases List.mem_cons.mp hc with rfl | hc
    · exact Or.inr (Or.inr (Or.inr (Or.inr rfl)))
    · exact hbody c hc
  · rw [if_neg h] at hc
    exact hbody c hc

theorem number_char_plain (c : Char) (h : number_char c) : ¬ is_special ',' c := by
  unfold is_special
  rintro (rfl | rfl | rfl | rfl) <;>
  · rcases h with h | h | h | h | h <;> exact absurd h (by decide)

theorem real_text_cases (value : Nat) :
    real_text value = ['N', 'A'] ∨ real_text value = ['N', 'a', 'N'] ∨
    real_text value = ['I', 'n', 'f'] ∨ real_text value = ['-', 'I', 'n', 'f'] ∨
    real_text value = put_double value := by
  unfold real_text cell_field
  simp only [stream_delim_elt, List.getElem?_cons_zero, List.nil_append]
  split_ifs <;> simp

theorem real_text_plain (value : Nat) : ∀ c ∈ real_text value, ¬ is_special ',' c := by
  intro c hc
  rcases real_text_cases value with h | h | h | h | h
  all_goals rw [h] at hc
  · revert c
    decide
  · revert c
    decide
  · revert c
    decide
  · revert c
    decide
  · exact number_char_plain c (put_double_chars value c hc)

theorem field_ok_real_text (value : Nat) : field_ok ',' (real_text value) :=
  field_ok_plain ',' _ (real_text_plain value)

theorem unquote_real_text (value : Nat) : unquote (real_text value) = real_text value := by
  apply unquote_of_no_quote
  intro c hc e
  exact real_text_plain value c hc (Or.inr (Or.inr (Or.inl e)))

/-! ## Rounding and exponent search -/

theorem round_half_even_bounds (a b : Nat) (hb : 0 < b) :
    2 * b * round_half_even a b ≤ 2 * a + b ∧ 2 * a ≤ 2 * b * round_half_even a b + b := by
  have hdm := Nat.div_add_mod a b
  have hr : a % b < b := Nat.mod_lt a hb
  unfold round_half_even
  simp only []
  generalize a / b = q at *
  generalize a % b = r at *
  by_cases h : b < 2 * r ∨ (2 * r = b ∧ q % 2 = 1)
  · rw [if_pos h]
    have h2 : b ≤ 2 * r := by
      rcases h with h | h
      · omega
      · omega
    constructor
    · nlinarith
    · nlinarith
  · rw [if_neg h]
    have h2 : 2 * r ≤ b := by
      by_contra hc
      exact h (Or.inl (by omega))
    constructor
    · nlinarith
    · nlinarith

theorem round_half_even_near (a b : Nat) (hb : 0 < b) :
    |(round_half_even a b : ℚ) - a / b| ≤ 1 / 2 := by
  obtain ⟨k1, k2⟩ := round_half_even_bounds a b hb
  generalize round_half_even a b = R at *
  have hbq : (0 : ℚ) < b := by exact_mod_cast hb
  have k1q : (2 : ℚ) * b * R ≤ 2 * a + b := by exact_mod_cast k1
  have k2q : (2 : ℚ) * a ≤ 2 * b * R + b := by exact_mod_cast k2
  have hx : (a : ℚ) = a / b * b := by field_simp
  generalize (a : ℚ) / b = x at *
  rw [hx] at k1q k2q
  rw [abs_le]
  constructor
  · by_contra hc
    push_neg at hc
    nlinarith
  · by_contra hc
    push_neg at hc
    nlinarith

theorem round_half_even_eq (a b M : Nat) (hb : 0 < b)
    (h : |(a : ℚ) / b - M| < 1 / 2) : round_half_even a b = M := by
  have hn := round_half_even_near a b hb
  generalize round_half_even a b = R at *
  have h3 : |(R : ℚ) - M| < 1 := by
    calc |(R : ℚ) - M| = |((R : ℚ) - a / b) + ((a : ℚ) / b - M)| := by ring_nf
      _ ≤ |(R : ℚ) - a / b| + |(a : ℚ) / b - M| := abs_add _ _
      _ < 1 := by linarith
  rw [abs_lt] at h3
  have e1 : (R : ℚ) < M + 1 := by linarith [h3.2]
  have e2 : (M : ℚ) < R + 1 := by linarith [h3.1]
  have e3 : R < M + 1 := by exact_mod_cast e1
  have e4 : M < R + 1 := by exact_mod_cast e2
  omega

/-- A threshold test on powers, in cross-multiplied form. -/
theorem pow_test_iff (c K t num den : Nat) (hc : 0 < c) :
    (if K ≤ t then decide (c ^ (t - K) * den ≤ num) else decide (den ≤ num * c ^ (K - t))) = true
      ↔ c ^ t * den ≤ num * c ^ K := by
  have hcK : 0 < c ^ K := pow_pos hc _
  have hct : 0 < c ^ t := pow_pos hc _
  by_cases h : K ≤ t
  · rw [if_pos h, decide_eq_true_iff]
    have e : c ^ t = c ^ (t - K) * c ^ K := by
      rw [← pow_add]
      congr 1
      omega
    rw [e, mul_right_comm]
    exact (mul_le_mul_right hcK).symm
  · rw [if_neg h, decide_eq_true_iff]
    have e : c ^ K = c ^ (K - t) * c ^ t := by
      rw [← pow_add]
      congr 1
      omega
    rw [e, mul_comm (c ^ t) den, ← mul_assoc]
    exact (mul_le_mul_right hct).symm

theorem pow_test_rat (c K t num den : Nat) (hc : 0 < c) (hden : 0 < den) :
    c ^ t * den ≤ num * c ^ K ↔ (c : ℚ) ^ ((t : ℤ) - K) ≤ (num : ℚ) / den := by
  have hcq : (0 : ℚ) < c := by exact_mod_cast hc
  have hdq : (0 : ℚ) < den := by exact_mod_cast hden
  have hcK : (0 : ℚ) < (c : ℚ) ^ K := pow_pos hcq K
  rw [zpow_sub₀ (ne_of_gt hcq), zpow_natCast, zpow_natCast, div_le_div_iff₀ hcK hdq]
  constructor
  · intro h
    exact_mod_cast h
  · intro h
    exact_mod_cast h

theorem ge_pow10_iff (num den t : Nat) (hden : 0 < den) :
    ge_pow10 num den t = true ↔ (10 : ℚ) ^ ((t : ℤ) - 324) ≤ (num : ℚ) / den := by
  unfold ge_pow10
  rw [pow_test_iff 10 324 t num den (by norm_num)]
  exact pow_test_rat 10 324 t num den (by norm_num) hden

theorem ge_pow2_iff (num den t : Nat) (hden : 0 < den) :
    ge_pow2 num den t = true ↔ (2 : ℚ) ^ ((t : ℤ) - 1023) ≤ (num : ℚ) / den := by
  unfold ge_pow2
  rw [pow_test_iff 2 1023 t num den (by norm_num)]
  exact pow_test_rat 2 1023 t num den (by norm_num) hden

theorem dec_exponent_spec (num den : Nat) : ∀ s : Nat,
    dec_exponent num den s ≤ s ∧
    (∀ t, dec_exponent num den s < t → t ≤ s → ge_pow10 num den t = false) ∧
    (dec_exponent num den s ≠ 0 → ge_pow10 num den (dec_exponent num den s) = true) := by
  intro s
  induction s with
  | zero =>
    refine ⟨le_refl _, ?_, ?_⟩
    · intro t h1 h2
      simp only [dec_exponent] at h1
      omega
    · intro h
      simp [dec_exponent] at h
  | succ s ih =>
    by_cases h : ge_pow10 num den (s + 1) = true
    · have e : dec_exponent num den (s + 1) = s + 1 := by
        rw [dec_exponent, if_pos h]
      rw [e]
      refine ⟨le_refl _, ?_, fun _ => h⟩
      intro t h1 h2
      omega
    · have e : dec_exponent num den (s + 1) = dec_exponent num den s := by
        rw [dec_exponent, if_neg h]
      rw [e]
      refine ⟨by omega, ?_, ih.2.2⟩
      intro t h1 h2
      by_cases ht : t = s + 1
      · rw [ht]
        simpa using h
      · exact ih.2.1 t h1 (by omega)

theorem bin_exponent_spec (num den : Nat) : ∀ s : Nat,
    bin_exponent num den s ≤ s ∧
    (∀ t, bin_exponent num den s < t → t ≤ s → ge_pow2 num den t = false) ∧
    (bin_exponent num den s ≠ 0 → ge_pow2 num den (bin_exponent num den s) = true) := by
  intro s
  induction s with
  | zero =>
    refine ⟨le_refl _, ?_, ?_⟩
    · intro t h1 h2
      simp only [bin_exponent] at h1
      omega
    · intro h
      simp [bin_exponent] at h
  | succ s ih =>
    by_cases h : ge_pow2 num den (s + 1) = true
    · have e : bin_exponent num den (s + 1) = s + 1 := by
        rw [bin_exponent, if_pos h]
      rw [e]
      refine ⟨le_refl _, ?_, fun _ => h⟩
      intro t h1 h2
      omega
    · have e : bin_exponent num den (s + 1) = bin_exponent num den s := by
        rw [bin_exponent, if_neg h]
      rw [e]
      refine ⟨by omega, ?_, ih.2.2⟩
      intro t h1 h2
      by_cases ht : t = s + 1
      · rw [ht]
        simpa using h
      · exact ih.2.1 t h1 (by omega)

/-! ## The nearest double of a fraction -/

theorem mantissa_eq (num den u M : Nat) (hden : 0 < den)
    (h : |(num : ℚ) / den - M * (2 : ℚ) ^ ((u : ℤ) - 1075)| < (2 : ℚ) ^ ((u : ℤ) - 1075) / 2) :
    (if u < 1075 then round_half_even (num * 2 ^ (1075 - u)) den
      else round_half_even num (den * 2 ^ (u - 1075))) = M := by
  have hdq : (0 : ℚ) < den := by exact_mod_cast hden
  have hg : (0 : ℚ) < (2 : ℚ) ^ ((u : ℤ) - 1075) := zpow_pos (by norm_num) _
  have key : ∀ g : ℚ, 0 < g → |(num : ℚ) / den - M * g| < g / 2 →
      |(num : ℚ) / den / g - M| < 1 / 2 := by
    intro g hg0 hh
    have e : (num : ℚ) / den / g - M = ((num : ℚ) / den - M * g) / g := by
      field_simp
      ring
    rw [e, abs_div, abs_of_pos hg0, div_lt_iff₀ hg0]
    linarith
  have hk := key _ hg h
  by_cases hu : u < 1075
  · rw [if_pos hu]
    apply round_half_even_eq _ _ _ hden
    have e : (2 : ℚ) ^ ((u : ℤ) - 1075) = ((2 : ℚ) ^ (1075 - u))⁻¹ := by
      have e0 : (u : ℤ) - 1075 = -((1075 - u : ℕ) : ℤ) := by omega
      rw [e0, zpow_neg, zpow_natCast]
    rw [e] at hk
    have e2 : (((num * 2 ^ (1075 - u) : ℕ) : ℚ)) / den
        = (num : ℚ) / den / ((2 : ℚ) ^ (1075 - u))⁻¹ := by
      push_cast
      field_simp
    rw [e2]
    exact hk
  · rw [if_neg hu]
    apply round_half_even_eq _ _ _ (Nat.mul_pos hden (pow_pos (by norm_num) _))
    have e : (2 : ℚ) ^ ((u : ℤ) - 1075) = (2 : ℚ) ^ (u - 1075) := by
      have e0 : (u : ℤ) - 1075 = ((u - 1075 : ℕ) : ℤ) := by omega
      rw [e0, zpow_natCast]
    rw [e] at hk
    have e2 : (num : ℚ) / ((den * 2 ^ (u - 1075) : ℕ) : ℚ)
        = (num : ℚ) / den / (2 : ℚ) ^ (u - 1075) := by
      push_cast
      field_simp
    rw [e2]
    exact hk

theorem two_zpow_shift (u : ℤ) (k : ℤ) :
    (2 : ℚ) ^ (u + k - 1023) = (2 : ℚ) ^ (52 + k) * (2 : ℚ) ^ (u - 1075) := by
  rw [← zpow_add₀ (by norm_num : (2 : ℚ) ≠ 0)]
  congr 1
  ring

theorem close_half (q g M : ℚ) (hg : 0 < g) (hM : M + 1 ≤ 9007199254740992)
    (hclose : |q - M * g| * (2 * 10 ^ 16) ≤ M * g) : |q - M * g| < g / 2 := by
  have hMg : M * g + g ≤ 9007199254740992 * g := by nlinarith
  by_contra hc
  push_neg at hc
  nlinarith

theorem close_quarter (q g : ℚ) (hg : 0 < g)
    (hclose : |q - 4503599627370496 * g| * (2 * 10 ^ 16) ≤ 4503599627370496 * g) :
    |q - 4503599627370496 * g| < g / 4 := by
  by_contra hc
  push_neg at hc
  nlinarith

theorem nearest_double_eq (num den u M : Nat) (hden : 0 < den) (hu1 : 1 ≤ u)
    (hu2 : u ≤ 2046) (hM : M < 2 ^ 53) (hnorm : 2 ≤ u → 2 ^ 52 ≤ M)
    (hclose : |(num : ℚ) / den - M * (2 : ℚ) ^ ((u : ℤ) - 1075)| * (2 * 10 ^ 16)
      ≤ M * (2 : ℚ) ^ ((u : ℤ) - 1075)) :
    nearest_double num den = (u - 1) * 2 ^ 52 + M := by
  have hg : (0 : ℚ) < (2 : ℚ) ^ ((u : ℤ) - 1075) := zpow_pos (by norm_num) _
  have hP0 : (2 : ℚ) ^ ((u : ℤ) - 1023) = 4503599627370496 * (2 : ℚ) ^ ((u : ℤ) - 1075) := by
    have := two_zpow_shift u 0
    rw [add_zero, add_zero] at this
    rw [this]
    norm_num
  have hP1 : (2 : ℚ) ^ (((u + 1 : ℕ) : ℤ) - 1023)
      = 9007199254740992 * (2 : ℚ) ^ ((u : ℤ) - 1075) := by
    have := two_zpow_shift u 1
    push_cast
    rw [this]
    norm_num
  have hPm : (2 : ℚ) ^ (((u - 1 : ℕ) : ℤ) - 1023)
      = 2251799813685248 * (2 : ℚ) ^ ((u : ℤ) - 1075) := by
    have := two_zpow_shift u (-1)
    have e : ((u - 1 : ℕ) : ℤ) = (u : ℤ) + -1 := by omega
    rw [e, this]
    norm_num
  have hgm : (2 : ℚ) ^ (((u - 1 : ℕ) : ℤ) - 1075) = (2 : ℚ) ^ ((u : ℤ) - 1075) / 2 := by
    have e : ((u - 1 : ℕ) : ℤ) - 1075 = ((u : ℤ) - 1075) + -1 := by omega
    rw [e, zpow_add₀ (by norm_num : (2 : ℚ) ≠ 0)]
    norm_num
    ring
  have hMq : (M : ℚ) + 1 ≤ 9007199254740992 := by
    have : M + 1 ≤ 9007199254740992 := by
      norm_num at hM
      omega
    exact_mod_cast this
  obtain ⟨s1, s2, s3⟩ := bin_exponent_spec num den 2046
  generalize hq : (num : ℚ) / den = q at *
  generalize hgg : (2 : ℚ) ^ ((u : ℤ) - 1075) = g at *
  have hMg : (M : ℚ) * g + g ≤ 9007199254740992 * g := by
    have := mul_le_mul_of_nonneg_right hMq (le_of_lt hg)
    linarith only [this]
  have hhalf : |q - M * g| < g / 2 := close_half q g M hg hMq hclose
  have hlt := (abs_lt.mp hhalf)
  -- the exponent search stays at or below u
  have hup : ∀ t, u + 1 ≤ t → ge_pow2 num den t = false := by
    intro t ht
    by_contra hc
    have hc2 : ge_pow2 num den t = true := by simpa using hc
    rw [ge_pow2_iff num den t hden, hq] at hc2
    have hmono : (2 : ℚ) ^ (((u + 1 : ℕ) : ℤ) - 1023) ≤ (2 : ℚ) ^ ((t : ℤ) - 1023) := by
      apply zpow_le_zpow_right₀ (by norm_num : (1 : ℚ) ≤ 2)
      have : ((u + 1 : ℕ) : ℤ) ≤ (t : ℤ) := by exact_mod_cast ht
      omega
    rw [hP1] at hmono
    linarith only [hlt.2, hmono, hc2, hMg, hg]
  have hble : bin_exponent num den 2046 ≤ u := by
    by_contra hc
    have h1 := hup _ (by omega : u + 1 ≤ bin_exponent num den 2046)
    have h2 := s3 (by omega)
    rw [h1] at h2
    exact Bool.noConfusion h2
  have hPOS : (u - 1) * 2 ^ 52 + M < POS_INF := by
    unfold POS_INF
    norm_num at hM ⊢
    omega
  unfold nearest_double
  simp only []
  by_cases hcase : 4503599627370496 * g ≤ q
  · -- the fraction lies in the binade of u
    have hge : ge_pow2 num den u = true := by
      rw [ge_pow2_iff num den u hden, hq, hP0]
      exact hcase
    have hb : bin_exponent num den 2046 = u := by
      by_contra hc
      have := s2 u (by omega) hu2
      rw [hge] at this
      exact Bool.noConfusion this
    rw [hb, if_neg (by omega : ¬ u = 0)]
    have hm := mantissa_eq num den u M hden (by rw [hq, hgg]; exact hhalf)
    rw [hm, if_neg (by omega)]
  · push_neg at hcase
    have hnge : ge_pow2 num den u = false := by
      by_contra hc
      have hc2 : ge_pow2 num den u = true := by simpa using hc
      rw [ge_pow2_iff num den u hden, hq, hP0] at hc2
      linarith only [hc2, hcase]
    by_cases hu : u = 1
    · have hb : bin_exponent num den 2046 = 0 := by
        by_contra hc
        have h1 : bin_exponent num den 2046 = u := by omega
        have h2 := s3 hc
        rw [h1, hnge] at h2
        exact Bool.noConfusion h2
      rw [hb, if_pos rfl]
      have hm := mantissa_eq num den u M hden (by rw [hq, hgg]; exact hhalf)
      rw [hu] at hm hPOS ⊢
      rw [hm, if_neg (by omega)]
    · have hM2 : 2 ^ 52 ≤ M := hnorm (by omega)
      have hM3 : (4503599627370496 : ℚ) ≤ M := by
        have : 4503599627370496 ≤ M := by
          norm_num at hM2
          exact hM2
        exact_mod_cast this
      have hMeq : (M : ℚ) = 4503599627370496 := by
        by_contra hc
        have h4 : (4503599627370496 : ℚ) + 1 ≤ M := by
          have h5 : (4503599627370496 : ℕ) ≠ M := by
            intro h6
            apply hc
            rw [← h6]
            norm_num
          have h7 : 4503599627370496 ≤ M := by exact_mod_cast hM3
          have : 4503599627370496 + 1 ≤ M := by omega
          exact_mod_cast this
        have h8 := mul_le_mul_of_nonneg_right h4 (le_of_lt hg)
        linarith only [h8, hlt.1, hcase, hg]
      have hMn : M = 4503599627370496 := by exact_mod_cast hMeq
      rw [hMeq] at hclose hhalf hlt
      have hquarter : |q - 4503599627370496 * g| < g / 4 := close_quarter q g hg hclose
      have hql := (abs_lt.mp hquarter)
      have hge : ge_pow2 num den (u - 1) = true := by
        rw [ge_pow2_iff num den (u - 1) hden, hq, hPm]
        linarith only [hql.1, hg]
      have hb : bin_exponent num den 2046 = u - 1 := by
        by_contra hc
        by_cases hbu : bin_exponent num den 2046 = u
        · have h2 := s3 (by omega)
          rw [hbu, hnge] at h2
          exact Bool.noConfusion h2
        · have := s2 (u - 1) (by omega) (by omega)
          rw [hge] at this
          exact Bool.noConfusion this
      rw [hb, if_neg (by omega : ¬ u - 1 = 0)]
      have hm := mantissa_eq num den (u - 1) 9007199254740992 hden (by
        rw [hq, hgm]
        rw [abs_lt]
        push_cast
        constructor
        · linarith only [hql.1]
        · linarith only [hql.2])
      rw [hm]
      have hlast : (u - 1 - 1) * 2 ^ 52 + 9007199254740992 = (u - 1) * 2 ^ 52 + M := by
        rw [hMn]
        norm_num
        omega
      rw [hlast, if_neg (by omega)]

/-! ## The seventeen digits of a positive fraction -/

theorem decimal_mantissa_near (N D t0 : Nat) (hD : 0 < D) :
    |((if t0 ≤ 340 then round_half_even (N * 10 ^ (340 - t0)) D
        else round_half_even N (D * 10 ^ (t0 - 340)) : ℕ) : ℚ)
      - (N : ℚ) / D / (10 : ℚ) ^ ((t0 : ℤ) - 340)| ≤ 1 / 2 := by
  have hdq : (0 : ℚ) < D := by exact_mod_cast hD
  by_cases h : t0 ≤ 340
  · rw [if_pos h]
    have e0 : (t0 : ℤ) - 340 = -((340 - t0 : ℕ) : ℤ) := by omega
    have e : (N : ℚ) / D / (10 : ℚ) ^ ((t0 : ℤ) - 340)
        = ((N * 10 ^ (340 - t0) : ℕ) : ℚ) / D := by
      rw [e0, zpow_neg, zpow_natCast]
      push_cast
      field_simp
    rw [e]
    exact round_half_even_near _ _ hD
  · rw [if_neg h]
    have e0 : (t0 : ℤ) - 340 = ((t0 - 340 : ℕ) : ℤ) := by omega
    have e : (N : ℚ) / D / (10 : ℚ) ^ ((t0 : ℤ) - 340)
        = (N : ℚ) / ((D * 10 ^ (t0 - 340) : ℕ) : ℚ) := by
      rw [e0, zpow_natCast]
      push_cast
      field_simp
    rw [e]
    exact round_half_even_near _ _ (Nat.mul_pos hD (pow_pos (by norm_num) _))

theorem round17 (v p d0 : ℚ) (hp : 0 < p) (hA : 10 ^ 16 * p ≤ v) (hB : v < 10 ^ 17 * p)
    (hr : |d0 - v / p| ≤ 1 / 2) :
    10 ^ 16 - 1 / 2 ≤ d0 ∧ d0 < 10 ^ 17 + 1 / 2 ∧ |d0 * p - v| * (2 * 10 ^ 16) ≤ v := by
  have hv : v = v / p * p := by field_simp
  generalize v / p = y at *
  rw [hv] at hA hB ⊢
  have hA2 : 10 ^ 16 ≤ y := le_of_mul_le_mul_right hA hp
  have hB2 : y < 10 ^ 17 := lt_of_mul_lt_mul_right hB (le_of_lt hp)
  rw [abs_le] at hr
  refine ⟨by linarith only [hr.1, hA2], by linarith only [hr.2, hB2], ?_⟩
  have e : d0 * p - y * p = (d0 - y) * p := by ring
  rw [e, abs_mul, abs_of_pos hp]
  have h1 : |d0 - y| ≤ 1 / 2 := abs_le.mpr hr
  have h2 : |d0 - y| * p ≤ 1 / 2 * p := mul_le_mul_of_nonneg_right h1 (le_of_lt hp)
  linarith only [h2, hA]

theorem ten_zpow_shift (t : ℤ) (k : ℤ) :
    (10 : ℚ) ^ (t + k - 324) = (10 : ℚ) ^ (16 + k) * (10 : ℚ) ^ (t - 340) := by
  rw [← zpow_add₀ (by norm_num : (10 : ℚ) ≠ 0)]
  congr 1
  ring

theorem put_positive_value (N D : Nat) (hD : 0 < D) (h0 : ge_pow10 N D 0 = true)
    (h633 : ge_pow10 N D 633 = false) :
    ∃ d t, put_positive N D = put_layout (put_nat d) t ∧ 10 ^ 16 ≤ d ∧ d < 10 ^ 17 ∧
      t ≤ 633 ∧
      |(d : ℚ) * (10 : ℚ) ^ ((t : ℤ) - 340) - (N : ℚ) / D| * (2 * 10 ^ 16) ≤ (N : ℚ) / D := by
  obtain ⟨s1, s2, s3⟩ := dec_exponent_spec N D 633
  have hnear := decimal_mantissa_near N D (dec_exponent N D 633) hD
  unfold put_positive
  simp only []
  generalize dec_exponent N D 633 = t0 at *
  generalize (if t0 ≤ 340 then round_half_even (N * 10 ^ (340 - t0)) D
        else round_half_even N (D * 10 ^ (t0 - 340))) = d0 at *
  have hge : ge_pow10 N D t0 = true := by
    by_cases h : t0 = 0
    · rw [h]
      exact h0
    · exact s3 h
  have ht0 : t0 ≤ 632 := by
    by_contra hc
    have : t0 = 633 := by omega
    rw [this, h633] at hge
    exact Bool.noConfusion hge
  have hnge : ge_pow10 N D (t0 + 1) = false := s2 (t0 + 1) (by omega) (by omega)
  have hA := (ge_pow10_iff N D t0 hD).mp hge
  have hB : (N : ℚ) / D < (10 : ℚ) ^ (((t0 + 1 : ℕ) : ℤ) - 324) := by
    by_contra hc
    push_neg at hc
    have := (ge_pow10_iff N D (t0 + 1) hD).mpr hc
    rw [hnge] at this
    exact Bool.noConfusion this
  have hp : (0 : ℚ) < (10 : ℚ) ^ ((t0 : ℤ) - 340) := zpow_pos (by norm_num) _
  have eA : (10 : ℚ) ^ ((t0 : ℤ) - 324) = 10 ^ 16 * (10 : ℚ) ^ ((t0 : ℤ) - 340) := by
    have := ten_zpow_shift t0 0
    rw [add_zero, add_zero] at this
    rw [this]
    norm_num
  have eB : (10 : ℚ) ^ (((t0 + 1 : ℕ) : ℤ) - 324)
      = 10 ^ 17 * (10 : ℚ) ^ ((t0 : ℤ) - 340) := by
    have := ten_zpow_shift t0 1
    push_cast
    rw [this]
    norm_num
  have eC : (10 : ℚ) ^ (((t0 + 1 : ℕ) : ℤ) - 340) = 10 * (10 : ℚ) ^ ((t0 : ℤ) - 340) := by
    have e : ((t0 + 1 : ℕ) : ℤ) - 340 = 1 + ((t0 : ℤ) - 340) := by
      push_cast
      ring
    rw [e, zpow_add₀ (by norm_num : (10 : ℚ) ≠ 0)]
    norm_num
  rw [eA] at hA
  rw [eB] at hB
  obtain ⟨r1, r2, r3⟩ := round17 _ _ _ hp hA hB hnear
  have hd1 : 10 ^ 16 ≤ d0 := by
    have : ((10 ^ 16 : ℕ) : ℚ) < d0 + 1 := by
      push_cast
      linarith only [r1]
    have : 10 ^ 16 < d0 + 1 := by exact_mod_cast this
    omega
  have hd2 : d0 ≤ 10 ^ 17 := by
    have : (d0 : ℚ) < ((10 ^ 17 + 1 : ℕ) : ℚ) := by
      push_cast
      linarith only [r2]
    have : d0 < 10 ^ 17 + 1 := by exact_mod_cast this
    omega
  by_cases hd : d0 = 10 ^ 17
  · refine ⟨10 ^ 16, t0 + 1, ?_, le_refl _, by norm_num, by omega, ?_⟩
    · rw [if_pos hd, if_pos hd]
    · rw [eC]
      have e : ((10 ^ 16 : ℕ) : ℚ) * (10 * (10 : ℚ) ^ ((t0 : ℤ) - 340))
          = (d0 : ℚ) * (10 : ℚ) ^ ((t0 : ℤ) - 340) := by
        rw [hd]
        push_cast
        ring
      rw [e]
      exact r3
  · refine ⟨d0, t0, ?_, hd1, by omega, by omega, r3⟩
    rw [if_neg hd, if_neg hd]

theorem double_fraction_value (bits u M : Nat)
    (hu : u = if exponent_field bits = 0 then 1 else exponent_field bits)
    (hM : M = if exponent_field bits = 0 then fraction_field bits
      else 2 ^ 52 + fraction_field bits) :
    0 < (double_fraction bits).2 ∧ ((double_fraction bits).1 = 0 ↔ M = 0) ∧
      ((double_fraction bits).1 : ℚ) / (double_fraction bits).2
        = M * (2 : ℚ) ^ ((u : ℤ) - 1075) := by
  unfold double_fraction
  simp only []
  by_cases h0 : exponent_field bits = 0
  · rw [if_pos h0] at hu hM
    rw [if_pos h0, hu, hM]
    refine ⟨pow_pos (by norm_num) _, Iff.rfl, ?_⟩
    have e0 : ((1 : ℕ) : ℤ) - 1075 = -((1074 : ℕ) : ℤ) := by norm_num
    rw [e0, zpow_neg, zpow_natCast, Nat.cast_pow, Nat.cast_ofNat, div_eq_mul_inv]
  · rw [if_neg h0] at hu hM
    rw [if_neg h0]
    by_cases h1 : exponent_field bits < 1075
    · rw [if_pos h1, hu, hM]
      refine ⟨pow_pos (by norm_num) _, Iff.rfl, ?_⟩
      have e0 : (exponent_field bits : ℤ) - 1075
          = -((1075 - exponent_field bits : ℕ) : ℤ) := by omega
      rw [e0, zpow_neg, zpow_natCast]
      push_cast
      rfl
    · rw [if_neg h1, hu, hM]
      have hp : 0 < 2 ^ (exponent_field bits - 1075) := pow_pos (by norm_num) _
      refine ⟨by norm_num, ?_, ?_⟩
      · constructor
        · intro h
          rcases Nat.mul_eq_zero.mp h with h | h
          · exact h
          · omega
        · intro h
          rw [h, zero_mul]
      · have e0 : (exponent_field bits : ℤ) - 1075
            = ((exponent_field bits - 1075 : ℕ) : ℤ) := by omega
        rw [e0, zpow_natCast]
        push_cast
        simp

theorem double_value_bounds (M u : Nat) (hM1 : 1 ≤ M) (hM2 : M < 2 ^ 53) (hu1 : 1 ≤ u)
    (hu2 : u ≤ 2046) :
    (10 : ℚ) ^ (((0 : ℕ) : ℤ) - 324) ≤ M * (2 : ℚ) ^ ((u : ℤ) - 1075) ∧
      (M : ℚ) * (2 : ℚ) ^ ((u : ℤ) - 1075) < (10 : ℚ) ^ (((633 : ℕ) : ℤ) - 324) := by
  have k1n : (2 : ℕ) ^ 1074 ≤ 10 ^ 324 := by decide!
  have k2n : (2 : ℕ) ^ 1024 ≤ 10 ^ 309 := by decide!
  have k1 : (2 : ℚ) ^ 1074 ≤ (10 : ℚ) ^ 324 := by
    have h : ((2 ^ 1074 : ℕ) : ℚ) ≤ ((10 ^ 324 : ℕ) : ℚ) := Nat.cast_le.mpr k1n
    rw [Nat.cast_pow, Nat.cast_pow, Nat.cast_ofNat, Nat.cast_ofNat] at h
    exact h
  have k2 : (2 : ℚ) ^ 1024 ≤ (10 : ℚ) ^ 309 := by
    have h : ((2 ^ 1024 : ℕ) : ℚ) ≤ ((10 ^ 309 : ℕ) : ℚ) := Nat.cast_le.mpr k2n
    rw [Nat.cast_pow, Nat.cast_pow, Nat.cast_ofNat, Nat.cast_ofNat] at h
    exact h
  have hg : (0 : ℚ) < (2 : ℚ) ^ ((u : ℤ) - 1075) := zpow_pos (by norm_num) _
  have hM1q : (1 : ℚ) ≤ M := by exact_mod_cast hM1
  have hM2q : (M : ℚ) < (2 : ℚ) ^ 53 := by exact_mod_cast hM2
  constructor
  · have e1 : (10 : ℚ) ^ (((0 : ℕ) : ℤ) - 324) = ((10 : ℚ) ^ 324)⁻¹ := by
      have e0 : ((0 : ℕ) : ℤ) - 324 = -((324 : ℕ) : ℤ) := by norm_num
      rw [e0, zpow_neg, zpow_natCast]
    have e2 : ((2 : ℚ) ^ 1074)⁻¹ = (2 : ℚ) ^ (-(1074 : ℤ)) := by
      have e0 : (-(1074 : ℤ)) = -((1074 : ℕ) : ℤ) := by norm_num
      rw [e0, zpow_neg, zpow_natCast]
    have h1 : ((10 : ℚ) ^ 324)⁻¹ ≤ ((2 : ℚ) ^ 1074)⁻¹ :=
      inv_anti₀ (pow_pos (by norm_num) _) k1
    have h2 : (2 : ℚ) ^ (-(1074 : ℤ)) ≤ (2 : ℚ) ^ ((u : ℤ) - 1075) :=
      zpow_le_zpow_right₀ (by norm_num : (1 : ℚ) ≤ 2) (by omega)
    have h3 : (2 : ℚ) ^ ((u : ℤ) - 1075) ≤ M * (2 : ℚ) ^ ((u : ℤ) - 1075) :=
      le_mul_of_one_le_left (le_of_lt hg) hM1q
    rw [e1]
    rw [e2] at h1
    exact le_trans h1 (le_trans h2 h3)
  · have e1 : (10 : ℚ) ^ (((633 : ℕ) : ℤ) - 324) = (10 : ℚ) ^ 309 := by
      have e0 : ((633 : ℕ) : ℤ) - 324 = ((309 : ℕ) : ℤ) := by norm_num
      rw [e0, zpow_natCast]
    have h1 : (M : ℚ) * (2 : ℚ) ^ ((u : ℤ) - 1075)
        < (2 : ℚ) ^ 53 * (2 : ℚ) ^ ((u : ℤ) - 1075) := mul_lt_mul_of_pos_right hM2q hg
    have h2 : (2 : ℚ) ^ ((u : ℤ) - 1075) ≤ (2 : ℚ) ^ (((971 : ℕ) : ℤ)) :=
      zpow_le_zpow_right₀ (by norm_num : (1 : ℚ) ≤ 2) (by omega)
    rw [zpow_natCast] at h2
    have h3 : (2 : ℚ) ^ 53 * (2 : ℚ) ^ ((u : ℤ) - 1075) ≤ (2 : ℚ) ^ 53 * (2 : ℚ) ^ 971 :=
      mul_le_mul_of_nonneg_left h2 (le_of_lt (pow_pos (by norm_num) _))
    have h4 : (2 : ℚ) ^ 53 * (2 : ℚ) ^ 971 = (2 : ℚ) ^ 1024 := by
      rw [← pow_add]
    rw [e1]
    rw [h4] at h3
    exact lt_of_lt_of_le h1 (le_trans h3 k2)

/-! ## Reading the digits of a written number -/

theorem take_digits_run (l : List Char) : ∀ (acc cnt v : Nat) (rest : List Char),
    parse_digits acc l = some v → (∀ c r, rest = c :: r → c.isDigit = false) →
    take_digits acc cnt (l ++ rest) = (v, cnt + l.length, rest) := by
  induction l with
  | nil =>
    intro acc cnt v rest hv hrest
    simp only [parse_digits, Option.some.injEq] at hv
    rw [← hv, List.nil_append]
    cases rest with
    | nil => rfl
    | cons c r =>
      have hc := hrest c r rfl
      rw [take_digits, if_neg (by simp [hc])]
      rfl
  | cons a t ih =>
    intro acc cnt v rest hv hrest
    by_cases ha : a.isDigit = true
    · rw [parse_digits, if_pos ha] at hv
      rw [List.cons_append, take_digits, if_pos ha, ih _ _ v rest hv hrest]
      simp only [List.length_cons]
      congr 2
      omega
    · rw [parse_digits, if_neg ha] at hv
      exact Option.noConfusion hv

theorem take_digits_all (l : List Char) (acc cnt v : Nat) (hv : parse_digits acc l = some v) :
    take_digits acc cnt l = (v, cnt + l.length, []) := by
  have := take_digits_run l acc cnt v [] hv (fun c r h => List.noConfusion h)
  rw [List.append_nil] at this
  exact this

theorem parse_digits_concat (l1 l2 : List Char) : ∀ acc : Nat,
    parse_digits acc (l1 ++ l2) = (parse_digits acc l1).bind (fun v => parse_digits v l2) := by
  induction l1 with
  | nil =>
    intro acc
    simp [parse_digits]
  | cons a t ih =>
    intro acc
    by_cases ha : a.isDigit = true
    · simp only [List.cons_append, parse_digits, if_pos ha]
      exact ih _
    · simp [parse_digits, ha]

theorem parse_digits_split (l1 l2 : List Char) (acc v : Nat)
    (h : parse_digits acc (l1 ++ l2) = some v) :
    ∃ w, parse_digits acc l1 = some w ∧ parse_digits w l2 = some v := by
  rw [parse_digits_concat] at h
  cases hw : parse_digits acc l1 with
  | none =>
    rw [hw] at h
    exact Option.noConfusion h
  | some w =>
    rw [hw] at h
    exact ⟨w, rfl, h⟩

theorem parse_digits_zeros (z : Nat) : ∀ acc : Nat,
    parse_digits acc (List.replicate z '0') = some (acc * 10 ^ z) := by
  induction z with
  | zero =>
    intro acc
    simp [parse_digits]
  | succ z ih =>
    intro acc
    rw [List.replicate_succ, parse_digits, if_pos (by decide), ih]
    congr 1
    have : ('0' : Char).toNat - 48 = 0 := by decide
    rw [this, pow_succ]
    ring

theorem strip_zeros_split (l : List Char) :
    ∃ z, l = strip_zeros l ++ List.replicate z '0' := by
  unfold strip_zeros
  refine ⟨(l.reverse.takeWhile (fun c => c == '0')).length, ?_⟩
  have h1 : l.reverse = l.reverse.takeWhile (fun c => c == '0')
      ++ l.reverse.dropWhile (fun c => c == '0') := (List.takeWhile_append_dropWhile _ _).symm
  have h2 : l.reverse.takeWhile (fun c => c == '0')
      = List.replicate (l.reverse.takeWhile (fun c => c == '0')).length '0' := by
    rw [List.eq_replicate_iff]
    refine ⟨rfl, ?_⟩
    intro c hc
    have := List.mem_takeWhile_imp hc
    simpa using this
  have h3 : l = (l.reverse).reverse := (List.reverse_reverse l).symm
  conv_lhs => rw [h3, h1, List.reverse_append]
  congr 1
  conv_lhs => rw [h2, List.reverse_replicate]

theorem strip_zeros_value (l : List Char) (acc v : Nat) (h : parse_digits acc l = some v) :
    ∃ m z, parse_digits acc (strip_zeros l) = some m ∧ v = m * 10 ^ z ∧
      (strip_zeros l).length + z = l.length := by
  obtain ⟨z, hz⟩ := strip_zeros_split l
  generalize strip_zeros l = r at *
  rw [hz] at h
  obtain ⟨m, h1, h2⟩ := parse_digits_split _ _ _ _ h
  rw [parse_digits_zeros] at h2
  refine ⟨m, z, h1, ?_, ?_⟩
  · exact (Option.some.inj h2).symm
  · rw [hz]
    simp

theorem put_nat_length : ∀ (k n : Nat), 10 ^ k ≤ n → n < 10 ^ (k + 1) →
    (put_nat n).length = k + 1 := by
  intro k
  induction k with
  | zero =>
    intro n h1 h2
    rw [put_nat_small n (by omega)]
    rfl
  | succ k ih =>
    intro n h1 h2
    have h3 : 10 ^ k ≤ n / 10 := by
      rw [Nat.le_div_iff_mul_le (by norm_num)]
      rw [pow_succ] at h1
      exact h1
    have h4 : n / 10 < 10 ^ (k + 1) := by
      rw [Nat.div_lt_iff_lt_mul (by norm_num)]
      rw [pow_succ] at h2
      exact h2
    have h5 : n / 10 ≠ 0 := by
      have : 0 < 10 ^ k := pow_pos (by norm_num) _
      omega
    rw [put_nat_step n h5, List.length_append, ih (n / 10) h3 h4]
    rfl

theorem parse_exponent_put (t : Nat) :
    parse_exponent (put_exponent t)
      = some (if 324 ≤ t then t - 324 else 324 - t, decide (t < 324)) := by
  have hpad : ∀ a : Nat,
      parse_digits 0 (if a < 10 then '0' :: put_nat a else put_nat a) = some a := by
    intro a
    by_cases h : a < 10
    · rw [if_pos h, parse_digits, if_pos (by decide)]
      exact parse_digits_put_nat a
    · rw [if_neg h]
      exact parse_digits_put_nat a
  have hne : ∀ a : Nat, (if a < 10 then '0' :: put_nat a else put_nat a) ≠ [] := by
    intro a
    by_cases h : a < 10
    · rw [if_pos h]
      exact List.cons_ne_nil _ _
    · rw [if_neg h]
      exact put_nat_ne_nil a
  unfold put_exponent
  simp only []
  generalize (if 324 ≤ t then t - 324 else 324 - t) = a
  have hrun := take_digits_all _ 0 0 a (hpad a)
  have hlen : 0 + (if a < 10 then '0' :: put_nat a else put_nat a).length ≠ 0 := by
    have := List.length_pos.mpr (hne a)
    omega
  generalize (if a < 10 then '0' :: put_nat a else put_nat a) = body at *
  by_cases h : 324 ≤ t
  · rw [if_pos h]
    simp only [parse_exponent, true_or, or_true, if_true, hrun]
    rw [if_neg hlen]
    have : decide (t < 324) = false := by simp [h]
    rw [this]
    rfl
  · rw [if_neg h]
    simp only [parse_exponent, true_or, or_true, if_true, hrun]
    rw [if_neg hlen]
    have : decide (t < 324) = true := by simp; omega
    rw [this]
    rfl

/-! ## Reading a written number -/

theorem parse_unsigned_plain (w tail : List Char) (whole e10 : Nat) (neg : Bool)
    (hw : parse_digits 0 w = some whole) (hw0 : w ≠ [])
    (htail : ∀ c r, tail = c :: r → c = 'e')
    (he : parse_exponent tail = some (e10, neg)) :
    parse_unsigned (w ++ tail) = some (decimal_double whole 0 e10 neg) := by
  have hrun := take_digits_run w 0 0 whole tail hw (by
    intro c r h
    rw [htail c r h]
    decide)
  have hlen : 0 + w.length ≠ 0 := by
    have := List.length_pos.mpr hw0
    omega
  unfold parse_unsigned
  simp only [hrun]
  cases tail with
  | nil =>
    simp only []
    rw [if_neg hlen]
    have : parse_exponent [] = some (0, false) := rfl
    rw [this] at he
    have h2 := Option.some.inj he
    rw [Prod.mk.injEq] at h2
    rw [← h2.1, ← h2.2]
  | cons c r =>
    have hc := htail c r rfl
    simp only []
    rw [if_neg (by rw [hc]; decide), if_neg hlen, he]

theorem parse_unsigned_point (w f tail : List Char) (whole mant e10 : Nat) (neg : Bool)
    (hw : parse_digits 0 w = some whole) (hf : parse_digits whole f = some mant)
    (hw0 : w ≠ []) (htail : ∀ c r, tail = c :: r → c = 'e')
    (he : parse_exponent tail = some (e10, neg)) :
    parse_unsigned (w ++ '.' :: (f ++ tail)) = some (decimal_double mant f.length e10 neg) := by
  have hrun := take_digits_run w 0 0 whole ('.' :: (f ++ tail)) hw (by
    intro c r h
    rw [← (List.cons.inj h).1]
    decide)
  have hrun2 := take_digits_run f whole 0 mant tail hf (by
    intro c r h
    rw [htail c r h]
    decide)
  have hlen : ¬ (0 + w.length + (0 + f.length) = 0) := by
    have := List.length_pos.mpr hw0
    omega
  unfold parse_unsigned
  simp only [hrun, if_true, hrun2]
  rw [if_neg hlen, he]
  simp

theorem layout_point (digits tail : List Char) (d k e10 : Nat) (neg : Bool)
    (hd : parse_digits 0 digits = some d) (hlen : digits.length = 17)
    (hk1 : 1 ≤ k) (hk2 : k ≤ 17) (htail : ∀ c r, tail = c :: r → c = 'e')
    (he : parse_exponent tail = some (e10, neg)) :
    ∃ m frac, parse_unsigned (digits.take k
        ++ (if strip_zeros (digits.drop k) = [] then []
            else '.' :: strip_zeros (digits.drop k)) ++ tail)
        = some (decimal_double m frac e10 neg) ∧
      frac ≤ 17 - k ∧ d = m * 10 ^ (17 - k - frac) := by
  have hsplit : parse_digits 0 (digits.take k ++ digits.drop k) = some d := by
    rw [List.take_append_drop]
    exact hd
  obtain ⟨whole, hw, hrest⟩ := parse_digits_split _ _ _ _ hsplit
  obtain ⟨m, z, hm, hv, hl⟩ := strip_zeros_value _ _ _ hrest
  have hdl : (digits.drop k).length = 17 - k := by
    rw [List.length_drop, hlen]
  have hw0 : digits.take k ≠ [] := by
    intro h
    have h2 : (digits.take k).length = 0 := by rw [h]; rfl
    rw [List.length_take, hlen] at h2
    omega
  rw [hdl] at hl
  generalize strip_zeros (digits.drop k) = r at *
  refine ⟨m, r.length, ?_, by omega, ?_⟩
  · by_cases hr : r = []
    · rw [if_pos hr, List.append_nil]
      rw [hr] at hm
      simp only [parse_digits, Option.some.injEq] at hm
      rw [hr, ← hm]
      exact parse_unsigned_plain _ _ _ _ _ hw hw0 htail he
    · rw [if_neg hr, List.append_assoc, List.cons_append]
      exact parse_unsigned_point _ _ _ _ _ _ _ hw hm hw0 htail he
  · have : 17 - k - r.length = z := by omega
    rw [this]
    exact hv

theorem layout_small (digits : List Char) (d j : Nat)
    (hd : parse_digits 0 digits = some d) (hlen : digits.length = 17) :
    ∃ m r z, parse_unsigned ('0' :: '.' :: (List.replicate j '0' ++ strip_zeros digits))
        = some (decimal_double m (j + r) 0 false) ∧
      r + z = 17 ∧ d = m * 10 ^ z := by
  obtain ⟨m, z, hm, hv, hl⟩ := strip_zeros_value _ _ _ hd
  rw [hlen] at hl
  generalize strip_zeros digits = r at *
  refine ⟨m, r.length, z, ?_, hl, hv⟩
  have hf : parse_digits 0 (List.replicate j '0' ++ r) = some m := by
    rw [parse_digits_concat, parse_digits_zeros]
    simp only [Option.some_bind, zero_mul]
    exact hm
  have h := parse_unsigned_point ['0'] (List.replicate j '0' ++ r) [] 0 m 0 false rfl hf
    (List.cons_ne_nil _ _) (fun c r h => List.noConfusion h) rfl
  rw [List.append_nil, List.length_append, List.length_replicate] at h
  exact h

theorem neg_exponent_cast (t : Nat) :
    (if decide (t < 324) = true then -(((if 324 ≤ t then t - 324 else 324 - t : ℕ)) : ℤ)
      else (((if 324 ≤ t then t - 324 else 324 - t : ℕ)) : ℤ)) = (t : ℤ) - 324 := by
  by_cases h : 324 ≤ t
  · rw [if_pos h, if_neg (by simp; omega)]
    omega
  · rw [if_neg h, if_pos (by simp; omega)]
    omega

theorem scaled_value (m : ℚ) (z : ℕ) (a b : ℤ) (h : a = (z : ℤ) + b) :
    m * (10 : ℚ) ^ a = m * (10 : ℚ) ^ z * (10 : ℚ) ^ b := by
  rw [h, zpow_add₀ (by norm_num : (10 : ℚ) ≠ 0), zpow_natCast, mul_assoc]

theorem put_layout_parse (d t : Nat) (hd1 : 10 ^ 16 ≤ d) (hd2 : d < 10 ^ 17) :
    ∃ m frac e10 neg, parse_unsigned (put_layout (put_nat d) t)
        = some (decimal_double m frac e10 neg) ∧ m ≠ 0 ∧
      (m : ℚ) * (10 : ℚ) ^ ((if neg = true then -(e10 : ℤ) else (e10 : ℤ)) - (frac : ℤ))
        = (d : ℚ) * (10 : ℚ) ^ ((t : ℤ) - 340) := by
  have hd := parse_digits_put_nat d
  have hlen := put_nat_length 16 d hd1 hd2
  have hdpos : 0 < d := lt_of_lt_of_le (pow_pos (by norm_num) _) hd1
  have h10 : (10 : ℚ) ≠ 0 := by norm_num
  generalize put_nat d = digits at *
  unfold put_layout
  by_cases h1 : t < 320 ∨ 341 ≤ t
  · rw [if_pos h1]
    obtain ⟨m, frac, hp, hf, hv⟩ := layout_point digits (put_exponent t) d 1 _ _ hd hlen
      (le_refl 1) (by norm_num)
      (by
        intro c r h
        unfold put_exponent at h
        exact (List.cons.inj h).1.symm)
      (parse_exponent_put t)
    refine ⟨m, frac, _, _, hp, ?_, ?_⟩
    · intro h0
      rw [h0, zero_mul] at hv
      omega
    · rw [neg_exponent_cast, hv]
      push_cast
      exact scaled_value _ _ _ _ (by omega)
  · rw [if_neg h1]
    by_cases h2 : 324 ≤ t
    · rw [if_pos h2]
      obtain ⟨m, frac, hp, hf, hv⟩ := layout_point digits [] d (t - 323) 0 false hd hlen
        (by omega) (by omega) (fun c r h => List.noConfusion h) rfl
      rw [List.append_nil] at hp
      refine ⟨m, frac, 0, false, hp, ?_, ?_⟩
      · intro h0
        rw [h0, zero_mul] at hv
        omega
      · have e : (if false = true then -((0 : ℕ) : ℤ) else ((0 : ℕ) : ℤ)) = 0 := by simp
        rw [e, hv]
        push_cast
        exact scaled_value _ _ _ _ (by omega)
    · rw [if_neg h2]
      obtain ⟨m, r, z, hp, hl, hv⟩ := layout_small digits d (323 - t) hd hlen
      refine ⟨m, 323 - t + r, 0, false, hp, ?_, ?_⟩
      · intro h0
        rw [h0, zero_mul] at hv
        omega
      · have e : (if false = true then -((0 : ℕ) : ℤ) else ((0 : ℕ) : ℤ)) = 0 := by simp
        rw [e, hv]
        push_cast
        exact scaled_value _ _ _ _ (by omega)

theorem decimal_double_fraction (m frac e10 : Nat) (neg : Bool) (hm : m ≠ 0) :
    ∃ num den, 0 < den ∧ decimal_double m frac e10 neg = nearest_double num den ∧
      (num : ℚ) / den
        = (m : ℚ) * (10 : ℚ) ^ ((if neg = true then -(e10 : ℤ) else (e10 : ℤ)) - (frac : ℤ)) := by
  have h10 : (10 : ℚ) ≠ 0 := by norm_num
  unfold decimal_double
  rw [if_neg hm]
  by_cases hn : neg = true
  · rw [if_pos hn, if_pos hn]
    refine ⟨m, 10 ^ (frac + e10), pow_pos (by norm_num) _, rfl, ?_⟩
    have e : -(e10 : ℤ) - (frac : ℤ) = -((frac + e10 : ℕ) : ℤ) := by omega
    rw [e, zpow_neg, zpow_natCast]
    push_cast
    rfl
  · rw [if_neg hn, if_neg hn]
    by_cases hf : frac ≤ e10
    · rw [if_pos hf]
      refine ⟨m * 10 ^ (e10 - frac), 1, by norm_num, rfl, ?_⟩
      have e : (e10 : ℤ) - (frac : ℤ) = ((e10 - frac : ℕ) : ℤ) := by omega
      rw [e, zpow_natCast]
      push_cast
      simp
    · rw [if_neg hf]
      refine ⟨m, 10 ^ (frac - e10), pow_pos (by norm_num) _, rfl, ?_⟩
      have e : (e10 : ℤ) - (frac : ℤ) = -((frac - e10 : ℕ) : ℤ) := by omega
      rw [e, zpow_neg, zpow_natCast]
      push_cast
      rfl

/-! ## A finite double is read back from its seventeen digits -/

theorem parse_put_positive (bits u M : Nat)
    (hu : u = if exponent_field bits = 0 then 1 else exponent_field bits)
    (hM : M = if exponent_field bits = 0 then fraction_field bits
      else 2 ^ 52 + fraction_field bits)
    (hfin : exponent_field bits ≠ 2047) (hpos : (double_fraction bits).1 ≠ 0) :
    parse_unsigned (put_positive (double_fraction bits).1 (double_fraction bits).2)
      = some ((u - 1) * 2 ^ 52 + M) := by
  obtain ⟨hD, hz, hval⟩ := double_fraction_value bits u M hu hM
  have he : exponent_field bits < 2048 := Nat.mod_lt _ (by norm_num)
  have hf : fraction_field bits < 2 ^ 52 := Nat.mod_lt _ (by norm_num)
  have hu1 : 1 ≤ u := by
    rw [hu]
    split_ifs <;> omega
  have hu2 : u ≤ 2046 := by
    rw [hu]
    split_ifs <;> omega
  have hM1 : 1 ≤ M := by
    have : M ≠ 0 := fun h => hpos (hz.mpr h)
    omega
  have hM2 : M < 2 ^ 53 := by
    rw [hM]
    norm_num at hf ⊢
    split_ifs <;> omega
  have hnorm : 2 ≤ u → 2 ^ 52 ≤ M := by
    intro h2
    have h0 : ¬ exponent_field bits = 0 := by
      intro h0
      rw [if_pos h0] at hu
      omega
    rw [hM, if_neg h0]
    exact Nat.le_add_right _ _
  obtain ⟨b1, b2⟩ := double_value_bounds M u hM1 hM2 hu1 hu2
  rw [← hval] at b1 b2
  have h0 : ge_pow10 (double_fraction bits).1 (double_fraction bits).2 0 = true :=
    (ge_pow10_iff _ _ 0 hD).mpr b1
  have h633 : ge_pow10 (double_fraction bits).1 (double_fraction bits).2 633 = false := by
    by_contra hc
    have hc2 : ge_pow10 (double_fraction bits).1 (double_fraction bits).2 633 = true := by
      simpa using hc
    have := (ge_pow10_iff _ _ 633 hD).mp hc2
    exact absurd b2 (not_lt.mpr this)
  obtain ⟨d, t, hlay, hd1, hd2, -, hclose⟩ := put_positive_value _ _ hD h0 h633
  obtain ⟨m, frac, e10, neg, hp, hm0, hw⟩ := put_layout_parse d t hd1 hd2
  obtain ⟨num, den, hden, hdd, hnd⟩ := decimal_double_fraction m frac e10 neg hm0
  have hn := nearest_double_eq num den u M hden hu1 hu2 hM2 hnorm (by
    rw [hnd, hw, ← hval]
    exact hclose)
  rw [hlay, hp, hdd, hn]

theorem bits_decompose (bits : Nat) (hb : bits < 2 ^ 64) :
    bits = sign_bit bits * 2 ^ 63 + exponent_field bits * 2 ^ 52 + fraction_field bits := by
  unfold sign_bit exponent_field fraction_field
  norm_num at hb ⊢
  omega

theorem parse_double_put_double (bits : Nat) (hb : bits < 2 ^ 64)
    (hfin : exponent_field bits ≠ 2047) :
    parse_double (put_double bits) = some bits := by
  have hdec := bits_decompose bits hb
  have hs : sign_bit bits < 2 := Nat.mod_lt _ (by norm_num)
  have hbody : ∃ body, starts_with_digit body ∧
      (if (double_fraction bits).1 = 0 then ['0']
        else put_positive (double_fraction bits).1 (double_fraction bits).2) = body ∧
      parse_unsigned body = some (exponent_field bits * 2 ^ 52 + fraction_field bits) := by
    by_cases hz : (double_fraction bits).1 = 0
    · rw [if_pos hz]
      refine ⟨['0'], ⟨'0', [], rfl, by decide⟩, rfl, ?_⟩
      obtain ⟨-, hz2, -⟩ := double_fraction_value bits _ _ rfl rfl
      have hM0 := hz2.mp hz
      by_cases h0 : exponent_field bits = 0
      · rw [if_pos h0] at hM0
        rw [h0, hM0]
        rfl
      · rw [if_neg h0] at hM0
        have : 0 < 2 ^ 52 := by norm_num
        omega
    · rw [if_neg hz]
      refine ⟨_, put_positive_starts _ _, rfl, ?_⟩
      have key : ((if exponent_field bits = 0 then 1 else exponent_field bits) - 1) * 2 ^ 52
          + (if exponent_field bits = 0 then fraction_field bits
              else 2 ^ 52 + fraction_field bits)
          = exponent_field bits * 2 ^ 52 + fraction_field bits := by
        by_cases h0 : exponent_field bits = 0
        · rw [if_pos h0, if_pos h0, h0]
        · rw [if_neg h0, if_neg h0]
          have : exponent_field bits = (exponent_field bits - 1) + 1 := by omega
          conv_rhs => rw [this]
          ring
      rw [parse_put_positive bits _ _ rfl rfl hfin hz, key]
  obtain ⟨body, hstart, hbody1, hbody2⟩ := hbody
  unfold put_double
  simp only []
  rw [hbody1]
  by_cases h1 : sign_bit bits = 1
  · rw [if_pos h1]
    unfold parse_double
    simp only [if_true, hbody2]
    rw [h1] at hdec
    apply congrArg some
    omega
  · rw [if_neg h1]
    obtain ⟨c, rest, hc, hdig⟩ := hstart
    have hc2 : c ≠ '-' := by
      intro h
      rw [h] at hdig
      exact absurd hdig (by decide)
    rw [hc] at hbody2 ⊢
    unfold parse_double
    simp only [if_neg hc2, hbody2]
    have : sign_bit bits = 0 := by omega
    rw [this] at hdec
    apply congrArg some
    omega

/-! ## The written text of a trip fare table -/

theorem join_fields_eq_intercalate (delim : Char) (fields : List (List Char)) :
    join_fields delim fields = List.intercalate [delim] fields := by
  induction fields with
  | nil => simp [join_fields, List.intercalate]
  | cons f rest ih =>
    cases rest with
    | nil => simp [join_fields, intercalate_single]
    | cons g more =>
      rw [join_fields, if_pos (by simp), ih, intercalate_cons_cons]
      simp

theorem cell_field_string_at (elts : List (Option (List Char))) (i : Nat) (delim : Char)
    (na s : List Char) (h : elts[i]? = some (some s)) :
    cell_field (.STRSXP elts) i delim na = field_text s delim na := by
  unfold cell_field
  rw [stream_delim_elt_string [] elts i delim na s h]
  simp

theorem cell_field_real_at (elts : List Nat) (i : Nat) (value : Nat)
    (h : elts[i]? = some value) :
    cell_field (.REALSXP elts) i ',' ['N', 'A'] = real_text value := by
  simp only [cell_field, real_text, stream_delim_elt, h, List.getElem?_cons_zero]

theorem map_range_eq {α β : Type} (rows : List α) (F : Nat → β) (G : α → β)
    (h : ∀ i r, rows[i]? = some r → F i = G r) :
    (List.range rows.length).map F = rows.map G := by
  apply List.ext_getElem
  · simp
  · intro i h1 h2
    have hi : i < rows.length := by simpa using h2
    simp only [List.getElem_map, List.getElem_range]
    exact h i rows[i] (List.getElem?_eq_getElem hi)

theorem trip_fare_table_fields (rows : List TripFareRow) (i : Nat) (r : TripFareRow)
    (h : rows[i]? = some r) :
    (trip_fare_table rows).map (fun x => cell_field x i ',' ['N', 'A']) = row_fields r := by
  have hs : ∀ f : TripFareRow → List Char,
      cell_field (.STRSXP (rows.map (fun q => some (f q)))) i ',' ['N', 'A']
        = field_text (f r) ',' ['N', 'A'] := by
    intro f
    apply cell_field_string_at
    rw [List.getElem?_map, h]
    rfl
  have hr : ∀ f : TripFareRow → Nat,
      cell_field (.REALSXP (rows.map f)) i ',' ['N', 'A'] = real_text (f r) := by
    intro f
    apply cell_field_real_at
    rw [List.getElem?_map, h]
    rfl
  simp only [trip_fare_table, List.map_cons, List.map_nil, row_fields]
  rw [hs (fun q => q.medallion), hs (fun q => q.hack_license), hs (fun q => q.vendor_id),
    hs (fun q => q.pickup_datetime), hs (fun q => q.payment_type),
    hr (fun q => q.fare_amount), hr (fun q => q.surcharge), hr (fun q => q.mta_tax),
    hr (fun q => q.tip_amount), hr (fun q => q.tolls_amount), hr (fun q => q.total_amount)]

theorem trip_fare_table_lines (rows : List TripFareRow) :
    (List.range rows.length).map (fun i => row_line (trip_fare_table rows) i ',' ['N', 'A'])
      = rows.map (fun r => join_fields ',' (row_fields r) ++ ['\n']) := by
  apply map_range_eq
  intro i r h
  rw [row_line, trip_fare_table_fields rows i r h, join_fields_eq_intercalate]

theorem trip_fare_table_supported (rows : List TripFareRow) :
    ∀ x ∈ trip_fare_table rows, is_supported x = true ∧ Rf_length x = rows.length := by
  intro x hx
  simp only [trip_fare_table, List.mem_cons, List.mem_singleton, List.not_mem_nil,
    or_false] at hx
  rcases hx with h | h | h | h | h | h | h | h | h | h | h <;>
  · subst h
    simp [is_supported, Rf_length]

theorem names_row_cells (names : List (List Char)) :
    List.Forall₂ (string_cell_at 0) (names_row (names.map some)) names := by
  induction names with
  | nil => exact List.Forall₂.nil
  | cons name rest ih => exact List.Forall₂.cons ⟨_, rfl, rfl⟩ ih

/-- The header line for names that are all present. -/
theorem stream_delim_names_loop_present (names : List (List Char)) (delim : Char)
    (na : List Char) (output : Stream) :
    stream_delim_names_loop (.STRSXP (names.map some)) delim na names.length names.length 0
        output
      = .ok (output ++ join_fields delim (names.map (fun s => field_text s delim na))) := by
  have h := stream_delim_names_loop_eq_row (names.map some) delim na names.length 0 output
    (by simp)
  simp only [List.length_map, List.drop_zero] at h
  rw [h]
  exact stream_delim_row_loop_strings 0 delim na _ names (names_row_cells names) output

/-- The text written, header included, for the table that holds the given
rows. -/
theorem stream_delim_df_trip_fare (T : RList) (rows : List TripFareRow)
    (he : T.elts = trip_fare_table rows) (hn : T.names = trip_fare_names.map some) :
    stream_delim_df [] T ',' ['N', 'A'] true false
      = .ok (((trip_fare_names.map (fun s => field_text s ',' ['N', 'A'])
            :: rows.map row_fields).map (fun r => join_fields ',' r ++ ['\n'])).flatten) := by
  have hh := stream_delim_names_loop_present trip_fare_names ',' ['N', 'A'] []
  have hrows := stream_delim_rows_loop_supported (trip_fare_table rows) ',' ['N', 'A']
    rows.length (trip_fare_table_supported rows) rows.length 0
  rw [← List.range_eq_range', trip_fare_table_lines] at hrows
  have hlen : trip_fare_names.length = 11 := rfl
  rw [hlen] at hh
  unfold stream_delim_df
  rw [he, hn]
  simp only [trip_fare_table, List.length_cons, List.length_nil, if_true, Rf_length,
    List.length_map] at hrows ⊢
  rw [hh]
  simp only []
  rw [hrows _ (by omega)]
  simp [List.map_map, Function.comp_def]

/-! ## Reading the written text of a trip fare table -/

theorem row_fields_unquoted (r : TripFareRow) : (row_fields r).map unquote = row_values r := by
  simp [row_fields, row_values, unquote_field_text, unquote_real_text]

theorem row_fields_ok (r : TripFareRow) :
    row_fields r ≠ [] ∧ ∀ f ∈ row_fields r, field_ok ',' f := by
  refine ⟨by simp [row_fields], ?_⟩
  intro f hf
  simp only [row_fields, List.mem_cons, List.mem_singleton, List.not_mem_nil,
    or_false] at hf
  rcases hf with h | h | h | h | h | h | h | h | h | h | h <;>
  · subst h
    first
      | exact field_ok_field_text ',' _ _
      | exact field_ok_real_text _

theorem read_records_trip_fare (rows : List TripFareRow) :
    read_records ','
        (((trip_fare_names.map (fun s => field_text s ',' ['N', 'A'])
            :: rows.map row_fields).map (fun r => join_fields ',' r ++ ['\n'])).flatten)
      = trip_fare_names :: rows.map row_values := by
  unfold read_records
  rw [scan_text_records ',' (by decide) (by decide)]
  · have h1 : (trip_fare_names.map (fun s => field_text s ',' ['N', 'A'])).map unquote
        = trip_fare_names := by
      simp [Function.comp_def, unquote_field_text]
    have h2 : (rows.map row_fields).map (fun record => record.map unquote)
        = rows.map row_values := by
      rw [List.map_map]
      apply List.map_congr_left
      intro r _
      exact row_fields_unquoted r
    rw [List.map_cons, h1, h2]
  · intro r hr
    rcases List.mem_cons.mp hr with h | h
    · subst h
      refine ⟨by decide, ?_⟩
      intro f hf
      obtain ⟨name, -, rfl⟩ := List.mem_map.mp hf
      exact field_ok_field_text ',' _ _
    · obtain ⟨q, -, rfl⟩ := List.mem_map.mp h
      exact row_fields_ok q

theorem find_columns_trip_fare :
    find_columns trip_fare_names trip_fare_names = some [0, 1, 2, 3, 4, 5, 6, 7, 8, 9, 10] := by
  decide

theorem select_fields_row (r : TripFareRow) :
    select_fields (row_values r) [0, 1, 2, 3, 4, 5, 6, 7, 8, 9, 10] = some (row_values r) := by
  rfl

theorem csv_row_values (r : TripFareRow) (h : row_reads_back r) :
    csv_row (row_values r) = some r := by
  obtain ⟨h5, h6, h7, h8, h9, h10⟩ := h
  simp only [csv_row, row_values, h5, h6, h7, h8, h9, h10]

theorem csv_rows_values (rows : List TripFareRow) (h : ∀ r ∈ rows, row_reads_back r) :
    ∀ i : Nat, csv_rows [0, 1, 2, 3, 4, 5, 6, 7, 8, 9, 10] i (rows.map row_values)
      = .ok rows := by
  induction rows with
  | nil =>
    intro i
    rfl
  | cons r rest ih =>
    intro i
    rw [List.map_cons, csv_rows, select_fields_row]
    simp only []
    rw [csv_row_values r (h r (List.mem_cons_self _ _))]
    simp only []
    rw [ih (fun q hq => h q (List.mem_cons_of_mem _ hq))]

theorem trip_fare_columns_full (junk : Nat → Nat → Nat) (rows : List TripFareRow) :
    trip_fare_columns rows.length junk rows = trip_fare_table rows := by
  simp [trip_fare_columns, trip_fare_table]

/-- The written text of the table that holds the given rows, read by the
modelled CSV reader and stored by `read_trip_fare` with the number of rows
as capacity, gives the columns back. -/
theorem read_trip_fare_text_written (junk : Nat → Nat → Nat) (rows : List TripFareRow)
    (h : ∀ r ∈ rows, row_reads_back r) :
    read_trip_fare_text rows.length junk
        (((trip_fare_names.map (fun s => field_text s ',' ['N', 'A'])
            :: rows.map row_fields).map (fun r => join_fields ',' r ++ ['\n'])).flatten)
      = .ok { elts := trip_fare_table rows,
              names := trip_fare_names.map some,
              klass := ["data.frame".toList],
              row_names := [NA_INTEGER, -(rows.length : Int)] } := by
  unfold read_trip_fare_text csv_read
  rw [read_records_trip_fare]
  simp only [find_columns_trip_fare]
  rw [csv_rows_values rows h 0]
  simp only []
  rw [read_trip_fare_sized_eq rows.length junk rows (le_refl _), trip_fare_columns_full]

/-! ## Every table of the reader's schema is the table of its rows -/

theorem list_eleven {α : Type} (l : List α) (h : l.length = 11) :
    ∃ x0 x1 x2 x3 x4 x5 x6 x7 x8 x9 x10, l = [x0, x1, x2, x3, x4, x5, x6, x7, x8, x9, x10] := by
  match l, h with
  | [x0, x1, x2, x3, x4, x5, x6, x7, x8, x9, x10], _ => exact ⟨x0, x1, x2, x3, x4, x5, x6, x7, x8, x9, x10, rfl⟩

theorem string_column_repr (e : List (Option (List Char))) (n : Nat) (hl : e.length = n)
    (hp : none ∉ e) : (List.range n).map (fun i => some (text_at e i)) = e := by
  apply List.ext_getElem
  · simp [hl]
  · intro i h1 h2
    simp only [List.getElem_map, List.getElem_range]
    have hm : e[i] ∈ e := List.getElem_mem _
    cases hc : e[i] with
    | none =>
      rw [hc] at hm
      exact absurd hm hp
    | some t =>
      have : e[i]? = some (some t) := by
        rw [List.getElem?_eq_getElem h2, hc]
      simp [text_at, this]

theorem real_column_repr (e : List Nat) (n : Nat) (hl : e.length = n) :
    (List.range n).map (fun i => (e[i]?).getD 0) = e := by
  apply List.ext_getElem
  · simp [hl]
  · intro i h1 h2
    simp [List.getElem?_eq_getElem h2]

theorem string_column_eq (x : SEXP) (n : Nat) (h1 : ∃ elts, x = SEXP.STRSXP elts)
    (h2 : Rf_length x = n) (h3 : ∀ elts, x = SEXP.STRSXP elts → none ∉ elts)
    (f : TripFareRow → List Char) (g : Nat → TripFareRow)
    (hfg : ∀ i, f (g i) = sexp_text x i) :
    x = SEXP.STRSXP (((List.range n).map g).map (fun r => some (f r))) := by
  obtain ⟨elts, rfl⟩ := h1
  have e := string_column_repr elts n h2 (h3 elts rfl)
  rw [List.map_map]
  congr 1
  rw [← e]
  apply List.map_congr_left
  intro i _
  simp only [Function.comp_apply, hfg, sexp_text]

theorem real_column_eq (x : SEXP) (n : Nat) (h1 : ∃ elts, x = SEXP.REALSXP elts)
    (h2 : Rf_length x = n) (f : TripFareRow → Nat) (g : Nat → TripFareRow)
    (hfg : ∀ i, f (g i) = sexp_real x i) :
    x = SEXP.REALSXP (((List.range n).map g).map f) := by
  obtain ⟨elts, rfl⟩ := h1
  have e := real_column_repr elts n h2
  rw [List.map_map]
  congr 1
  rw [← e]
  apply List.map_congr_left
  intro i _
  simp only [Function.comp_apply, hfg, sexp_real]

theorem sexp_real_mem (x : SEXP) (n i : Nat) (h1 : ∃ elts, x = SEXP.REALSXP elts)
    (h2 : Rf_length x = n) (hi : i < n) : sexp_real x i ∈ doubles_of x := by
  obtain ⟨elts, rfl⟩ := h1
  have hl : i < elts.length := by
    rw [show elts.length = n from h2]
    exact hi
  simp only [sexp_real, doubles_of, List.getElem?_eq_getElem hl, Option.getD_some]
  exact List.getElem_mem _

/-- A table with the schema of `read_trip_fare`, `n` rows and no missing
string is the table of its `n` rows, and every double of a row is a double
of one of its columns. -/
theorem trip_fare_table_of_schema (n : Nat) (out : List SEXP)
    (hs : trip_fare_schema n out) (hp : all_present out) :
    ∃ rows : List TripFareRow, rows.length = n ∧ out = trip_fare_table rows ∧
      ∀ r ∈ rows, ∀ value ∈ [r.fare_amount, r.surcharge, r.mta_tax, r.tip_amount,
          r.tolls_amount, r.total_amount], ∃ x ∈ out, value ∈ doubles_of x := by
  obtain ⟨hlen, hlens, hstr, hreal⟩ := hs
  obtain ⟨x0, x1, x2, x3, x4, x5, x6, x7, x8, x9, x10, rfl⟩ := list_eleven out hlen
  refine ⟨(List.range n).map (row_at x0 x1 x2 x3 x4 x5 x6 x7 x8 x9 x10), by simp, ?_, ?_⟩
  · exact List.cons_eq_cons.mpr ⟨(string_column_eq x0 n (hstr 0 x0 (by decide) rfl) (hlens 0 x0 rfl)
        (hp x0 (by simp)) (fun r => r.medallion) (row_at x0 x1 x2 x3 x4 x5 x6 x7 x8 x9 x10) (fun _ => rfl)), List.cons_eq_cons.mpr ⟨(string_column_eq x1 n (hstr 1 x1 (by decide) rfl) (hlens 1 x1 rfl)
        (hp x1 (by simp)) (fun r => r.hack_license) (row_at x0 x1 x2 x3 x4 x5 x6 x7 x8 x9 x10) (fun _ => rfl)), List.cons_eq_cons.mpr ⟨(string_column_eq x2 n (hstr 2 x2 (by decide) rfl) (hlens 2 x2 rfl)
        (hp x2 (by simp)) (fun r => r.vendor_id) (row_at x0 x1 x2 x3 x4 x5 x6 x7 x8 x9 x10) (fun _ => rfl)), List.cons_eq_cons.mpr ⟨(string_column_eq x3 n (hstr 3 x3 (by decide) rfl) (hlens 3 x3 rfl)
        (hp x3 (by simp)) (fun r => r.pickup_datetime) (row_at x0 x1 x2 x3 x4 x5 x6 x7 x8 x9 x10) (fun _ => rfl)), List.cons_eq_cons.mpr ⟨(string_column_eq x4 n (hstr 4 x4 (by decide) rfl) (hlens 4 x4 rfl)
        (hp x4 (by simp)) (fun r => r.payment_type) (row_at x0 x1 x2 x3 x4 x5 x6 x7 x8 x9 x10) (fun _ => rfl)), List.cons_eq_cons.mpr ⟨(real_column_eq x5 n (hreal 5 x5 (by decide) rfl) (hlens 5 x5 rfl)
        (fun r => r.fare_amount) (row_at x0 x1 x2 x3 x4 x5 x6 x7 x8 x9 x10) (fun _ => rfl)), List.cons_eq_cons.mpr ⟨(real_column_eq x6 n (hreal 6 x6 (by decide) rfl) (hlens 6 x6 rfl)
        (fun r => r.surcharge) (row_at x0 x1 x2 x3 x4 x5 x6 x7 x8 x9 x10) (fun _ => rfl)), List.cons_eq_cons.mpr ⟨(real_column_eq x7 n (hreal 7 x7 (by decide) rfl) (hlens 7 x7 rfl)
        (fun r => r.mta_tax) (row_at x0 x1 x2 x3 x4 x5 x6 x7 x8 x9 x10) (fun _ => rfl)), List.cons_eq_cons.mpr ⟨(real_column_eq x8 n (hreal 8 x8 (by decide) rfl) (hlens 8 x8 rfl)
        (fun r => r.tip_amount) (row_at x0 x1 x2 x3 x4 x5 x6 x7 x8 x9 x10) (fun _ => rfl)), List.cons_eq_cons.mpr ⟨(real_column_eq x9 n (hreal 9 x9 (by decide) rfl) (hlens 9 x9 rfl)
        (fun r => r.tolls_amount) (row_at x0 x1 x2 x3 x4 x5 x6 x7 x8 x9 x10) (fun _ => rfl)), List.cons_eq_cons.mpr ⟨(real_column_eq x10 n (hreal 10 x10 (by decide) rfl) (hlens 10 x10 rfl)
        (fun r => r.total_amount) (row_at x0 x1 x2 x3 x4 x5 x6 x7 x8 x9 x10) (fun _ => rfl)), rfl⟩⟩⟩⟩⟩⟩⟩⟩⟩⟩⟩
  · intro r hr value hv
    obtain ⟨i, hi, rfl⟩ := List.mem_map.mp hr
    have hi2 : i < n := List.mem_range.mp hi
    simp only [List.mem_cons, List.mem_singleton, List.not_mem_nil, or_false] at hv
    rcases hv with rfl | rfl | rfl | rfl | rfl | rfl
    · exact ⟨x5, by simp, sexp_real_mem x5 n i (hreal 5 x5 (by decide) rfl)
        (hlens 5 x5 rfl) hi2⟩
    · exact ⟨x6, by simp, sexp_real_mem x6 n i (hreal 6 x6 (by decide) rfl)
        (hlens 6 x6 rfl) hi2⟩
    · exact ⟨x7, by simp, sexp_real_mem x7 n i (hreal 7 x7 (by decide) rfl)
        (hlens 7 x7 rfl) hi2⟩
    · exact ⟨x8, by simp, sexp_real_mem x8 n i (hreal 8 x8 (by decide) rfl)
        (hlens 8 x8 rfl) hi2⟩
    · exact ⟨x9, by simp, sexp_real_mem x9 n i (hreal 9 x9 (by decide) rfl)
        (hlens 9 x9 rfl) hi2⟩
    · exact ⟨x10, by simp, sexp_real_mem x10 n i (hreal 10 x10 (by decide) rfl)
        (hlens 10 x10 rfl) hi2⟩

/-! ## The round trip of a table -/

theorem length_modify_nth {α : Type} (f : α → α) (l : List α) :
    ∀ c : Nat, (modify_nth f c l).length = l.length := by
  induction l with
  | nil =>
    intro c
    cases c <;> rfl
  | cons a t ih =>
    intro c
    cases c with
    | zero => rfl
    | succ c => simp [modify_nth, ih]

theorem length_trip_fare_store (out : List SEXP) (i : Nat) (row : TripFareRow) :
    (trip_fare_store out i row).length = out.length := by
  simp [trip_fare_store, length_modify_nth]

theorem length_trip_fare_loop (n : Nat) (rows : List TripFareRow) :
    ∀ (out : List SEXP) (i : Nat) (out2 : List SEXP) (k : Nat),
      trip_fare_loop n rows out i = .ok (out2, k) → out2.length = out.length := by
  induction rows with
  | nil =>
    intro out i out2 k he
    simp only [trip_fare_loop, Except.ok.injEq, Prod.mk.injEq] at he
    rw [← he.1]
  | cons row rest ih =>
    intro out i out2 k he
    unfold trip_fare_loop at he
    by_cases hi : i < n
    · rw [if_pos hi] at he
      rw [ih _ _ _ _ he, length_trip_fare_store]
    · rw [if_neg hi] at he
      exact absurd he (by simp)

/-- Whatever rows the CSV reader hands over and whatever the capacity, the
table `read_trip_fare` returns has eleven columns. -/
theorem read_trip_fare_eleven (n : Nat) (junk : Nat → Nat → Nat)
    (rows : List TripFareRow) (result : RList)
    (h : read_trip_fare_sized n junk rows = .ok result) : result.elts.length = 11 := by
  unfold read_trip_fare_sized at h
  cases hl : trip_fare_loop n rows (trip_fare_alloc n junk) 0 with
  | error e =>
    rw [hl] at h
    exact absurd h (by simp)
  | ok pair =>
    obtain ⟨out, k⟩ := pair
    rw [hl] at h
    simp only [Except.ok.injEq] at h
    rw [← h]
    simp only []
    rw [length_trip_fare_loop n rows _ 0 out k hl]
    simp [trip_fare_alloc]

theorem round_trip_example_elts : round_trip_example.elts = trip_fare_table round_trip_rows :=
  rfl

theorem round_trip_example_schema : trip_fare_schema 2 round_trip_example.elts := by
  have h := trip_fare_columns_schema 2 (fun _ _ => 0) round_trip_rows (by decide)
  rw [show (2 : Nat) = round_trip_rows.length from rfl, trip_fare_columns_full] at h
  exact h

theorem round_trip_example_present : all_present round_trip_example.elts := by
  intro x hx elts he
  subst he
  simp only [round_trip_example, List.mem_cons, List.mem_singleton, List.not_mem_nil,
    or_false, SEXP.STRSXP.injEq, reduceCtorEq] at hx
  rcases hx with h | h | h | h | h <;>
  · subst h
    decide

theorem trip_fare_loop_bound (n : Nat) (rows : List TripFareRow) :
    ∀ (out : List SEXP) (i : Nat) (out2 : List SEXP) (k : Nat),
      trip_fare_loop n rows out i = .ok (out2, k) → rows = [] ∨ i + rows.length ≤ n := by
  induction rows with
  | nil =>
    intro out i out2 k _
    exact Or.inl rfl
  | cons row rest ih =>
    intro out i out2 k he
    unfold trip_fare_loop at he
    by_cases hi : i < n
    · rw [if_pos hi] at he
      right
      rcases ih _ _ _ _ he with h | h
      · rw [h]
        simp only [List.length_cons, List.length_nil]
        omega
      · simp only [List.length_cons]
        omega
    · rw [if_neg hi] at he
      exact absurd he (by simp)

/-- Whatever rows the CSV reader hands over and whatever the capacity, a
table `read_trip_fare` returns has the declared names and schema, and no
missing string. -/
theorem read_trip_fare_shape (n : Nat) (junk : Nat → Nat → Nat)
    (rows : List TripFareRow) (result : RList)
    (h : read_trip_fare_sized n junk rows = .ok result) :
    result.names = trip_fare_names.map some ∧ trip_fare_schema n result.elts ∧
      all_present result.elts := by
  have hp := read_trip_fare_all_present n junk rows result h
  have hlen : rows.length ≤ n := by
    unfold read_trip_fare_sized at h
    cases hl : trip_fare_loop n rows (trip_fare_alloc n junk) 0 with
    | error e =>
      rw [hl] at h
      exact absurd h (by simp)
    | ok pair =>
      obtain ⟨out, k⟩ := pair
      rcases trip_fare_loop_bound n rows _ 0 out k hl with h0 | h0
      · rw [h0]
        exact Nat.zero_le n
      · omega
  rw [read_trip_fare_sized_eq n junk rows hlen] at h
  simp only [Except.ok.injEq] at h
  rw [← h] at hp ⊢
  exact ⟨rfl, trip_fare_columns_schema n junk rows hlen, hp⟩

/-- The text written for a double that is not finite is no decimal number. -/
theorem real_text_nonfinite (value : Nat) (h : R_FINITE value = false) :
    parse_double (real_text value) = none := by
  unfold real_text cell_field
  simp only [stream_delim_elt, List.getElem?_cons_zero, List.nil_append, h, if_true]
  split_ifs <;> rfl

theorem real_text_finite (value : Nat) (h : R_FINITE value = true) :
    real_text value = put_double value := by
  unfold real_text cell_field
  simp [stream_delim_elt, h]

theorem real_text_reads_back (value : Nat) (hb : value < 2 ^ 64)
    (h : R_FINITE value = true) : parse_double (real_text value) = some value := by
  rw [real_text_finite value h]
  exact parse_double_put_double value hb (of_decide_eq_true h)

/-- C5 (amended): for every table with the schema of the reader (the eleven
columns named as declared, five string columns followed by six real
columns, all with `n` rows), with no missing string cell, and whose doubles
are finite (each a 64-bit pattern that is neither NA, nor another NaN, nor an
infinity), the table writer with delimiter `,`, NA string `NA` and the header
writes a text from which `read_trip_fare`, with capacity `n` and the CSV
reader as the spec describes it, returns a table with the same column names
and the same cells: every string is read back unquoted, and every double is
read back, bit for bit, from its seventeen significant digits. String cells
equal to the NA string are no exception. In particular, for every row of
one or more non-missing string cells, whatever the schema, a quote-aware
split of the written row line on `,` followed by unquoting returns exactly
the original cells, in order. -/
theorem C5_table_round_trip (junk : Nat → Nat → Nat) (T : RList) (n : Nat)
    (hnames : T.names = trip_fare_names.map some)
    (hschema : trip_fare_schema n T.elts)
    (hpresent : all_present T.elts)
    (hfinite : ∀ x ∈ T.elts, ∀ value ∈ doubles_of x,
      value < 2 ^ 64 ∧ R_FINITE value = true) :
    (∃ text, stream_delim_df [] T ',' ['N', 'A'] true false = .ok text ∧
      ∃ result, read_trip_fare_text n junk text = .ok result ∧
        result.elts = T.elts ∧ result.names = T.names) ∧
    (∀ (x : List SEXP) (i : Nat) (cells : List (List Char)),
      List.Forall₂ (string_cell_at i) x cells → cells ≠ [] →
      ∃ line, stream_delim_row [] x i ',' ['N', 'A'] = .ok line ∧
        read_record ',' line = cells) := by
  obtain ⟨rows, hlen, he, hd⟩ := trip_fare_table_of_schema n T.elts hschema hpresent
  have hback : ∀ r ∈ rows, row_reads_back r := by
    intro r hr
    have h := fun value hv => hd r hr value hv
    have hp : ∀ value ∈ [r.fare_amount, r.surcharge, r.mta_tax, r.tip_amount,
        r.tolls_amount, r.total_amount], parse_double (real_text value) = some value := by
      intro value hv
      obtain ⟨x, hx, hvx⟩ := h value hv
      obtain ⟨h64, hfin⟩ := hfinite x hx value hvx
      exact real_text_reads_back value h64 hfin
    exact ⟨hp _ (by simp), hp _ (by simp), hp _ (by simp), hp _ (by simp), hp _ (by simp),
      hp _ (by simp)⟩
  constructor
  · refine ⟨_, stream_delim_df_trip_fare T rows he hnames, ?_⟩
    subst hlen
    exact ⟨_, read_trip_fare_text_written junk rows hback, he.symm, hnames.symm⟩
  · intro x i cells hx hne
    refine ⟨join_fields ',' (cells.map (fun s => field_text s ',' ['N', 'A'])) ++ ['\n'],
      ?_, read_record_join ',' ['N', 'A'] (by decide) (by decide) cells hne⟩
    unfold stream_delim_row
    rw [stream_delim_row_loop_strings i ',' ['N', 'A'] x cells hx []]
    simp

theorem C5_table_round_trip_witness :
    (∃ text, stream_delim_df [] round_trip_example ',' ['N', 'A'] true false = .ok text ∧
      ∃ result, read_trip_fare_text 2 (fun _ _ => 0) text = .ok result ∧
        result.elts = round_trip_example.elts ∧
        result.names = round_trip_example.names) ∧
    (∃ line,
      stream_delim_row []
          [.STRSXP [some ['a', ',', 'b']], .STRSXP [some ['N', 'A']], .STRSXP [some []],
           .STRSXP [some ['x', '"', 'y']]] 0 ',' ['N', 'A'] = .ok line ∧
      read_record ',' line = [['a', ',', 'b'], ['N', 'A'], [], ['x', '"', 'y']]) :=
  have h := C5_table_round_trip (fun _ _ => 0) round_trip_example 2 rfl
    round_trip_example_schema round_trip_example_present (by decide)
  ⟨h.1, h.2 _ 0 [['a', ',', 'b'], ['N', 'A'], [], ['x', '"', 'y']]
    (List.Forall₂.cons ⟨_, rfl, rfl⟩ (List.Forall₂.cons ⟨_, rfl, rfl⟩
      (List.Forall₂.cons ⟨_, rfl, rfl⟩ (List.Forall₂.cons ⟨_, rfl, rfl⟩ List.Forall₂.nil))))
    (by decide)⟩

set_option maxRecDepth 100000 in
/-- C5 as stated fails, for each kind of table the amended statement leaves
out. The one-row table `trip_fare_example`, whose first cell is a missing
string, is written with delimiter `,` and NA string `NA` as a header line and
the line `NA,b,c,d,e,0,0,0,0,0,0`; whatever rows the CSV reader hands over
and whatever the capacity, `read_trip_fare` does not return the columns of
that table, since it stores every text field as a string. Nor does it ever
return a table of another schema, such as one integer column: every table it
returns has the declared names, the declared column types with as many rows
as the capacity, and no missing string. And a one-row table whose first
double is missing, another NaN, positive infinity or negative infinity is
written with the field `NA`, `NaN`, `Inf` or `-Inf` in a real column, and the
read fails: the text written for a double that is not finite is never a
decimal number. -/
theorem C5_counterexample :
    stream_delim_df [] trip_fare_example ',' ['N', 'A'] true false
      = .ok (("medallion,hack_license,vendor_id,pickup_datetime,payment_type,"
          ++ "fare_amount,surcharge,mta_tax,tip_amount,tolls_amount,total_amount\n"
          ++ "NA,b,c,d,e,0,0,0,0,0,0\n").toList) ∧
    (¬ ∃ (n : Nat) (junk : Nat → Nat → Nat) (rows : List TripFareRow) (result : RList),
      read_trip_fare_sized n junk rows = .ok result ∧
        result.elts = trip_fare_example.elts) ∧
    (¬ ∃ (n : Nat) (junk : Nat → Nat → Nat) (rows : List TripFareRow) (result : RList),
      read_trip_fare_sized n junk rows = .ok result ∧
        result.elts = [.INTSXP [1]]) ∧
    (¬ ∃ (n : Nat) (junk : Nat → Nat → Nat) (rows : List TripFareRow) (result : RList),
      read_trip_fare_sized n junk rows = .ok result ∧
        ¬ (result.names = trip_fare_names.map some ∧ trip_fare_schema n result.elts ∧
            all_present result.elts)) ∧
    stream_delim_df [] missing_double_example ',' ['N', 'A'] true false
      = .ok (("medallion,hack_license,vendor_id,pickup_datetime,payment_type,"
          ++ "fare_amount,surcharge,mta_tax,tip_amount,tolls_amount,total_amount\n"
          ++ "a,b,c,d,e,NA,0,0,0,0,0\n").toList) ∧
    read_trip_fare_text 1 (fun _ _ => 0)
        (("medallion,hack_license,vendor_id,pickup_datetime,payment_type,"
          ++ "fare_amount,surcharge,mta_tax,tip_amount,tolls_amount,total_amount\n"
          ++ "a,b,c,d,e,NA,0,0,0,0,0\n").toList)
      = .error (.field_parse_error 0) ∧
    stream_delim_df [] (first_double_example 0x7FF8000000000000) ',' ['N', 'A'] true false
      = .ok (("medallion,hack_license,vendor_id,pickup_datetime,payment_type,"
          ++ "fare_amount,surcharge,mta_tax,tip_amount,tolls_amount,total_amount\n"
          ++ "a,b,c,d,e,NaN,0,0,0,0,0\n").toList) ∧
    read_trip_fare_text 1 (fun _ _ => 0)
        (("medallion,hack_license,vendor_id,pickup_datetime,payment_type,"
          ++ "fare_amount,surcharge,mta_tax,tip_amount,tolls_amount,total_amount\n"
          ++ "a,b,c,d,e,NaN,0,0,0,0,0\n").toList)
      = .error (.field_parse_error 0) ∧
    stream_delim_df [] (first_double_example POS_INF) ',' ['N', 'A'] true false
      = .ok (("medallion,hack_license,vendor_id,pickup_datetime,payment_type,"
          ++ "fare_amount,surcharge,mta_tax,tip_amount,tolls_amount,total_amount\n"
          ++ "a,b,c,d,e,Inf,0,0,0,0,0\n").toList) ∧
    read_trip_fare_text 1 (fun _ _ => 0)
        (("medallion,hack_license,vendor_id,pickup_datetime,payment_type,"
          ++ "fare_amount,surcharge,mta_tax,tip_amount,tolls_amount,total_amount\n"
          ++ "a,b,c,d,e,Inf,0,0,0,0,0\n").toList)
      = .error (.field_parse_error 0) ∧
    stream_delim_df [] (first_double_example NEG_INF) ',' ['N', 'A'] true false
      = .ok (("medallion,hack_license,vendor_id,pickup_datetime,payment_type,"
          ++ "fare_amount,surcharge,mta_tax,tip_amount,tolls_amount,total_amount\n"
          ++ "a,b,c,d,e,-Inf,0,0,0,0,0\n").toList) ∧
    read_trip_fare_text 1 (fun _ _ => 0)
        (("medallion,hack_license,vendor_id,pickup_datetime,payment_type,"
          ++ "fare_amount,surcharge,mta_tax,tip_amount,tolls_amount,total_amount\n"
          ++ "a,b,c,d,e,-Inf,0,0,0,0,0\n").toList)
      = .error (.field_parse_error 0) ∧
    (¬ ∃ value : Nat, R_FINITE value = false ∧ parse_double (real_text value) ≠ none) := by
  refine ⟨rfl, ?_, ?_, ?_, rfl, by decide!, rfl, by decide!, rfl, by decide!, rfl, by decide!,
    ?_⟩
  · rintro ⟨n, junk, rows, result, hr, he⟩
    have hp := read_trip_fare_all_present n junk rows result hr
    rw [he] at hp
    exact hp (.STRSXP [none]) (by simp [trip_fare_example]) [none] rfl (by simp)
  · rintro ⟨n, junk, rows, result, hr, he⟩
    have hl := read_trip_fare_eleven n junk rows result hr
    rw [he] at hl
    exact absurd hl (by decide)
  · rintro ⟨n, junk, rows, result, hr, he⟩
    exact he (read_trip_fare_shape n junk rows result hr)
  · rintro ⟨value, hv, hp⟩
    exact hp (real_text_nonfinite value hv)

end Readr
